import Mathlib

/-! Block admission core of go-nebulas (core/block_pool.go)

A shallow embedding of `BlockPool` and its `push` admission path.

* Go pointers to `linkedBlock` are indices into an explicit heap (`BlockPool.heap`),
  so that a node removed from the cache and disposed can still be referenced by
  the nodes that were linked to it, exactly as in the Go program.
* The two `lru.Cache` fields are lists ordered from most to least recently used.
* The collaborators whose code is outside `block_pool.go` (chain store, consensus,
  block verification, protobuf marshalling) are fields of `Env` and `Wire`.
* A nil dereference is the outcome `panic`; a loop that exhausts its fuel is the
  outcome `diverge`.
* Calls that leave the pool (network, chain, consensus, counters, `Block.Dispose`) are
  recorded as a list of events.
-/

namespace Nebulas

set_option maxRecDepth 8192

/-- A `byteutils.Hash` (a byte string). `Hash.Hex` is injective, so cache keys are the
hashes themselves. -/
abbrev Hash := List Nat

/-- Raw wire bytes. -/
abbrev Bytes := List Nat

/-- The sentinel errors used by the pool, and every other error value. -/
inductive Err where
  | ErrDuplicatedBlock
  | ErrDoubleBlockMinted
  | ErrMissingParentBlock
  | ErrInvalidBlockCannotFindParentInLocalAndTrySync
  | ErrInvalidBlockCannotFindParentInLocalAndTryDownload
  | other (code : Nat)
  deriving DecidableEq, Repr

/-- The part of `Block` the pool reads: `Hash()`, `ParentHash()`, `Timestamp()`,
`Height()`, `Signature()`. Heights are compared as integers, as in
`int(lb.block.Height()) - int(bc.TailBlock().Height())`. -/
structure Block where
  hash : Hash
  parentHash : Hash
  timestamp : Int
  height : Nat
  signature : Hash
  deriving DecidableEq, Repr

/-- The message `corepb.DownloadBlock`. -/
structure DownloadBlock where
  hash : Hash
  sign : Hash
  deriving DecidableEq, Repr

inductive MessageType where
  | MessageTypeNewBlock
  | MessageTypeDownloadedBlock
  | MessageTypeDownloadedBlockReply
  | ChainSync
  | ChainChunks
  | ChainGetChunk
  | ChainChunkData
  | Other (name : String)
  deriving DecidableEq, Repr

inductive MessagePriority where
  | MessagePriorityHigh
  | MessagePriorityNormal
  | MessagePriorityLow
  deriving DecidableEq, Repr

/-- The observable calls made by the pool, in program order. `DisposeBlock` is the call
`block.Dispose()` of the slot's eviction callback; the last two are the counters
`metricsDuplicatedBlock` and `metricsInvalidBlock`. -/
inductive Event where
  | SendMsg (msgType : MessageType) (data : Bytes) (target : String)
      (priority : MessagePriority)
  | Relay (msgType : MessageType) (block : Block) (priority : MessagePriority)
  | Broadcast (msgType : MessageType) (block : Block) (priority : MessagePriority)
  | StartActiveSync (started : Bool)
  | PutVerifiedNewBlocks (parent : Block) (allBlocks tailBlocks : List Block)
  | ForkChoice
  | DisposeBlock (block : Block)
  | IncDuplicatedBlock
  | IncInvalidBlock
  deriving DecidableEq, Repr

/-- Calls into the network service. -/
def Event.isNetwork : Event → Bool
  | .SendMsg _ _ _ _ => true
  | .Relay _ _ _ => true
  | .Broadcast _ _ _ => true
  | _ => false

/-- How a Go call ends: it returns, it panics (nil dereference, write to a nil map),
or it does not terminate. -/
inductive Outcome (α : Type) where
  | ret (a : α)
  | panic
  | diverge
  deriving DecidableEq, Repr

/-- The collaborators of the pool, over a chain state `σ` (`*BlockChain`). -/
structure Env (σ : Type) where
  /-- The constant `ChunkSize`. -/
  ChunkSize : Int
  /-- `bc.GetBlock(hash)`; `none` is nil. -/
  GetBlock : σ → Hash → Option Block
  /-- `bc.TailBlock()`. -/
  TailBlock : σ → Block
  /-- `bc.StartActiveSync()`. -/
  StartActiveSync : σ → Bool × σ
  /-- `bc.putVerifiedNewBlocks(parent, allBlocks, tailBlocks)`. -/
  putVerifiedNewBlocks : σ → Block → List Block → List Block → Option Err × σ
  /-- `bc.ConsensusHandler().ForkChoice()`. -/
  ForkChoice : σ → Option Err × σ
  /-- `block.VerifyIntegrity(bc.chainID, bc.ConsensusHandler())`. -/
  VerifyIntegrity : σ → Block → Option Err
  /-- `block.LinkParentBlock(chain, parentBlock)`. -/
  LinkParentBlock : σ → Block → Block → Option Err
  /-- `block.VerifyExecution(parentBlock, chain.ConsensusHandler())`. -/
  VerifyExecution : σ → Block → Block → Option Err
  /-- `proto.Marshal` on a `corepb.DownloadBlock`. -/
  Marshal : DownloadBlock → Except Err Bytes

/-! ## The LRU cache (`lru.Cache` of hashicorp/golang-lru) -/

/-- An `lru.Cache`: `items` runs from the most recently used entry to the oldest. -/
structure Lru (κ ν : Type) where
  size : Nat
  items : List (κ × ν)
  deriving DecidableEq, Repr

namespace Lru

variable {κ ν : Type} [DecidableEq κ]

/-- The value stored under `k`, if any. -/
def lookup (k : κ) : List (κ × ν) → Option ν
  | [] => none
  | e :: es => if e.1 = k then some e.2 else lookup k es

/-- Drop the entry stored under `k`. -/
def eraseKey (k : κ) : List (κ × ν) → List (κ × ν)
  | [] => []
  | e :: es => if e.1 = k then es else e :: eraseKey k es

/-- `Contains` checks a key without updating recency. -/
def Contains (c : Lru κ ν) (k : κ) : Bool := (lookup k c.items).isSome

/-- `Get` returns the value and moves the entry to the front. -/
def Get (c : Lru κ ν) (k : κ) : Option ν × Lru κ ν :=
  match lookup k c.items with
  | none => (none, c)
  | some v => (some v, { c with items := (k, v) :: eraseKey k c.items })

/-- `Add` stores a value at the front; a new key that makes the cache exceed `size`
evicts the oldest entry, which is returned for the eviction callback. -/
def Add (c : Lru κ ν) (k : κ) (v : ν) : Lru κ ν × Option (κ × ν) :=
  match lookup k c.items with
  | some _ => ({ c with items := (k, v) :: eraseKey k c.items }, none)
  | none =>
    if ((k, v) :: c.items).length > c.size then
      ({ c with items := ((k, v) :: c.items).dropLast }, ((k, v) :: c.items).getLast?)
    else
      ({ c with items := (k, v) :: c.items }, none)

/-- `Keys` lists the keys from oldest to newest. -/
def Keys (c : Lru κ ν) : List κ := (c.items.map Prod.fst).reverse

/-- `Remove` deletes a key; the removed value is returned for the eviction callback. -/
def Remove (c : Lru κ ν) (k : κ) : Lru κ ν × Option ν :=
  match lookup k c.items with
  | none => (c, none)
  | some v => ({ c with items := eraseKey k c.items }, some v)

end Lru

/-! ## linkedBlock -/

/-- A `linkedBlock`. `block`, `parentBlock` and `childBlocks` are `none` when nil;
`chain` tells whether the chain handle is non-nil. The child map is kept in
insertion order. -/
structure linkedBlock where
  block : Option Block
  chain : Bool
  hash : Hash
  parentHash : Hash
  parentBlock : Option Nat
  childBlocks : Option (List (Hash × Nat))
  deriving DecidableEq, Repr

/-- `newLinkedBlock`. -/
def newLinkedBlock (block : Block) : linkedBlock :=
  { block := some block, chain := true, hash := block.hash,
    parentHash := block.parentHash, parentBlock := none, childBlocks := some [] }

/-- `linkedBlock.Dispose`. -/
def linkedBlock.Dispose (lb : linkedBlock) : linkedBlock :=
  { lb with block := none, chain := false, parentBlock := none, childBlocks := none }

/-- Dispose the node at a heap address. -/
def disposeAt (heap : List linkedBlock) (id : Nat) : List linkedBlock :=
  match heap[id]? with
  | none => heap
  | some lb => heap.set id lb.Dispose

/-- Go map assignment `m[k] = v` on an insertion-ordered map. -/
def mapPut (k : Hash) (v : Nat) : List (Hash × Nat) → List (Hash × Nat)
  | [] => [(k, v)]
  | e :: es => if e.1 = k then (k, v) :: es else e :: mapPut k v es

/-- `lb.LinkParent(parentBlock)` on the heap; `none` is a panic. -/
def LinkParent (heap : List linkedBlock) (lb parentBlock : Nat) : Option (List linkedBlock) :=
  match heap[lb]? with
  | none => none
  | some n =>
    let heap1 := heap.set lb { n with parentBlock := some parentBlock }
    match heap1[parentBlock]? with
    | none => none
    | some p =>
      match p.childBlocks with
      | none => none
      | some cs =>
        some (heap1.set parentBlock { p with childBlocks := some (mapPut n.hash lb cs) })

/-- `travelToLinkAndReturnAllValidBlocks`, with the recursion depth bounded by fuel.
Children are visited in the order of the child list (Go leaves the order of a map range
open). A node whose block or chain handle is nil, that is a disposed node, makes the
calls on them panic. -/
def travelToLinkAndReturnAllValidBlocks {σ : Type} (env : Env σ) (bc : σ)
    (heap : List linkedBlock) :
    Nat → Nat → Block → Outcome (Except Err (List Block × List Block))
  | 0, _, _ => .diverge
  | fuel + 1, lb, parentBlock =>
    match heap[lb]? with
    | none => .panic
    | some n =>
      match n.block with
      | none => .panic
      | some b =>
        if n.chain = false then .panic
        else
          match env.LinkParentBlock bc b parentBlock with
          | some e => .ret (.error e)
          | none =>
            match env.VerifyExecution bc b parentBlock with
            | some e => .ret (.error e)
            | none =>
              let cs := (n.childBlocks.getD []).map Prod.snd
              let tails0 : List Block := if cs.length = 0 then [b] else []
              let r := cs.foldl
                (fun (acc : Outcome (List Block × List Block)) clb =>
                  match acc with
                  | .ret (all, tails) =>
                    match travelToLinkAndReturnAllValidBlocks env bc heap fuel clb b with
                    | .ret (.ok (a, t)) => .ret (all ++ a, tails ++ t)
                    | .ret (.error _) => .ret (all, tails)
                    | .panic => .panic
                    | .diverge => .diverge
                  | .panic => .panic
                  | .diverge => .diverge)
                (.ret ([b], tails0))
              match r with
              | .ret p => .ret (.ok p)
              | .panic => .panic
              | .diverge => .diverge

/-! ## BlockPool -/

/-- The pool: capacity, chain, the two LRU caches, and the heap of linked blocks. -/
structure BlockPool (σ : Type) where
  size : Nat
  bc : σ
  cache : Lru Hash Nat
  slot : Lru Int Block
  heap : List linkedBlock
  deriving DecidableEq

/-- What a call leaves behind: how it ended, the pool, and the calls it made. -/
structure Run (σ : Type) where
  out : Outcome (Option Err)
  pool : BlockPool σ
  events : List Event
  deriving DecidableEq

/-- `NoSender`. -/
def NoSender : String := ""

/-- `NewBlockPool(size)` followed by `setBlockChain(bc)`; `lru.NewWithEvict` rejects a
size that is not positive. -/
def NewBlockPool {σ : Type} (size : Int) (bc : σ) : Option (BlockPool σ) :=
  if size ≤ 0 then none
  else some { size := size.toNat, bc := bc, cache := ⟨size.toNat, []⟩,
              slot := ⟨size.toNat, []⟩, heap := [] }

/-- `pool.download(sender, block)`; the block is `none` when the pointer is nil. -/
def download {σ : Type} (env : Env σ) (sender : String) (block : Option Block) :
    Outcome (Option Err) × List Event :=
  match block with
  | none => (.panic, [])
  | some b =>
    match env.Marshal { hash := b.hash, sign := b.signature } with
    | .error e => (.ret (some e), [])
    | .ok bytes =>
      (.ret none,
        [Event.SendMsg .MessageTypeDownloadedBlock bytes sender .MessagePriorityNormal])

/-- The loop "find child block in pool": every cached node whose parent hash is the
new node's hash is linked to the new node. `none` is a panic. -/
def attachChildren (lb : Nat) (lbHash : Hash) :
    List Hash → Lru Hash Nat → List linkedBlock → Option (Lru Hash Nat × List linkedBlock)
  | [], cache, heap => some (cache, heap)
  | k :: ks, cache, heap =>
    match cache.Get k with
    | (none, _) => none
    | (some c, cache1) =>
      match heap[c]? with
      | none => none
      | some cn =>
        if cn.parentHash = lbHash then
          match LinkParent heap c lb with
          | none => none
          | some heap1 => attachChildren lb lbHash ks cache1 heap1
        else attachChildren lb lbHash ks cache1 heap

/-- The loop `for plb.parentBlock != nil { plb = plb.parentBlock }`. -/
def topAncestor (heap : List linkedBlock) : Nat → Nat → Outcome Nat
  | 0, _ => .diverge
  | fuel + 1, plb =>
    match heap[plb]? with
    | none => .panic
    | some n =>
      match n.parentBlock with
      | none => .ret plb
      | some p => topAncestor heap fuel p

/-- The loop "remove allBlocks from cache"; each removal runs the eviction callback. -/
def removeAll : List Block → Lru Hash Nat → List linkedBlock → Lru Hash Nat × List linkedBlock
  | [], cache, heap => (cache, heap)
  | v :: vs, cache, heap =>
    match cache.Remove v.hash with
    | (cache1, none) => removeAll vs cache1 heap
    | (cache1, some id) => removeAll vs cache1 (disposeAt heap id)

/-- Events of the slot eviction callback. -/
def slotEvicted : Option (Int × Block) → List Event
  | none => []
  | some e => [Event.DisposeBlock e.2]

/-- Heap after the cache eviction callback. -/
def cacheEvicted (heap : List linkedBlock) : Option (Hash × Nat) → List linkedBlock
  | none => heap
  | some e => disposeAt heap e.2

/-- The value of an integer expression in `int64`: two's-complement wrap-around. -/
def wrapInt64 (x : Int) : Int := (x + 2 ^ 63) % 2 ^ 64 - 2 ^ 63

/-- The conversion `int(h)` of a `uint64` height, `int` being 64 bits wide. -/
def intOfUint64 (h : Nat) : Int := wrapInt64 ((h % 2 ^ 64 : Nat) : Int)

/-- The expression `int(block.Height()) - int(tail.Height())`, computed in `int`. -/
def heightGap (height tailHeight : Nat) : Int :=
  wrapInt64 (intOfUint64 height - intOfUint64 tailHeight)

/-- Steps "find parent in Chain" to the end of `push`, once the parent is not in the
cache. `lb` is the address of the new node; `lb.block` is read from the heap. -/
def pushChain {σ : Type} (env : Env σ) (fuel : Nat) (pool : BlockPool σ) (sender : String)
    (block : Block) (lb : Nat) (evs : List Event) : Run σ :=
  match env.GetBlock pool.bc block.parentHash with
  | none =>
    if sender = NoSender then
      ⟨.ret (some .ErrMissingParentBlock), pool, evs⟩
    else
      match pool.heap[lb]? with
      | none => ⟨.panic, pool, evs⟩
      | some n =>
        match n.block with
        | none => ⟨.panic, pool, evs⟩
        | some lbBlock =>
          if heightGap lbBlock.height (env.TailBlock pool.bc).height > env.ChunkSize then
            let r := env.StartActiveSync pool.bc
            ⟨.ret (some .ErrInvalidBlockCannotFindParentInLocalAndTrySync),
              { pool with bc := r.2 }, evs ++ [Event.StartActiveSync r.1]⟩
          else
            match download env sender (some lbBlock) with
            | (.ret none, dl) =>
              ⟨.ret (some .ErrInvalidBlockCannotFindParentInLocalAndTryDownload), pool,
                evs ++ dl⟩
            | (o, dl) => ⟨o, pool, evs ++ dl⟩
  | some parentBlock =>
    let evs1 :=
      if sender ≠ NoSender then
        evs ++ [Event.Relay .MessageTypeNewBlock block .MessagePriorityHigh]
      else evs
    match travelToLinkAndReturnAllValidBlocks env pool.bc pool.heap fuel lb parentBlock with
    | .panic => ⟨.panic, pool, evs1⟩
    | .diverge => ⟨.diverge, pool, evs1⟩
    | .ret (.error e) => ⟨.ret (some e), pool, evs1⟩
    | .ret (.ok (allBlocks, tailBlocks)) =>
      let evs2 := evs1 ++ [Event.PutVerifiedNewBlocks parentBlock allBlocks tailBlocks]
      match env.putVerifiedNewBlocks pool.bc parentBlock allBlocks tailBlocks with
      | (some e, bc1) => ⟨.ret (some e), { pool with bc := bc1 }, evs2⟩
      | (none, bc1) =>
        let ch := removeAll allBlocks pool.cache pool.heap
        let fc := env.ForkChoice bc1
        ⟨.ret fc.1, { pool with bc := fc.2, cache := ch.1, heap := ch.2 },
          evs2 ++ [Event.ForkChoice]⟩

/-- The two insertions `pool.slot.Add(timestamp, block)` and `cache.Add(hash, lb)` with
their eviction callbacks. The new node is allocated at the end of the heap; Go
allocates it before the equivocation check, which no exit before this point can see. -/
def addToPool {σ : Type} (pool : BlockPool σ) (block : Block) : BlockPool σ × List Event :=
  let sa := pool.slot.Add block.timestamp block
  let ca := pool.cache.Add block.hash pool.heap.length
  ({ pool with slot := sa.1, cache := ca.1,
               heap := cacheEvicted (pool.heap ++ [newLinkedBlock block]) ca.2 },
   slotEvicted sa.2)

/-- The part of `push` after the two insertions: attach the waiting children, then
resolve the parent in the cache or in the chain. -/
def pushLinked {σ : Type} (env : Env σ) (fuel : Nat) (pool : BlockPool σ) (sender : String)
    (block : Block) (lb : Nat) (evs : List Event) : Run σ :=
  match attachChildren lb block.hash pool.cache.Keys pool.cache pool.heap with
  | none => ⟨.panic, pool, evs⟩
  | some (cache2, heap2) =>
    match cache2.Get block.parentHash with
    | (some plb, cache3) =>
      match LinkParent heap2 lb plb with
      | none => ⟨.panic, { pool with cache := cache3, heap := heap2 }, evs⟩
      | some heap3 =>
        match topAncestor heap3 fuel plb with
        | .panic => ⟨.panic, { pool with cache := cache3, heap := heap3 }, evs⟩
        | .diverge => ⟨.diverge, { pool with cache := cache3, heap := heap3 }, evs⟩
        | .ret top =>
          if sender = NoSender then
            ⟨.ret (some .ErrMissingParentBlock), { pool with cache := cache3, heap := heap3 },
              evs⟩
          else
            match heap3[top]? with
            | none => ⟨.panic, { pool with cache := cache3, heap := heap3 }, evs⟩
            | some t =>
              ⟨(download env sender t.block).1, { pool with cache := cache3, heap := heap3 },
                evs ++ (download env sender t.block).2⟩
    | (none, cache3) =>
      pushChain env fuel { pool with cache := cache3, heap := heap2 } sender block lb evs

/-- `pool.push(sender, block)`. -/
def push {σ : Type} (env : Env σ) (fuel : Nat) (pool : BlockPool σ) (sender : String)
    (block : Block) : Run σ :=
  if pool.cache.Contains block.hash || (env.GetBlock pool.bc block.hash).isSome then
    ⟨.ret (some .ErrDuplicatedBlock), pool, [Event.IncDuplicatedBlock]⟩
  else
    match env.VerifyIntegrity pool.bc block with
    | some e => ⟨.ret (some e), pool, [Event.IncInvalidBlock]⟩
    | none =>
      match pool.slot.Get block.timestamp with
      | (some _, slot1) =>
        ⟨.ret (some .ErrDoubleBlockMinted), { pool with slot := slot1 },
          [Event.IncInvalidBlock]⟩
      | (none, _) =>
        pushLinked env fuel (addToPool pool block).1 sender block pool.heap.length
          (addToPool pool block).2

/-! ## The public push variants -/

/-- The protobuf conversions of a block, over a message type `π` (`corepb.Block`).
`Marshal` and `FromProto` give their Go result pair: the value and the error. -/
structure Wire (π : Type) where
  /-- `block.ToProto()`. -/
  ToProto : Block → Except Err π
  /-- `proto.Marshal(pbBlock)`. -/
  Marshal : π → Bytes × Option Err
  /-- `proto.Unmarshal(bytes, pbBlock)`, filling the given message. -/
  Unmarshal : Bytes → π → Option Err × π
  /-- `block.FromProto(pbBlock)` on a fresh block: the block it leaves, and its error. -/
  FromProto : π → Block × Option Err

/-- `mockBlockFromNetwork`. The error of `proto.Marshal` is shadowed and never read;
the error of `FromProto` is not looked at. -/
def mockBlockFromNetwork {π : Type} (w : Wire π) (block : Block) : Except Err Block :=
  match w.ToProto block with
  | .error e => .error e
  | .ok pbBlock =>
    let bytes := (w.Marshal pbBlock).1
    match w.Unmarshal bytes pbBlock with
    | (some e, _) => .error e
    | (none, pb1) => .ok (w.FromProto pb1).1

/-- `pool.Push(block)`. -/
def Push {σ π : Type} (w : Wire π) (env : Env σ) (fuel : Nat) (pool : BlockPool σ)
    (block : Block) : Run σ :=
  match mockBlockFromNetwork w block with
  | .error e => ⟨.ret (some e), pool, []⟩
  | .ok b =>
    let r := push env fuel pool NoSender b
    match r.out with
    | .ret (some pushErr) =>
      if pushErr ≠ Err.ErrDuplicatedBlock then r else { r with out := .ret none }
    | _ => r

/-- `pool.PushAndRelay(sender, block)`. -/
def PushAndRelay {σ π : Type} (w : Wire π) (env : Env σ) (fuel : Nat) (pool : BlockPool σ)
    (sender : String) (block : Block) : Run σ :=
  match mockBlockFromNetwork w block with
  | .error e => ⟨.ret (some e), pool, []⟩
  | .ok b => push env fuel pool sender b

/-- `pool.PushAndBroadcast(block)`. -/
def PushAndBroadcast {σ π : Type} (w : Wire π) (env : Env σ) (fuel : Nat)
    (pool : BlockPool σ) (block : Block) : Run σ :=
  match mockBlockFromNetwork w block with
  | .error e => ⟨.ret (some e), pool, []⟩
  | .ok b =>
    let r := push env fuel pool NoSender b
    { r with events :=
        Event.Broadcast .MessageTypeNewBlock b .MessagePriorityHigh :: r.events }

/-! ## Well-formedness of a pool and sample data -/

/-- Every cache entry points at an allocated node that carries the key as its hash and
has not been disposed. -/
def BlockPool.cacheLive {σ : Type} (pool : BlockPool σ) : Bool :=
  pool.cache.items.all fun e =>
    match pool.heap[e.2]? with
    | none => false
    | some n => decide (n.hash = e.1) && n.block.isSome && n.childBlocks.isSome

/-- Every parent pointer leads to an allocated node whose hash is the parent hash of the
node that points to it. -/
def linkedOk (heap : List linkedBlock) : Bool :=
  heap.all fun n =>
    match n.parentBlock with
    | none => true
    | some p =>
      match heap[p]? with
      | none => false
      | some pn => decide (pn.hash = n.parentHash)

/-- The parent hash of every node ranks below the node's own hash under `rank`: the hash
chain of the pooled blocks has no cycle. -/
def rankedOk (rank : Hash → Nat) (heap : List linkedBlock) : Bool :=
  heap.all fun n => decide (rank n.parentHash < rank n.hash)

/-- A chain store kept as the list of its blocks, newest first. Unsigned blocks fail the
integrity check; download requests are marshalled as length-prefixed hash, then signature. -/
def sampleEnv : Env (List Block) where
  ChunkSize := 32
  GetBlock := fun bc h => bc.find? (fun x => decide (x.hash = h))
  TailBlock := fun bc => bc.headD ⟨[0], [], 0, 0, [0]⟩
  StartActiveSync := fun bc => (true, bc)
  putVerifiedNewBlocks := fun bc _ allBlocks _ => (none, allBlocks.reverse ++ bc)
  ForkChoice := fun bc => (none, bc)
  VerifyIntegrity := fun _ b => if b.signature = [] then some (Err.other 1) else none
  LinkParentBlock := fun _ _ _ => none
  VerifyExecution := fun _ _ _ => none
  Marshal := fun d => .ok (d.hash.length :: (d.hash ++ d.sign))

/-- A wire form that is the block itself. -/
def sampleWire : Wire Block where
  ToProto := fun b => .ok b
  Marshal := fun _ => ([], none)
  Unmarshal := fun _ pb => (none, pb)
  FromProto := fun pb => (pb, none)

/-- A signed block with a one-byte hash, at height `h`. -/
def sampleBlock (h parent : Nat) (timestamp : Int) : Block :=
  { hash := [h], parentHash := [parent], timestamp := timestamp, height := h,
    signature := [h, h] }

/-- An empty pool of capacity 3 over a chain holding only the block with hash `[0]`. -/
def samplePool : BlockPool (List Block) :=
  { size := 3, bc := [⟨[0], [], 0, 0, [0]⟩], cache := ⟨3, []⟩, slot := ⟨3, []⟩, heap := [] }

/-- Push a list of blocks one after the other from the same sender. -/
def pushAll {σ : Type} (env : Env σ) (fuel : Nat) (sender : String) :
    List Block → BlockPool σ → BlockPool σ
  | [], pool => pool
  | b :: bs, pool => pushAll env fuel sender bs (push env fuel pool sender b).pool

/-- The sample pool after a peer pushed the orphan block 11 (timestamp 1). -/
def poolWith11 : BlockPool (List Block) :=
  pushAll sampleEnv 8 "p" [sampleBlock 11 10 1] samplePool

/-- What linking steps towards the node at address `tgt` (with hash `th`) may change in
a node: its child map stays nil or non-nil, and its parent pointer is kept or, when the
node names `th` as its parent hash, set to `tgt`. -/
def NodeStep (tgt : Nat) (th : Hash) (n n2 : linkedBlock) : Prop :=
  n2.block = n.block ∧ n2.chain = n.chain ∧ n2.hash = n.hash ∧
    n2.parentHash = n.parentHash ∧ n2.childBlocks.isSome = n.childBlocks.isSome ∧
    (n2.parentBlock = n.parentBlock ∨ (n.parentHash = th ∧ n2.parentBlock = some tgt))

/-- The heap after linking steps towards `tgt`: same addresses, nodes related by
`NodeStep`. -/
def HeapStep (tgt : Nat) (th : Hash) (h h2 : List linkedBlock) : Prop :=
  h2.length = h.length ∧
    ∀ (id : Nat) (n : linkedBlock), h[id]? = some n →
      ∃ n2, h2[id]? = some n2 ∧ NodeStep tgt th n n2

/-- Every parent pointer leads to an allocated node whose hash is the parent hash of the
node that points to it (the property tested by `linkedOk`). -/
def Linked (heap : List linkedBlock) : Prop :=
  ∀ (id : Nat) (n : linkedBlock) (p : Nat), heap[id]? = some n → n.parentBlock = some p →
    ∃ pn, heap[p]? = some pn ∧ pn.hash = n.parentHash

/-- Every cache entry points at an allocated, undisposed node carrying the key as its
hash (the property tested by `BlockPool.cacheLive`). -/
def Live (items : List (Hash × Nat)) (heap : List linkedBlock) : Prop :=
  ∀ e ∈ items, ∃ n, heap[e.2]? = some n ∧ n.hash = e.1 ∧ n.block.isSome = true ∧
    n.childBlocks.isSome = true

/-- The parent hash of every node ranks below the node's own hash: the hash chain has
no cycle. -/
def Ranked (rank : Hash → Nat) (heap : List linkedBlock) : Prop :=
  ∀ (id : Nat) (n : linkedBlock), heap[id]? = some n → rank n.parentHash < rank n.hash

/-- The recoverable deferrals returned by `push`. -/
def Err.isDeferral : Err → Bool
  | .ErrMissingParentBlock => true
  | .ErrInvalidBlockCannotFindParentInLocalAndTrySync => true
  | .ErrInvalidBlockCannotFindParentInLocalAndTryDownload => true
  | _ => false

/-- The rank of a sample hash: its first byte. -/
def sampleRank (h : Hash) : Nat := h.headD 0

/-- The sample pool after a peer pushed the chain of orphans 11, 12, 13 in this order. -/
def poolWith11to13 : BlockPool (List Block) :=
  pushAll sampleEnv 16 "p" [sampleBlock 11 10 1, sampleBlock 12 11 2, sampleBlock 13 12 3]
    samplePool

/-- A block without signature. -/
def unsignedBlock : Block :=
  { hash := [12], parentHash := [11], timestamp := 2, height := 12, signature := [] }

/-- The invariant on a cache and a heap behind `BlockPool.wellFormed`. -/
def PoolInv (items : List (Hash × Nat)) (heap : List linkedBlock) : Prop :=
  Live items heap ∧ (items.map Prod.snd).Nodup ∧ Linked heap

/-- The invariant kept by `push`: cached nodes are live, sit at pairwise distinct
addresses, and parent pointers agree with the hashes. -/
def BlockPool.wellFormed {σ : Type} (pool : BlockPool σ) : Bool :=
  pool.cacheLive && decide ((pool.cache.items.map Prod.snd).Nodup) && linkedOk pool.heap

/-- The pools a node can be in: a new pool, a pool after a push that returned, or a pool
whose chain was changed by another component in between. -/
inductive Reachable {σ : Type} (env : Env σ) : BlockPool σ → Prop where
  | init (size : Int) (bc : σ) (pool : BlockPool σ) :
      NewBlockPool size bc = some pool → Reachable env pool
  | push (pool : BlockPool σ) (fuel : Nat) (sender : String) (b : Block) (r : Option Err) :
      Reachable env pool → (push env fuel pool sender b).out = .ret r →
      Reachable env (push env fuel pool sender b).pool
  | chain (pool : BlockPool σ) (bc : σ) :
      Reachable env pool → Reachable env { pool with bc := bc }

/-! ## The message handlers of the pool -/

/-- A `net.Message`: `MessageType()`, `Data()`, `MessageFrom()`. -/
structure Message where
  messageType : MessageType
  data : Bytes
  messageFrom : String
  deriving DecidableEq, Repr

/-- `pool.handleBlock(msg)` at Unix time `now`. `newPb` is the fresh `corepb.Block` the
message is unmarshalled into; `AcceptedNetWorkDelay` is the constant of that name. The
result is `none` when the handler returns before `PushAndRelay`. `behind` is an `int64`
difference (`time.Now().Unix() - block.Timestamp()`). -/
def handleBlock {σ π : Type} (w : Wire π) (env : Env σ) (newPb : π)
    (AcceptedNetWorkDelay : Int) (now : Int) (fuel : Nat) (pool : BlockPool σ)
    (msg : Message) : Option (Run σ) :=
  if msg.messageType ≠ .MessageTypeNewBlock ∧
      msg.messageType ≠ .MessageTypeDownloadedBlockReply then none
  else
    match w.Unmarshal msg.data newPb with
    | (some _, _) => none
    | (none, pbblock) =>
      match w.FromProto pbblock with
      | (_, some _) => none
      | (block, none) =>
        if msg.messageType = .MessageTypeNewBlock ∧
            wrapInt64 (now - block.timestamp) > AcceptedNetWorkDelay then none
        else some (PushAndRelay w env fuel pool msg.messageFrom block)

/-- `pool.handleDownloadedBlock(msg)`: the messages it sends. `GenesisHash` is the
constant of that name and `unmarshal` is `proto.Unmarshal` into a
`corepb.DownloadBlock`. The pool is only read. -/
def handleDownloadedBlock {σ π : Type} (w : Wire π) (env : Env σ) (GenesisHash : Hash)
    (unmarshal : Bytes → Except Err DownloadBlock) (pool : BlockPool σ) (msg : Message) :
    List Event :=
  if msg.messageType ≠ .MessageTypeDownloadedBlock then []
  else
    match unmarshal msg.data with
    | .error _ => []
    | .ok pbDownloadBlock =>
      if pbDownloadBlock.hash = GenesisHash then []
      else
        match env.GetBlock pool.bc pbDownloadBlock.hash with
        | none => []
        | some block =>
          if block.signature ≠ pbDownloadBlock.sign then []
          else
            match env.GetBlock pool.bc block.parentHash with
            | none => []
            | some parent =>
              match w.ToProto parent with
              | .error _ => []
              | .ok pbBlock =>
                match w.Marshal pbBlock with
                | (_, some _) => []
                | (bytes, none) =>
                  [Event.SendMsg .MessageTypeDownloadedBlockReply bytes msg.messageFrom
                    .MessagePriorityNormal]

/-- The relay of a block to the peers. -/
def Event.isRelay : Event → Bool
  | .Relay _ _ _ => true
  | _ => false

/-! ## Trees of linked blocks -/

/-- The nodes reachable from `lb` over child maps are allocated and undisposed, and no
path of children is longer than `depth`: a finite tree of linked blocks. -/
def treeOk (heap : List linkedBlock) : Nat → Nat → Bool
  | 0, _ => false
  | depth + 1, lb =>
    match heap[lb]? with
    | none => false
    | some n =>
      n.block.isSome && n.chain &&
        ((n.childBlocks.getD []).map Prod.snd).all (fun c => treeOk heap depth c)

/-- The `allBlocks` a traversal of a child contributes to its parent: its result when it
verifies, nothing when it fails. -/
def validAll : Outcome (Except Err (List Block × List Block)) → List Block
  | .ret (.ok p) => p.1
  | _ => []

/-- The `tailBlocks` a traversal of a child contributes to its parent. -/
def validTails : Outcome (Except Err (List Block × List Block)) → List Block
  | .ret (.ok p) => p.2
  | _ => []

/-! ## The sync service (sync/sync_service.go) -/

/-- The errors of package `sync` the service looks at, and every other error. -/
inductive SyncErr where
  | ErrInvalidChainSyncMessageData
  | ErrInvalidChainGetChunkMessageData
  | ErrTooSmallGapToSync
  | ErrWrongChunkHeaderRootHash
  | other (code : Nat)
  deriving DecidableEq, Repr

/-- The calls the service makes: on tasks (`NewTask`, `Start`, `Stop`) and on the
network service. A task is named by its creation number. -/
inductive SyncEvent where
  | NewTask (task : Nat)
  | TaskStart (task : Nat)
  | TaskStop (task : Nat)
  | ClosePeer (peer : String) (reason : SyncErr)
  | SendMessageToPeer (messageName : MessageType) (data : Bytes)
      (priority : MessagePriority) (peer : String)
  deriving DecidableEq, Repr

/-- The part of `Service` the handlers use: the active task (`none` is nil) and the
number of tasks created so far. -/
structure Service where
  activeTask : Option Nat
  created : Nat
  deriving DecidableEq, Repr

/-- `NewService`. -/
def NewService : Service := { activeTask := none, created := 0 }

/-- `ss.IsActiveSyncing()`. -/
def Service.IsActiveSyncing (ss : Service) : Bool :=
  match ss.activeTask with
  | none => false
  | some _ => true

/-- `ss.StartActiveSync()`: the result, the service afterwards, the calls made. -/
def Service.StartActiveSync (ss : Service) : Bool × Service × List SyncEvent :=
  if ss.IsActiveSyncing then (false, ss, [])
  else
    (true, { activeTask := some ss.created, created := ss.created + 1 },
      [SyncEvent.NewTask ss.created, SyncEvent.TaskStart ss.created])

/-- `ss.StopActiveSync()`. -/
def Service.StopActiveSync (ss : Service) : Service × List SyncEvent :=
  match ss.activeTask with
  | none => (ss, [])
  | some t => ({ ss with activeTask := none }, [SyncEvent.TaskStop t])

/-- The chunk module and the protobuf conversions used by the service, over the types of
`syncpb.ChunkHeaders` (`χ`), `syncpb.ChunkHeader` (`η`) and `syncpb.ChunkData` (`δ`).
The generators give their Go result pair. -/
structure SyncEnv (χ η δ : Type) where
  /-- `proto.Unmarshal` into a `syncpb.Sync`, giving its `TailBlockHash`. -/
  UnmarshalSync : Bytes → Except SyncErr Hash
  /-- `ss.chunk.generateChunkHeaders(tailBlockHash)`. -/
  generateChunkHeaders : Hash → χ × Option SyncErr
  /-- `proto.Marshal` on a `syncpb.ChunkHeaders`. -/
  MarshalChunkHeaders : χ → Except SyncErr Bytes
  /-- `proto.Unmarshal` into a `syncpb.ChunkHeader`. -/
  UnmarshalChunkHeader : Bytes → Except SyncErr η
  /-- `ss.chunk.generateChunkData(chunkHeader)`. -/
  generateChunkData : η → δ × Option SyncErr
  /-- `proto.Marshal` on a `syncpb.ChunkData`. -/
  MarshalChunkData : δ → Except SyncErr Bytes

/-- `ss.sendChainChunks(peerID, chunks)`. -/
def sendChainChunks {χ η δ : Type} (env : SyncEnv χ η δ) (peerID : String) (chunks : χ) :
    List SyncEvent :=
  match env.MarshalChunkHeaders chunks with
  | .error _ => []
  | .ok data =>
    [SyncEvent.SendMessageToPeer .ChainChunks data .MessagePriorityLow peerID]

/-- `ss.sendChainChunkData(peerID, chunkData)`. -/
def sendChainChunkData {χ η δ : Type} (env : SyncEnv χ η δ) (peerID : String)
    (chunkData : δ) : List SyncEvent :=
  match env.MarshalChunkData chunkData with
  | .error _ => []
  | .ok data =>
    [SyncEvent.SendMessageToPeer .ChainChunkData data .MessagePriorityLow peerID]

/-- `ss.onChainSync(message)`: the calls made on the network service. -/
def Service.onChainSync {χ η δ : Type} (env : SyncEnv χ η δ) (ss : Service)
    (message : Message) : List SyncEvent :=
  if ss.IsActiveSyncing then []
  else
    match env.UnmarshalSync message.data with
    | .error _ =>
      [SyncEvent.ClosePeer message.messageFrom .ErrInvalidChainSyncMessageData]
    | .ok tailBlockHash =>
      match env.generateChunkHeaders tailBlockHash with
      | (chunks, err) =>
        if err ≠ none ∧ err ≠ some .ErrTooSmallGapToSync then []
        else sendChainChunks env message.messageFrom chunks

/-- `ss.onChainGetChunk(message)`: the calls made on the network service. -/
def Service.onChainGetChunk {χ η δ : Type} (env : SyncEnv χ η δ) (ss : Service)
    (message : Message) : List SyncEvent :=
  if ss.IsActiveSyncing then []
  else
    match env.UnmarshalChunkHeader message.data with
    | .error _ =>
      [SyncEvent.ClosePeer message.messageFrom .ErrInvalidChainGetChunkMessageData]
    | .ok chunkHeader =>
      match env.generateChunkData chunkHeader with
      | (_, some err) =>
        if err = .ErrWrongChunkHeaderRootHash then
          [SyncEvent.ClosePeer message.messageFrom err]
        else []
      | (chunkData, none) => sendChainChunkData env message.messageFrom chunkData

/-! ## Bounds, and sample data of the traversal, the handlers and the sync service -/

/-- The size bounds of the two LRUs, with the key uniqueness of the cache. -/
def Bounded {σ : Type} (pool : BlockPool σ) : Prop :=
  pool.cache.items.length ≤ pool.size ∧ pool.slot.items.length ≤ pool.size ∧
  pool.cache.size = pool.size ∧ pool.slot.size = pool.size ∧
  (pool.cache.items.map Prod.fst).Nodup

/-- The sample pool after a peer pushed the orphan block 12 (timestamp 2), child of the
absent block 11. -/
def poolWith12 : BlockPool (List Block) :=
  pushAll sampleEnv 8 "p" [sampleBlock 12 11 2] samplePool

/-- An empty pool of capacity 2 over the sample chain. -/
def smallPool : BlockPool (List Block) :=
  { size := 2, bc := [⟨[0], [], 0, 0, [0]⟩], cache := ⟨2, []⟩, slot := ⟨2, []⟩, heap := [] }

/-- The sample pool of capacity 3 after the local pushes of the chain 11, 12, 13, 14. -/
def poolLocal11to14 : BlockPool (List Block) :=
  pushAll sampleEnv 16 NoSender
    [sampleBlock 11 10 1, sampleBlock 12 11 2, sampleBlock 13 12 3, sampleBlock 14 13 4]
    samplePool

/-- The sample chain store where the execution of block 13 fails verification. -/
def pickyEnv : Env (List Block) :=
  { sampleEnv with
    VerifyExecution := fun _ b _ => if b.hash = [13] then some (Err.other 2) else none }

/-- Three nodes: block 11 at address 0 with the children 12 (address 1) and 13
(address 2), linked by `LinkParent`. -/
def treeHeap : List linkedBlock :=
  ((LinkParent [newLinkedBlock (sampleBlock 11 0 1), newLinkedBlock (sampleBlock 12 11 2),
      newLinkedBlock (sampleBlock 13 11 3)] 1 0).bind (fun h => LinkParent h 2 0)).getD []

/-- Decoder of download requests: the first byte is the length of the hash. -/
def sampleUnmarshal (data : Bytes) : Except Err DownloadBlock :=
  match data with
  | [] => .error (Err.other 2)
  | n :: rest => .ok { hash := rest.take n, sign := rest.drop n }

/-- A chain holding block 1 on top of block 0. -/
def chainPool : BlockPool (List Block) :=
  { samplePool with bc := [sampleBlock 1 0 1, ⟨[0], [], 0, 0, [0]⟩] }

/-- The wire form of the sample blocks as bytes: hash byte, parent byte, both signature
bytes; the timestamp and the height are the hash byte. -/
def byteWire : Wire Bytes where
  ToProto := fun b => .ok (b.hash ++ b.parentHash ++ b.signature)
  Marshal := fun pb => (pb, none)
  Unmarshal := fun bytes _ => if bytes.length = 4 then (none, bytes) else (some (Err.other 3), [])
  FromProto := fun pb =>
    ({ hash := pb.take 1, parentHash := (pb.drop 1).take 1,
       timestamp := (pb.headD 0 : Nat), height := pb.headD 0, signature := pb.drop 2 }, none)

/-- A wire form of three bytes: hash byte, parent byte, and the timestamp counted in
seconds from the least `int64`. -/
def stampWire : Wire Bytes where
  ToProto := fun b => .ok (b.hash ++ b.parentHash ++ [(b.timestamp + 2 ^ 63).toNat])
  Marshal := fun pb => (pb, none)
  Unmarshal := fun bytes _ =>
    if bytes.length = 3 then (none, bytes) else (some (Err.other 3), [])
  FromProto := fun pb =>
    ({ hash := pb.take 1, parentHash := (pb.drop 1).take 1,
       timestamp := ((pb.drop 2).headD 0 : Nat) - 2 ^ 63, height := pb.headD 0,
       signature := pb.take 1 }, none)

/-- A chunk module over lists of hashes that knows the tail `[0]`: asking for `[0]` gives
`ErrTooSmallGapToSync`, for `[1]` two headers, for anything else an error. -/
def sampleSyncEnv : SyncEnv (List Hash) Hash (List Block) where
  UnmarshalSync := fun data => if data = [] then .error (.other 1) else .ok data
  generateChunkHeaders := fun h =>
    if h = [0] then ([], some .ErrTooSmallGapToSync)
    else if h = [1] then ([[2], [3]], none)
    else ([], some (.other 2))
  MarshalChunkHeaders := fun c => .ok (c.length :: c.flatten)
  UnmarshalChunkHeader := fun data => if data = [] then .error (.other 1) else .ok data
  generateChunkData := fun h =>
    if h = [9] then ([], some .ErrWrongChunkHeaderRootHash)
    else if h = [2] then ([sampleBlock 2 1 2], none)
    else ([], some (.other 3))
  MarshalChunkData := fun d => .ok (d.map (fun b => b.height))

/-! ## Specification of the traversal, and further sample data -/

/-- Both verification steps of the traversal pass for `b` against `parentBlock`. -/
def verifies {σ : Type} (env : Env σ) (bc : σ) (b parentBlock : Block) : Bool :=
  (env.LinkParentBlock bc b parentBlock).isNone && (env.VerifyExecution bc b parentBlock).isNone

/-- Specification of `allBlocks`, after the words of the spec: the pre-order listing, root
first, of the nodes that verify against the block of their parent node (the root against
the chain parent) and all of whose ancestors verify. Nothing below a node that fails is
listed. -/
def preorderValid {σ : Type} (env : Env σ) (bc : σ) (heap : List linkedBlock) :
    Nat → Nat → Block → List Block
  | 0, _, _ => []
  | depth + 1, lb, parentBlock =>
    match heap[lb]? with
    | none => []
    | some n =>
      match n.block with
      | none => []
      | some b =>
        if verifies env bc b parentBlock then
          b :: (((n.childBlocks.getD []).map Prod.snd).map
            (fun c => preorderValid env bc heap depth c b)).flatten
        else []

/-- Specification of `tailBlocks`, after the words of the spec: the listed nodes whose
child map is empty, in the order of the listing. -/
def tailsValid {σ : Type} (env : Env σ) (bc : σ) (heap : List linkedBlock) :
    Nat → Nat → Block → List Block
  | 0, _, _ => []
  | depth + 1, lb, parentBlock =>
    match heap[lb]? with
    | none => []
    | some n =>
      match n.block with
      | none => []
      | some b =>
        if verifies env bc b parentBlock then
          if (n.childBlocks.getD []).length = 0 then [b]
          else (((n.childBlocks.getD []).map Prod.snd).map
            (fun c => tailsValid env bc heap depth c b)).flatten
        else []

/-- Every node of the tree verifies against the block of its parent node. -/
def allVerify {σ : Type} (env : Env σ) (bc : σ) (heap : List linkedBlock) :
    Nat → Nat → Block → Bool
  | 0, _, _ => true
  | depth + 1, lb, parentBlock =>
    match heap[lb]? with
    | none => true
    | some n =>
      match n.block with
      | none => true
      | some b =>
        verifies env bc b parentBlock &&
          ((n.childBlocks.getD []).map Prod.snd).all (fun c => allVerify env bc heap depth c b)

/-- The blocks of all nodes of a tree, root first (pre-order). -/
def preorder (heap : List linkedBlock) : Nat → Nat → List Block
  | 0, _ => []
  | depth + 1, lb =>
    match heap[lb]? with
    | none => []
    | some n =>
      match n.block with
      | none => []
      | some b =>
        b :: (((n.childBlocks.getD []).map Prod.snd).map (fun c => preorder heap depth c)).flatten

/-- The blocks of the leaves of a tree, the nodes with an empty child map, in pre-order. -/
def leaves (heap : List linkedBlock) : Nat → Nat → List Block
  | 0, _ => []
  | depth + 1, lb =>
    match heap[lb]? with
    | none => []
    | some n =>
      match n.block with
      | none => []
      | some b =>
        if (n.childBlocks.getD []).length = 0 then [b]
        else (((n.childBlocks.getD []).map Prod.snd).map (fun c => leaves heap depth c)).flatten

/-- Two heaps hold the same nodes at the same addresses up to the order of each child
map: two enumeration orders of the children of every node. -/
def Reordered (heap heap2 : List linkedBlock) : Prop :=
  heap.length = heap2.length ∧
  ∀ (id : Nat) (n : linkedBlock), heap[id]? = some n →
    ∃ n2, heap2[id]? = some n2 ∧ n2.block = n.block ∧ n2.chain = n.chain ∧
      (n.childBlocks.getD []).Perm (n2.childBlocks.getD [])

/-- The executable test of `Reordered`. -/
def reorderedOk (heap heap2 : List linkedBlock) : Bool :=
  decide (heap.length = heap2.length) &&
    (List.range heap.length).all (fun id =>
      match heap[id]?, heap2[id]? with
      | some n, some n2 =>
        decide (n2.block = n.block) && decide (n2.chain = n.chain) &&
          decide ((n.childBlocks.getD []).Perm (n2.childBlocks.getD []))
      | _, _ => false)

/-- Five nodes: block 11 at address 0 with the children 12 (address 1) and 13
(address 2); 14 (address 3) is the child of 12 and 15 (address 4) the child of 13. -/
def deepTreeHeap : List linkedBlock :=
  ((((LinkParent [newLinkedBlock (sampleBlock 11 0 1), newLinkedBlock (sampleBlock 12 11 2),
      newLinkedBlock (sampleBlock 13 11 3), newLinkedBlock (sampleBlock 14 12 4),
      newLinkedBlock (sampleBlock 15 13 5)] 1 0).bind (fun h => LinkParent h 2 0)).bind
        (fun h => LinkParent h 3 1)).bind (fun h => LinkParent h 4 2)).getD []

/-- The tree of `deepTreeHeap` with the children of block 11 enumerated in the other
order. -/
def deepTreeHeapSwapped : List linkedBlock :=
  ((((LinkParent [newLinkedBlock (sampleBlock 11 0 1), newLinkedBlock (sampleBlock 12 11 2),
      newLinkedBlock (sampleBlock 13 11 3), newLinkedBlock (sampleBlock 14 12 4),
      newLinkedBlock (sampleBlock 15 13 5)] 2 0).bind (fun h => LinkParent h 1 0)).bind
        (fun h => LinkParent h 3 1)).bind (fun h => LinkParent h 4 2)).getD []

/-- A wire form whose `proto.Marshal` fails with error 7 while the other three steps
succeed. -/
def marshalFailWire : Wire Block where
  ToProto := fun b => .ok b
  Marshal := fun _ => ([], some (Err.other 7))
  Unmarshal := fun _ pb => (none, pb)
  FromProto := fun pb => (pb, none)

/-- A wire form whose `FromProto` fails with error 8 while the other three steps
succeed. -/
def fromProtoFailWire : Wire Block where
  ToProto := fun b => .ok b
  Marshal := fun _ => ([], none)
  Unmarshal := fun _ pb => (none, pb)
  FromProto := fun pb => (pb, some (Err.other 8))

/-- The sample pool over the chain where block 13 fails execution, after peer "p" pushed
the orphan 13 (child of 11) and then 11 (child of the chain block 0): 11 is promoted and
its node removed from the cache, 13 stays in the cache. -/
def pickyPool : BlockPool (List Block) :=
  pushAll pickyEnv 8 "p" [sampleBlock 13 11 3, sampleBlock 11 0 1] samplePool

/-! ## The memory storage (storage/memory_storage.go) -/

/-- The errors of package `storage` returned by the memory storage. -/
inductive StorageErr where
  | ErrKeyNotFound
  deriving DecidableEq, Repr

/-- A `sync.Map` with keys `κ` and byte strings as values, as the list of its entries,
newest first. -/
structure SyncMap (κ : Type) where
  entries : List (κ × Bytes)
  deriving Repr

/-- `m.Load(key)`: the value and whether the key is present. -/
def SyncMap.Load {κ : Type} [DecidableEq κ] (m : SyncMap κ) (key : κ) : Option Bytes :=
  (m.entries.find? (fun e => decide (e.1 = key))).map Prod.snd

/-- `m.Delete(key)`. -/
def SyncMap.Delete {κ : Type} [DecidableEq κ] (m : SyncMap κ) (key : κ) : SyncMap κ :=
  ⟨m.entries.filter (fun e => decide (e.1 ≠ key))⟩

/-- `m.Store(key, value)`. -/
def SyncMap.Store {κ : Type} [DecidableEq κ] (m : SyncMap κ) (key : κ) (value : Bytes) :
    SyncMap κ :=
  ⟨(key, value) :: (m.Delete key).entries⟩

/-- `MemoryStorage`: the map behind the pointer `data`. -/
structure MemoryStorage (κ : Type) where
  data : SyncMap κ
  deriving Repr

/-- The `kv` entry of a batch. -/
structure kv where
  k : Bytes
  v : Bytes
  deriving DecidableEq, Repr

/-- `MemoryBatch`: the storage behind the pointer `db`, and the entries. -/
structure MemoryBatch (κ : Type) where
  db : MemoryStorage κ
  entries : List kv
  deriving Repr

/-- `NewMemoryStorage`. -/
def NewMemoryStorage {κ : Type} : MemoryStorage κ := ⟨⟨[]⟩⟩

/-- `db.Get(key)`; `Hex` is `byteutils.Hex`. -/
def MemoryStorage.Get {κ : Type} [DecidableEq κ] (Hex : Bytes → κ) (db : MemoryStorage κ)
    (key : Bytes) : Except StorageErr Bytes :=
  match db.data.Load (Hex key) with
  | some entry => .ok entry
  | none => .error .ErrKeyNotFound

/-- `db.Put(key, value)`; the error returned is always nil. -/
def MemoryStorage.Put {κ : Type} [DecidableEq κ] (Hex : Bytes → κ) (db : MemoryStorage κ)
    (key value : Bytes) : MemoryStorage κ :=
  ⟨db.data.Store (Hex key) value⟩

/-- `db.Del(key)`; the error returned is always nil. -/
def MemoryStorage.Del {κ : Type} [DecidableEq κ] (Hex : Bytes → κ) (db : MemoryStorage κ)
    (key : Bytes) : MemoryStorage κ :=
  ⟨db.data.Delete (Hex key)⟩

/-- `db.NewBatch()`. -/
def MemoryStorage.NewBatch {κ : Type} (db : MemoryStorage κ) : MemoryBatch κ := ⟨db, []⟩

/-- `b.Put(key, value)` on a batch; the error returned is always nil. -/
def MemoryBatch.Put {κ : Type} (b : MemoryBatch κ) (key value : Bytes) : MemoryBatch κ :=
  { b with entries := b.entries ++ [⟨key, value⟩] }

/-- `b.Write()`: the entries are put into the storage in the order of the batch. -/
def MemoryBatch.Write {κ : Type} [DecidableEq κ] (Hex : Bytes → κ) (b : MemoryBatch κ) :
    MemoryBatch κ :=
  { b with db := b.entries.foldl (fun db e => db.Put Hex e.k e.v) b.db }

/-- `b.Reset()`. -/
def MemoryBatch.Reset {κ : Type} (b : MemoryBatch κ) : MemoryBatch κ :=
  { b with entries := [] }

/-- Specification of a batch: the last value batched for a key, if any. -/
def lastBatched : List kv → Bytes → Option Bytes
  | [], _ => none
  | e :: es, key =>
    match lastBatched es key with
    | some v => some v
    | none => if e.k = key then some e.v else none

/-- A storage keyed by the byte strings themselves. -/
def sampleStorage : MemoryStorage Bytes :=
  ((NewMemoryStorage.Put id [1] [10]).Put id [2] [20])

/-- A signed orphan of height `2^63`, child of the absent block 10. -/
def heavyBlock : Block :=
  { hash := [11], parentHash := [10], timestamp := 1, height := 2 ^ 63,
    signature := [11, 11] }

/-- The pool of capacity 2 after peer "p" pushed the orphan 12 and its children 13 and
15: the insertion of 15 has evicted and disposed the node of 13, which is still in the
child map of the node of 12. -/
def poolWithEvictedChild : BlockPool (List Block) :=
  pushAll sampleEnv 8 "p" [sampleBlock 12 11 2, sampleBlock 13 12 3, sampleBlock 15 12 5]
    smallPool

/-- The sample pool of capacity 3 after the local pushes of the orphan 12 and of its
children 13, 15 and 16: the insertion of 16 has evicted and disposed the node of 13,
which is still in the child map of the node of 12. -/
def poolLocalEvictedChild : BlockPool (List Block) :=
  pushAll sampleEnv 8 NoSender
    [sampleBlock 12 11 2, sampleBlock 13 12 3, sampleBlock 15 12 5, sampleBlock 16 12 6]
    samplePool

/-! ## Facts about the LRU cache -/

namespace Lru

variable {κ ν : Type} [DecidableEq κ]

theorem lookup_eraseKey_ne {k k2 : κ} (h : k2 ≠ k) (l : List (κ × ν)) :
    lookup k2 (eraseKey k l) = lookup k2 l := by
  induction l with
  | nil => rfl
  | cons e es ih =>
    obtain ⟨a, b⟩ := e
    simp only [eraseKey, lookup]
    by_cases he : a = k
    · have h2 : ¬ a = k2 := fun h3 => h (h3.symm.trans he)
      rw [if_pos he, if_neg h2]
    · rw [if_neg he]
      simp only [lookup, ih]

theorem mem_of_lookup {k : κ} {v : ν} {l : List (κ × ν)} (h : lookup k l = some v) :
    (k, v) ∈ l := by
  induction l with
  | nil => simp [lookup] at h
  | cons e es ih =>
    by_cases he : e.1 = k
    · simp [lookup, he] at h
      have : e = (k, v) := by cases e; simp_all
      simp [this]
    · simp [lookup, he] at h
      exact List.mem_cons_of_mem _ (ih h)

theorem lookup_isSome_of_mem {e : κ × ν} {l : List (κ × ν)} (h : e ∈ l) :
    (lookup e.1 l).isSome = true := by
  induction l with
  | nil => simp at h
  | cons x xs ih =>
    by_cases hx : x.1 = e.1
    · simp [lookup, hx]
    · simp [lookup, hx]
      rcases List.mem_cons.mp h with h1 | h1
      · exact absurd (by rw [h1]) hx
      · exact ih h1

theorem mem_eraseKey {e : κ × ν} {k : κ} {l : List (κ × ν)} (h : e ∈ eraseKey k l) : e ∈ l := by
  induction l with
  | nil => simp [eraseKey] at h
  | cons x xs ih =>
    by_cases hx : x.1 = k
    · simp [eraseKey, hx] at h
      exact List.mem_cons_of_mem _ h
    · simp [eraseKey, hx] at h
      rcases h with h | h
      · simp [h]
      · exact List.mem_cons_of_mem _ (ih h)

theorem lookup_Get (c : Lru κ ν) (k k2 : κ) :
    lookup k2 (c.Get k).2.items = lookup k2 c.items := by
  unfold Get
  cases hl : lookup k c.items with
  | none => rfl
  | some v =>
    by_cases h : k = k2
    · subst h
      simp [lookup, hl]
    · simp [lookup, h, lookup_eraseKey_ne (Ne.symm h)]

theorem Get_fst (c : Lru κ ν) (k : κ) : (c.Get k).1 = lookup k c.items := by
  unfold Get
  cases hl : lookup k c.items <;> rfl

theorem Get_size (c : Lru κ ν) (k : κ) : (c.Get k).2.size = c.size := by
  unfold Get
  cases hl : lookup k c.items <;> rfl

theorem mem_Get {c : Lru κ ν} {k : κ} {e : κ × ν} (h : e ∈ (c.Get k).2.items) :
    e ∈ c.items := by
  unfold Get at h
  cases hl : lookup k c.items with
  | none => simpa [hl] using h
  | some v =>
    simp [hl] at h
    rcases h with h | h
    · rw [h]; exact mem_of_lookup hl
    · exact mem_eraseKey h

end Lru

namespace Lru

variable {κ ν : Type} [DecidableEq κ]

theorem lookup_dropLast {k : κ} {v : ν} : ∀ {l : List (κ × ν)},
    lookup k l.dropLast = some v → lookup k l = some v
  | [], h => by simp [lookup] at h
  | [_], h => by simp [lookup] at h
  | e :: e2 :: es, h => by
    rw [List.dropLast_cons_of_ne_nil (by simp)] at h
    simp only [lookup] at h ⊢
    by_cases he : e.1 = k
    · rw [if_pos he] at h ⊢; exact h
    · rw [if_neg he] at h ⊢
      exact lookup_dropLast h

/-- Shape of the cache after adding a fresh key to a cache of capacity at least one. -/
theorem Add_fresh_shape (c : Lru κ ν) (k : κ) (v : ν) (hs : 1 ≤ c.size)
    (hf : lookup k c.items = none) :
    (c.Add k v).1.size = c.size ∧
    (((c.Add k v).1.items = (k, v) :: c.items ∧ (c.Add k v).2 = none) ∨
      (∃ e, (c.Add k v).1.items = (k, v) :: c.items.dropLast ∧ (c.Add k v).2 = some e ∧
        c.items = c.items.dropLast ++ [e])) := by
  have hadd : c.Add k v =
      if ((k, v) :: c.items).length > c.size then
        ({ c with items := ((k, v) :: c.items).dropLast }, ((k, v) :: c.items).getLast?)
      else ({ c with items := (k, v) :: c.items }, none) := by
    unfold Add
    rw [hf]
  by_cases hlen : ((k, v) :: c.items).length > c.size
  · rw [hadd, if_pos hlen]
    have hne : c.items ≠ [] := by
      intro h0
      rw [h0] at hlen
      simp at hlen
      omega
    refine ⟨rfl, Or.inr ⟨c.items.getLast hne, ?_, ?_, ?_⟩⟩
    · show ((k, v) :: c.items).dropLast = _
      rw [List.dropLast_cons_of_ne_nil hne]
    · show ((k, v) :: c.items).getLast? = _
      rw [List.getLast?_cons, List.getLast?_eq_getLast _ hne]
      rfl
    · exact (List.dropLast_concat_getLast hne).symm
  · rw [hadd, if_neg hlen]
    exact ⟨rfl, Or.inl ⟨rfl, rfl⟩⟩

theorem Add_fresh_lookup_self (c : Lru κ ν) (k : κ) (v : ν) (hs : 1 ≤ c.size)
    (hf : lookup k c.items = none) : lookup k (c.Add k v).1.items = some v := by
  rcases (Add_fresh_shape c k v hs hf).2 with ⟨h, _⟩ | ⟨e, h, _, _⟩ <;>
    rw [h] <;> simp [lookup]

theorem Add_fresh_lookup_other (c : Lru κ ν) (k : κ) (v : ν) (hs : 1 ≤ c.size)
    (hf : lookup k c.items = none) {k2 : κ} {x : ν} (hne : k2 ≠ k)
    (h : lookup k2 (c.Add k v).1.items = some x) : lookup k2 c.items = some x := by
  rcases (Add_fresh_shape c k v hs hf).2 with ⟨h1, _⟩ | ⟨e, h1, _, _⟩
  · rw [h1] at h
    simpa [lookup, Ne.symm hne] using h
  · rw [h1] at h
    simp only [lookup, if_neg (Ne.symm hne)] at h
    exact lookup_dropLast h

theorem Add_fresh_mem (c : Lru κ ν) (k : κ) (v : ν) (hs : 1 ≤ c.size)
    (hf : lookup k c.items = none) {e : κ × ν} (h : e ∈ (c.Add k v).1.items) :
    e = (k, v) ∨ e ∈ c.items := by
  rcases (Add_fresh_shape c k v hs hf).2 with ⟨h1, _⟩ | ⟨e1, h1, _, _⟩
  · rw [h1] at h
    simpa using h
  · rw [h1] at h
    rcases List.mem_cons.mp h with h | h
    · exact Or.inl h
    · exact Or.inr (List.mem_of_mem_dropLast h)

theorem Add_fresh_evicted (c : Lru κ ν) (k : κ) (v : ν) (hs : 1 ≤ c.size)
    (hf : lookup k c.items = none) {e : κ × ν} (h : (c.Add k v).2 = some e) :
    e ∈ c.items := by
  rcases (Add_fresh_shape c k v hs hf).2 with ⟨_, h1⟩ | ⟨e1, _, h1, h2⟩
  · rw [h1] at h; cases h
  · rw [h1] at h
    cases h
    rw [h2]
    simp

theorem mem_Keys {c : Lru κ ν} {k : κ} (h : k ∈ c.Keys) : (lookup k c.items).isSome = true := by
  unfold Keys at h
  rw [List.mem_reverse, List.mem_map] at h
  obtain ⟨e, he, rfl⟩ := h
  exact lookup_isSome_of_mem he

end Lru

theorem disposeAt_length (heap : List linkedBlock) (id : Nat) :
    (disposeAt heap id).length = heap.length := by
  unfold disposeAt
  cases h : heap[id]? <;> simp

theorem disposeAt_ne (heap : List linkedBlock) {id j : Nat} (h : id ≠ j) :
    (disposeAt heap id)[j]? = heap[j]? := by
  unfold disposeAt
  cases h1 : heap[id]? with
  | none => rfl
  | some n => simp [List.getElem?_set_ne h]

theorem disposeAt_self (heap : List linkedBlock) {id : Nat} {n : linkedBlock}
    (h : heap[id]? = some n) : (disposeAt heap id)[id]? = some n.Dispose := by
  unfold disposeAt
  rw [h]
  have : id < heap.length := by
    rcases List.getElem?_eq_some.mp h with ⟨h1, _⟩
    exact h1
  simp [List.getElem?_set_self this]

theorem nodeStep_refl (tgt : Nat) (th : Hash) (n : linkedBlock) : NodeStep tgt th n n :=
  ⟨rfl, rfl, rfl, rfl, rfl, Or.inl rfl⟩

theorem nodeStep_trans {tgt : Nat} {th : Hash} {a b c : linkedBlock}
    (h1 : NodeStep tgt th a b) (h2 : NodeStep tgt th b c) : NodeStep tgt th a c := by
  obtain ⟨a1, a2, a3, a4, a5, a6⟩ := h1
  obtain ⟨b1, b2, b3, b4, b5, b6⟩ := h2
  refine ⟨b1.trans a1, b2.trans a2, b3.trans a3, b4.trans a4, b5.trans a5, ?_⟩
  rcases b6 with h | ⟨h, h3⟩
  · rcases a6 with h4 | ⟨h4, h5⟩
    · exact Or.inl (h.trans h4)
    · exact Or.inr ⟨h4, h.trans h5⟩
  · exact Or.inr ⟨a4 ▸ h, h3⟩

theorem heapStep_refl (tgt : Nat) (th : Hash) (h : List linkedBlock) : HeapStep tgt th h h :=
  ⟨Eq.refl _, fun _ n hn => ⟨n, hn, nodeStep_refl tgt th n⟩⟩

theorem heapStep_trans {tgt : Nat} {th : Hash} {a b c : List linkedBlock}
    (h1 : HeapStep tgt th a b) (h2 : HeapStep tgt th b c) : HeapStep tgt th a c := by
  refine ⟨h2.1.trans h1.1, fun (id : Nat) n hn => ?_⟩
  obtain ⟨n2, hn2, s1⟩ := h1.2 id n hn
  obtain ⟨n3, hn3, s2⟩ := h2.2 id n2 hn2
  exact ⟨n3, hn3, nodeStep_trans s1 s2⟩

/-- `LinkParent` succeeds when the child is allocated and the parent has a child map; it
is a linking step towards the parent. -/
theorem LinkParent_spec (heap : List linkedBlock) (c p : Nat) (cn pn : linkedBlock)
    (hc : heap[c]? = some cn) (hp : heap[p]? = some pn)
    (hlive : pn.childBlocks.isSome = true) :
    ∃ heap1, LinkParent heap c p = some heap1 ∧ HeapStep p cn.parentHash heap heap1 ∧
      ∃ c2, heap1[c]? = some c2 ∧ c2.parentBlock = some p := by
  have hcl : c < heap.length := (List.getElem?_eq_some.mp hc).1
  have hpl : p < heap.length := (List.getElem?_eq_some.mp hp).1
  unfold LinkParent
  rw [hc]
  simp only
  by_cases hcp : c = p
  · subst hcp
    have hpn : pn = cn := by rw [hc] at hp; exact (Option.some.inj hp).symm
    subst hpn
    rw [List.getElem?_set_self hcl]
    simp only
    cases hcs : pn.childBlocks with
    | none => rw [hcs] at hlive; cases hlive
    | some cs =>
      simp only
      have hl2 : ∀ x, c < (heap.set c x).length := fun x => by
        rw [List.length_set]; exact hcl
      refine ⟨_, rfl, ⟨by simp, fun (id : Nat) n hn => ?_⟩, ?_⟩
      · by_cases hid : c = id
        · subst hid
          rw [hc] at hn; cases hn
          refine ⟨_, List.getElem?_set_self (hl2 _), rfl, rfl, rfl, rfl, ?_, Or.inr ⟨rfl, rfl⟩⟩
          simp [hcs]
        · refine ⟨n, ?_, nodeStep_refl _ _ n⟩
          rw [List.getElem?_set_ne hid, List.getElem?_set_ne hid]
          exact hn
      · exact ⟨_, List.getElem?_set_self (hl2 _), rfl⟩
  · rw [List.getElem?_set_ne hcp, hp]
    simp only
    cases hcs : pn.childBlocks with
    | none => rw [hcs] at hlive; cases hlive
    | some cs =>
      simp only
      have hl2 : ∀ x, p < (heap.set c x).length := fun x => by
        rw [List.length_set]; exact hpl
      refine ⟨_, rfl, ⟨by simp, fun (id : Nat) n hn => ?_⟩, ?_⟩
      · by_cases hid : p = id
        · subst hid
          rw [hp] at hn; cases hn
          refine ⟨_, List.getElem?_set_self (hl2 _), rfl, rfl, rfl, rfl, ?_, Or.inl rfl⟩
          simp [hcs]
        · rw [List.getElem?_set_ne hid]
          by_cases hid2 : c = id
          · subst hid2
            rw [hc] at hn; cases hn
            exact ⟨_, List.getElem?_set_self hcl, rfl, rfl, rfl, rfl, rfl,
              Or.inr ⟨rfl, rfl⟩⟩
          · rw [List.getElem?_set_ne hid2]
            exact ⟨n, hn, nodeStep_refl _ _ n⟩
      · rw [List.getElem?_set_ne (Ne.symm hcp)]
        exact ⟨_, List.getElem?_set_self hcl, rfl⟩

/-- The attach loop does not panic on a cache whose entries are allocated; it keeps the
cache as a map and is a linking step towards the new node. -/
theorem attachChildren_spec (lb : Nat) (th : Hash) :
    ∀ (ks : List Hash) (cache : Lru Hash Nat) (heap : List linkedBlock),
      (∀ k ∈ ks, (Lru.lookup k cache.items).isSome = true) →
      (∀ e ∈ cache.items, e.2 < heap.length) →
      (∃ n, heap[lb]? = some n ∧ n.childBlocks.isSome = true) →
      ∃ cache2 heap2, attachChildren lb th ks cache heap = some (cache2, heap2) ∧
        (∀ k, Lru.lookup k cache2.items = Lru.lookup k cache.items) ∧
        cache2.size = cache.size ∧ (∀ e ∈ cache2.items, e ∈ cache.items) ∧
        HeapStep lb th heap heap2
  | [], cache, heap, _, _, _ =>
    ⟨cache, heap, rfl, fun _ => rfl, rfl, fun _ h => h, heapStep_refl _ _ _⟩
  | k :: ks, cache, heap, hk, hv, hl => by
    have hk1 := hk k (List.mem_cons_self _ _)
    obtain ⟨c, hc⟩ := Option.isSome_iff_exists.mp hk1
    have hget : cache.Get k = (some c, (cache.Get k).2) := by
      apply Prod.ext
      · rw [Lru.Get_fst, hc]
      · rfl
    have hcv : c < heap.length := hv (k, c) (Lru.mem_of_lookup hc)
    obtain ⟨cn, hcn⟩ : ∃ cn, heap[c]? = some cn := ⟨heap[c], List.getElem?_eq_getElem hcv⟩
    have hk2 : ∀ k2 ∈ ks, (Lru.lookup k2 (cache.Get k).2.items).isSome = true :=
      fun k2 h2 => by rw [Lru.lookup_Get]; exact hk k2 (List.mem_cons_of_mem _ h2)
    unfold attachChildren
    rw [hget]
    simp only [hcn]
    by_cases hph : cn.parentHash = th
    · rw [if_pos hph]
      obtain ⟨n, hn, hnl⟩ := hl
      obtain ⟨heap1, hlp, hstep, _⟩ := LinkParent_spec heap c lb cn n hcn hn hnl
      rw [hlp]
      simp only
      rw [hph] at hstep
      obtain ⟨cache2, heap2, h1, h2, h3, h4, h5⟩ :=
        attachChildren_spec lb th ks (cache.Get k).2 heap1 hk2
          (fun e he => by rw [hstep.1]; exact hv e (Lru.mem_Get he))
          (by
            obtain ⟨n2, hn2, s⟩ := hstep.2 lb n hn
            exact ⟨n2, hn2, s.2.2.2.2.1.trans hnl⟩)
      exact ⟨cache2, heap2, h1, fun k2 => (h2 k2).trans (Lru.lookup_Get _ _ _),
        h3.trans (Lru.Get_size _ _), fun e he => Lru.mem_Get (h4 e he), heapStep_trans hstep h5⟩
    · rw [if_neg hph]
      obtain ⟨cache2, heap2, h1, h2, h3, h4, h5⟩ :=
        attachChildren_spec lb th ks (cache.Get k).2 heap hk2
          (fun e he => hv e (Lru.mem_Get he)) hl
      exact ⟨cache2, heap2, h1, fun k2 => (h2 k2).trans (Lru.lookup_Get _ _ _),
        h3.trans (Lru.Get_size _ _), fun e he => Lru.mem_Get (h4 e he), h5⟩

theorem Live_of_cacheLive {σ : Type} (pool : BlockPool σ) (h : pool.cacheLive = true) :
    Live pool.cache.items pool.heap := by
  intro e he
  unfold BlockPool.cacheLive at h
  rw [List.all_eq_true] at h
  have h1 := h e he
  cases hn : pool.heap[e.2]? with
  | none => rw [hn] at h1; cases h1
  | some n =>
    rw [hn] at h1
    simp only [Bool.and_eq_true, decide_eq_true_eq] at h1
    exact ⟨n, rfl, h1.1.1, h1.1.2, h1.2⟩

theorem Linked_of_linkedOk (heap : List linkedBlock) (h : linkedOk heap = true) :
    Linked heap := by
  intro id n p hn hp
  unfold linkedOk at h
  rw [List.all_eq_true] at h
  have h1 := h n (List.mem_iff_getElem?.mpr ⟨id, hn⟩)
  rw [hp] at h1
  simp only at h1
  cases hpn : heap[p]? with
  | none => rw [hpn] at h1; cases h1
  | some pn =>
    rw [hpn] at h1
    exact ⟨pn, rfl, by simpa using h1⟩

/-- The pool after the two insertions, for a hash that was not cached. -/
theorem addToPool_spec {σ : Type} (pool : BlockPool σ) (b : Block)
    (hs : 1 ≤ pool.cache.size) (hlive : Live pool.cache.items pool.heap)
    (hf : Lru.lookup b.hash pool.cache.items = none) :
    (addToPool pool b).1.bc = pool.bc ∧
    (addToPool pool b).1.slot = (pool.slot.Add b.timestamp b).1 ∧
    (addToPool pool b).2 = slotEvicted (pool.slot.Add b.timestamp b).2 ∧
    (addToPool pool b).1.heap.length = pool.heap.length + 1 ∧
    (addToPool pool b).1.heap[pool.heap.length]? = some (newLinkedBlock b) ∧
    Lru.lookup b.hash (addToPool pool b).1.cache.items = some pool.heap.length ∧
    (∀ e ∈ (addToPool pool b).1.cache.items,
        e = (b.hash, pool.heap.length) ∨ e ∈ pool.cache.items) ∧
    (∀ k x, k ≠ b.hash → Lru.lookup k (addToPool pool b).1.cache.items = some x →
        Lru.lookup k pool.cache.items = some x) ∧
    (∀ (id : Nat) (n : linkedBlock), pool.heap[id]? = some n →
        (addToPool pool b).1.heap[id]? = some n ∨
        ((addToPool pool b).1.heap[id]? = some n.Dispose ∧
          ∃ e, (pool.cache.Add b.hash pool.heap.length).2 = some e ∧ e.2 = id)) := by
  have hlen : ∀ ev, (∀ e, ev = some e → e ∈ pool.cache.items) →
      (cacheEvicted (pool.heap ++ [newLinkedBlock b]) ev).length = pool.heap.length + 1 ∧
      (cacheEvicted (pool.heap ++ [newLinkedBlock b]) ev)[pool.heap.length]?
        = some (newLinkedBlock b) ∧
      (∀ (id : Nat) (n : linkedBlock), pool.heap[id]? = some n →
        (cacheEvicted (pool.heap ++ [newLinkedBlock b]) ev)[id]? = some n ∨
        ((cacheEvicted (pool.heap ++ [newLinkedBlock b]) ev)[id]? = some n.Dispose ∧
          ∃ e, ev = some e ∧ e.2 = id)) := by
    intro ev hev
    cases ev with
    | none =>
      refine ⟨by simp [cacheEvicted], by simp [cacheEvicted], fun id n hn => Or.inl ?_⟩
      have : id < pool.heap.length := (List.getElem?_eq_some.mp hn).1
      simp only [cacheEvicted]
      rw [List.getElem?_append_left this]
      exact hn
    | some e =>
      obtain ⟨en, hen, _⟩ := hlive e (hev e rfl)
      have hel : e.2 < pool.heap.length := (List.getElem?_eq_some.mp hen).1
      simp only [cacheEvicted]
      refine ⟨by simp [disposeAt_length], ?_, fun id n hn => ?_⟩
      · rw [disposeAt_ne _ (Nat.ne_of_lt hel)]
        simp
      · have hid : id < pool.heap.length := (List.getElem?_eq_some.mp hn).1
        have hn2 : (pool.heap ++ [newLinkedBlock b])[id]? = some n := by
          rw [List.getElem?_append_left hid]; exact hn
        by_cases h : e.2 = id
        · right
          subst h
          exact ⟨disposeAt_self _ hn2, e, rfl, rfl⟩
        · left
          rw [disposeAt_ne _ h]
          exact hn2
  obtain ⟨h1, h2, h3⟩ := hlen (pool.cache.Add b.hash pool.heap.length).2
    (fun e he => Lru.Add_fresh_evicted pool.cache b.hash pool.heap.length hs hf he)
  refine ⟨rfl, rfl, rfl, h1, h2, ?_, ?_, ?_, h3⟩
  · exact Lru.Add_fresh_lookup_self pool.cache b.hash pool.heap.length hs hf
  · intro e he
    exact Lru.Add_fresh_mem pool.cache b.hash pool.heap.length hs hf he
  · intro k x hne hx
    exact Lru.Add_fresh_lookup_other pool.cache b.hash pool.heap.length hs hf hne hx

/-! ## The run of `push` -/

theorem Lru.lookup_eraseKey_none {κ ν : Type} [DecidableEq κ] {k k2 : κ} :
    ∀ {l : List (κ × ν)}, Lru.lookup k2 l = none → Lru.lookup k2 (Lru.eraseKey k l) = none
  | [], _ => rfl
  | e :: es, h => by
    simp only [Lru.lookup] at h
    by_cases he2 : e.1 = k2
    · rw [if_pos he2] at h; cases h
    · rw [if_neg he2] at h
      simp only [Lru.eraseKey]
      by_cases he : e.1 = k
      · rw [if_pos he]; exact h
      · rw [if_neg he]
        simp only [Lru.lookup, if_neg he2]
        exact Lru.lookup_eraseKey_none h

theorem removeAll_lookup_none : ∀ (vs : List Block) (cache : Lru Hash Nat)
    (heap : List linkedBlock) (k : Hash), Lru.lookup k cache.items = none →
    Lru.lookup k (removeAll vs cache heap).1.items = none
  | [], _, _, _, h => h
  | v :: vs, cache, heap, k, h => by
    unfold removeAll
    unfold Lru.Remove
    cases hl : Lru.lookup v.hash cache.items with
    | none => exact removeAll_lookup_none vs cache heap k h
    | some id =>
      exact removeAll_lookup_none vs _ _ k (Lru.lookup_eraseKey_none h)

/-- The pool left by the chain part of `push`: untouched apart from the chain handle,
or, after a successful promotion, with the promoted blocks removed from the cache. -/
theorem pushChain_final {σ : Type} (env : Env σ) (fuel : Nat) (pool : BlockPool σ)
    (sender : String) (b : Block) (lb : Nat) (evs : List Event) :
    (pushChain env fuel pool sender b lb evs).pool.slot = pool.slot ∧
    (((pushChain env fuel pool sender b lb evs).pool.cache = pool.cache ∧
        (pushChain env fuel pool sender b lb evs).pool.heap = pool.heap) ∨
      ∃ parentBlock allBlocks tailBlocks bc1,
        travelToLinkAndReturnAllValidBlocks env pool.bc pool.heap fuel lb parentBlock
          = .ret (.ok (allBlocks, tailBlocks)) ∧
        env.putVerifiedNewBlocks pool.bc parentBlock allBlocks tailBlocks = (none, bc1) ∧
        (pushChain env fuel pool sender b lb evs).pool.bc = (env.ForkChoice bc1).2 ∧
        (pushChain env fuel pool sender b lb evs).out = .ret (env.ForkChoice bc1).1 ∧
        (pushChain env fuel pool sender b lb evs).pool.cache
          = (removeAll allBlocks pool.cache pool.heap).1) := by
  unfold pushChain
  cases hg : env.GetBlock pool.bc b.parentHash with
  | none =>
    simp only
    split
    · exact ⟨rfl, Or.inl ⟨rfl, rfl⟩⟩
    · split
      · exact ⟨rfl, Or.inl ⟨rfl, rfl⟩⟩
      · split
        · exact ⟨rfl, Or.inl ⟨rfl, rfl⟩⟩
        · split
          · exact ⟨rfl, Or.inl ⟨rfl, rfl⟩⟩
          · split <;> exact ⟨rfl, Or.inl ⟨rfl, rfl⟩⟩
  | some parentBlock =>
    simp only
    split
    · exact ⟨rfl, Or.inl ⟨rfl, rfl⟩⟩
    · exact ⟨rfl, Or.inl ⟨rfl, rfl⟩⟩
    · exact ⟨rfl, Or.inl ⟨rfl, rfl⟩⟩
    · rename_i allBlocks tailBlocks htr
      split
      · exact ⟨rfl, Or.inl ⟨rfl, rfl⟩⟩
      · rename_i bc1 hput
        exact ⟨rfl, Or.inr ⟨parentBlock, allBlocks, tailBlocks, bc1, htr, hput, rfl, rfl, rfl⟩⟩

/-- A successful traversal lists the block of its root. -/
theorem travel_root_mem {σ : Type} (env : Env σ) (bc : σ) (heap : List linkedBlock)
    (fuel lb : Nat) (parentBlock : Block) (allBlocks tailBlocks : List Block)
    (h : travelToLinkAndReturnAllValidBlocks env bc heap fuel lb parentBlock
      = .ret (.ok (allBlocks, tailBlocks))) :
    ∃ n blk, heap[lb]? = some n ∧ n.block = some blk ∧ blk ∈ allBlocks := by
  cases fuel with
  | zero => simp [travelToLinkAndReturnAllValidBlocks] at h
  | succ fuel =>
    unfold travelToLinkAndReturnAllValidBlocks at h
    cases hn : heap[lb]? with
    | none => simp [hn] at h
    | some n =>
      cases hb : n.block with
      | none => simp [hn, hb] at h
      | some blk =>
        refine ⟨n, blk, rfl, hb, ?_⟩
        simp only [hn, hb] at h
        split at h
        · cases h
        · split at h
          · cases h
          · split at h
            · cases h
            · have key : ∀ (cs : List Nat) (acc : Outcome (List Block × List Block)),
                  (∀ p, acc = .ret p → blk ∈ p.1) →
                  ∀ p, cs.foldl
                    (fun (acc : Outcome (List Block × List Block)) clb =>
                      match acc with
                      | .ret (all, tails) =>
                        match travelToLinkAndReturnAllValidBlocks env bc heap fuel clb blk with
                        | .ret (.ok (a, t)) => .ret (all ++ a, tails ++ t)
                        | .ret (.error _) => .ret (all, tails)
                        | .panic => .panic
                        | .diverge => .diverge
                      | .panic => .panic
                      | .diverge => .diverge) acc = .ret p → blk ∈ p.1 := by
                intro cs
                induction cs with
                | nil => intro acc hacc p hp; exact hacc p hp
                | cons c cs ih =>
                  intro acc hacc p hp
                  rw [List.foldl_cons] at hp
                  refine ih _ ?_ p hp
                  intro q hq
                  cases acc with
                  | panic => simp at hq
                  | diverge => simp at hq
                  | ret a =>
                    obtain ⟨all, tails⟩ := a
                    have hall := hacc _ rfl
                    simp only at hq
                    split at hq
                    · cases hq; exact List.mem_append_left _ hall
                    · cases hq; exact hall
                    · cases hq
                    · cases hq
              split at h
              · rename_i p hp
                cases h
                exact key _ _ (fun q hq => by cases hq; simp) _ hp
              · cases h
              · cases h

/-- When `LinkParent` returns, it was a linking step towards the parent. -/
theorem LinkParent_some (heap heap1 : List linkedBlock) (c p : Nat)
    (h : LinkParent heap c p = some heap1) :
    ∃ cn, heap[c]? = some cn ∧ HeapStep p cn.parentHash heap heap1 := by
  cases hc : heap[c]? with
  | none => simp [LinkParent, hc] at h
  | some cn =>
    cases hp : heap[p]? with
    | none =>
      have hcp : c ≠ p := fun e => by rw [e, hp] at hc; cases hc
      simp [LinkParent, hc, List.getElem?_set_ne hcp, hp] at h
    | some pn =>
      cases hcs : pn.childBlocks.isSome with
      | false =>
        exfalso
        have hcl : c < heap.length := (List.getElem?_eq_some.mp hc).1
        have hnone : pn.childBlocks = none := by
          cases h2 : pn.childBlocks with
          | none => rfl
          | some x => rw [h2] at hcs; cases hcs
        by_cases hcp : c = p
        · subst hcp
          rw [hc] at hp
          cases hp
          simp [LinkParent, hc, List.getElem?_set_self hcl, hnone] at h
        · simp [LinkParent, hc, List.getElem?_set_ne hcp, hp, hnone] at h
      | true =>
        obtain ⟨h1, hl, hs, _⟩ := LinkParent_spec heap c p cn pn hc hp hcs
        rw [hl] at h
        cases h
        exact ⟨cn, rfl, hs⟩

/-- A block that passes the duplicate, integrity and equivocation checks reaches the two
insertions. -/
theorem push_entry {σ : Type} (env : Env σ) (fuel : Nat) (pool : BlockPool σ)
    (sender : String) (b : Block)
    (hc : pool.cache.Contains b.hash = false) (hg : env.GetBlock pool.bc b.hash = none)
    (hvi : env.VerifyIntegrity pool.bc b = none)
    (hslot : pool.slot.Contains b.timestamp = false) :
    push env fuel pool sender b
      = pushLinked env fuel (addToPool pool b).1 sender b pool.heap.length
          (addToPool pool b).2 := by
  have hsl : Lru.lookup b.timestamp pool.slot.items = none := by
    unfold Lru.Contains at hslot
    cases h : Lru.lookup b.timestamp pool.slot.items with
    | none => rfl
    | some x => rw [h] at hslot; cases hslot
  have hget : pool.slot.Get b.timestamp = (none, pool.slot) := by
    unfold Lru.Get
    rw [hsl]
  unfold push
  simp [hc, hg, hvi, hget]

theorem lookup_none_of_Contains {κ ν : Type} [DecidableEq κ] {c : Lru κ ν} {k : κ}
    (h : c.Contains k = false) : Lru.lookup k c.items = none := by
  unfold Lru.Contains at h
  cases h1 : Lru.lookup k c.items with
  | none => rfl
  | some x => rw [h1] at h; cases h

/-- The attach loop after the two insertions. -/
theorem attach_after_add {σ : Type} (pool : BlockPool σ) (b : Block)
    (hs : 1 ≤ pool.cache.size) (hlive : Live pool.cache.items pool.heap)
    (hf : Lru.lookup b.hash pool.cache.items = none) :
    ∃ cache2 heap2,
      attachChildren pool.heap.length b.hash (addToPool pool b).1.cache.Keys
        (addToPool pool b).1.cache (addToPool pool b).1.heap = some (cache2, heap2) ∧
      (∀ k, Lru.lookup k cache2.items = Lru.lookup k (addToPool pool b).1.cache.items) ∧
      (∀ e ∈ cache2.items, e ∈ (addToPool pool b).1.cache.items) ∧
      HeapStep pool.heap.length b.hash (addToPool pool b).1.heap heap2 := by
  obtain ⟨_, _, _, hlen, hnew, _, hmem, _, _⟩ := addToPool_spec pool b hs hlive hf
  obtain ⟨cache2, heap2, h1, h2, _, h4, h5⟩ :=
    attachChildren_spec pool.heap.length b.hash (addToPool pool b).1.cache.Keys
      (addToPool pool b).1.cache (addToPool pool b).1.heap
      (fun k hk => Lru.mem_Keys hk)
      (fun e he => by
        rw [hlen]
        rcases hmem e he with h | h
        · rw [h]; exact Nat.lt_succ_self _
        · obtain ⟨n, hn, _⟩ := hlive e h
          exact Nat.lt_succ_of_lt (List.getElem?_eq_some.mp hn).1)
      ⟨newLinkedBlock b, hnew, rfl⟩
  exact ⟨cache2, heap2, h1, h2, h4, h5⟩

/-- Where an admitted block is when `push` ends, whatever the exit: the slot holds the
result of `slot.Add`; keys other than the block's hash do not enter the cache; and the
block is in the cache at the address of its new node, unless it was promoted. -/
theorem push_final {σ : Type} (env : Env σ) (fuel : Nat) (pool : BlockPool σ)
    (sender : String) (b : Block)
    (hs : 1 ≤ pool.cache.size) (hlive : pool.cacheLive = true)
    (hc : pool.cache.Contains b.hash = false) (hg : env.GetBlock pool.bc b.hash = none)
    (hvi : env.VerifyIntegrity pool.bc b = none)
    (hslot : pool.slot.Contains b.timestamp = false) :
    (push env fuel pool sender b).pool.slot = (pool.slot.Add b.timestamp b).1 ∧
    (∀ k, k ≠ b.hash → Lru.lookup k pool.cache.items = none →
      Lru.lookup k (push env fuel pool sender b).pool.cache.items = none) ∧
    ((Lru.lookup b.hash (push env fuel pool sender b).pool.cache.items
          = some pool.heap.length ∧
        ∃ n, (push env fuel pool sender b).pool.heap[pool.heap.length]? = some n ∧
          n.block = some b ∧ n.hash = b.hash) ∨
      ∃ parentBlock allBlocks tailBlocks bc1,
        env.putVerifiedNewBlocks pool.bc parentBlock allBlocks tailBlocks = (none, bc1) ∧
        b ∈ allBlocks ∧
        (push env fuel pool sender b).pool.bc = (env.ForkChoice bc1).2 ∧
        (push env fuel pool sender b).out = .ret (env.ForkChoice bc1).1) := by
  have hL := Live_of_cacheLive pool hlive
  have hf := lookup_none_of_Contains hc
  obtain ⟨hbc, hsl, _, _, hnew, hself, _, hother, _⟩ := addToPool_spec pool b hs hL hf
  obtain ⟨cache2, heap2, hatt, hlk, _, hstep⟩ := attach_after_add pool b hs hL hf
  have hnone1 : ∀ k, k ≠ b.hash → Lru.lookup k pool.cache.items = none →
      Lru.lookup k (addToPool pool b).1.cache.items = none := by
    intro k hk h0
    cases h1 : Lru.lookup k (addToPool pool b).1.cache.items with
    | none => rfl
    | some x => rw [hother k x hk h1] at h0; cases h0
  obtain ⟨n2, hn2, hs2⟩ := hstep.2 _ _ hnew
  have hn2b : n2.block = some b := hs2.1
  have hn2h : n2.hash = b.hash := hs2.2.2.1
  rw [push_entry env fuel pool sender b hc hg hvi hslot]
  unfold pushLinked
  rw [hatt]
  simp only
  cases hl : Lru.lookup b.parentHash cache2.items with
  | none =>
    have hget : cache2.Get b.parentHash = (none, cache2) := by
      unfold Lru.Get
      rw [hl]
    rw [hget]
    simp only
    obtain ⟨f1, f2⟩ := pushChain_final env fuel
      { (addToPool pool b).1 with cache := cache2, heap := heap2 } sender b pool.heap.length
      (addToPool pool b).2
    refine ⟨f1.trans hsl, ?_, ?_⟩
    · intro k hk h0
      rcases f2 with ⟨g1, _⟩ | ⟨_, allBlocks, _, _, _, _, _, _, g5⟩
      · rw [g1]
        exact (hlk k).trans (hnone1 k hk h0)
      · rw [g5]
        exact removeAll_lookup_none _ _ _ _ ((hlk k).trans (hnone1 k hk h0))
    · rcases f2 with ⟨g1, g2⟩ | ⟨parentBlock, allBlocks, tailBlocks, bc1, g1, g2, g3, g4, _⟩
      · left
        rw [g1, g2]
        exact ⟨(hlk _).trans hself, n2, hn2, hn2b, hn2h⟩
      · right
        obtain ⟨n, blk, q1, q2, q3⟩ := travel_root_mem env _ _ _ _ _ _ _ g1
        have : blk = b := by
          change heap2[pool.heap.length]? = some n at q1
          rw [hn2] at q1
          cases q1
          rw [hn2b] at q2
          cases q2
          rfl
        subst this
        exact ⟨parentBlock, allBlocks, tailBlocks, bc1, hbc ▸ g2, q3, g3, g4⟩
  | some plb =>
    have hget : cache2.Get b.parentHash = (some plb, (cache2.Get b.parentHash).2) := by
      apply Prod.ext
      · rw [Lru.Get_fst, hl]
      · rfl
    have hlk3 : ∀ k, Lru.lookup k (cache2.Get b.parentHash).2.items
        = Lru.lookup k (addToPool pool b).1.cache.items :=
      fun k => (Lru.lookup_Get _ _ _).trans (hlk k)
    rw [hget]
    simp only
    cases hlp : LinkParent heap2 pool.heap.length plb with
    | none =>
      simp only
      exact ⟨hsl, fun k hk h0 => (hlk3 k).trans (hnone1 k hk h0),
        Or.inl ⟨(hlk3 _).trans hself, n2, hn2, hn2b, hn2h⟩⟩
    | some heap3 =>
      obtain ⟨_, _, hstep3⟩ := LinkParent_some _ _ _ _ hlp
      obtain ⟨n3, hn3, hs3⟩ := hstep3.2 _ _ hn2
      have key : ∀ (o : Outcome (Option Err)) (evs : List Event),
          (Run.mk o { (addToPool pool b).1 with
              cache := (cache2.Get b.parentHash).2, heap := heap3 } evs).pool.slot
            = (pool.slot.Add b.timestamp b).1 ∧
          (∀ k, k ≠ b.hash → Lru.lookup k pool.cache.items = none →
            Lru.lookup k (Run.mk o { (addToPool pool b).1 with
              cache := (cache2.Get b.parentHash).2, heap := heap3 } evs).pool.cache.items
              = none) ∧
          ((Lru.lookup b.hash (Run.mk o { (addToPool pool b).1 with
              cache := (cache2.Get b.parentHash).2, heap := heap3 } evs).pool.cache.items
                = some pool.heap.length ∧
              ∃ n, (Run.mk o { (addToPool pool b).1 with
                cache := (cache2.Get b.parentHash).2, heap := heap3 } evs).pool.heap[
                  pool.heap.length]? = some n ∧ n.block = some b ∧ n.hash = b.hash) ∨
            ∃ parentBlock allBlocks tailBlocks bc1,
              env.putVerifiedNewBlocks pool.bc parentBlock allBlocks tailBlocks
                = (none, bc1) ∧
              b ∈ allBlocks ∧
              (Run.mk o { (addToPool pool b).1 with
                cache := (cache2.Get b.parentHash).2, heap := heap3 } evs).pool.bc
                = (env.ForkChoice bc1).2 ∧
              (Run.mk o { (addToPool pool b).1 with
                cache := (cache2.Get b.parentHash).2, heap := heap3 } evs).out
                = .ret (env.ForkChoice bc1).1) :=
        fun o evs => ⟨hsl, fun k hk h0 => (hlk3 k).trans (hnone1 k hk h0),
          Or.inl ⟨(hlk3 _).trans hself, n3, hn3, hs3.1.trans hn2b, hs3.2.2.1.trans hn2h⟩⟩
      simp only
      split
      · exact key _ _
      · exact key _ _
      · split
        · exact key _ _
        · split
          · exact key _ _
          · exact key _ _

/-- With pairwise distinct values, the entry evicted by `Add` is not left in the cache. -/
theorem Lru.Add_fresh_mem_nodup {κ ν : Type} [DecidableEq κ] (c : Lru κ ν) (k : κ) (v : ν)
    (hs : 1 ≤ c.size) (hf : Lru.lookup k c.items = none)
    (hnd : (c.items.map Prod.snd).Nodup) {e : κ × ν} (h : e ∈ (c.Add k v).1.items) :
    e = (k, v) ∨ (e ∈ c.items ∧ ∀ e2, (c.Add k v).2 = some e2 → e2.2 ≠ e.2) := by
  rcases (Lru.Add_fresh_shape c k v hs hf).2 with ⟨h1, h2⟩ | ⟨e1, h1, h2, h3⟩
  · rw [h1] at h
    rcases List.mem_cons.mp h with h | h
    · exact Or.inl h
    · exact Or.inr ⟨h, fun e2 he2 => by rw [h2] at he2; cases he2⟩
  · rw [h1] at h
    rcases List.mem_cons.mp h with h | h
    · exact Or.inl h
    · refine Or.inr ⟨List.mem_of_mem_dropLast h, fun e2 he2 => ?_⟩
      rw [h2] at he2
      cases he2
      rw [h3, List.map_append, List.nodup_append] at hnd
      intro heq
      exact hnd.2.2 (List.mem_map_of_mem Prod.snd h) (by simp [heq])

theorem Ranked_of_rankedOk (rank : Hash → Nat) (heap : List linkedBlock)
    (h : rankedOk rank heap = true) : Ranked rank heap := by
  intro id n hn
  unfold rankedOk at h
  rw [List.all_eq_true] at h
  simpa using h n (List.mem_iff_getElem?.mpr ⟨id, hn⟩)

/-- A linking step keeps every node in place: a node of the new heap comes from the node
at the same address. -/
theorem heapStep_back {tgt : Nat} {th : Hash} {h h2 : List linkedBlock}
    (hs : HeapStep tgt th h h2) {id : Nat} {n2 : linkedBlock} (hn2 : h2[id]? = some n2) :
    ∃ n, h[id]? = some n ∧ NodeStep tgt th n n2 := by
  have hid : id < h.length := hs.1 ▸ (List.getElem?_eq_some.mp hn2).1
  obtain ⟨n3, hn3, st⟩ := hs.2 id h[id] (List.getElem?_eq_getElem hid)
  rw [hn2] at hn3
  cases hn3
  exact ⟨h[id], List.getElem?_eq_getElem hid, st⟩

theorem Linked_step {tgt : Nat} {th : Hash} {h h2 : List linkedBlock} (hl : Linked h)
    (hs : HeapStep tgt th h h2) (ht : ∃ tn, h[tgt]? = some tn ∧ tn.hash = th) :
    Linked h2 := by
  intro id n2 p hn2 hp
  obtain ⟨n, hn, st⟩ := heapStep_back hs hn2
  rcases st.2.2.2.2.2 with h1 | ⟨h1, h3⟩
  · obtain ⟨pn, hpn, hh⟩ := hl id n p hn (h1 ▸ hp)
    obtain ⟨pn2, hpn2, st2⟩ := hs.2 p pn hpn
    exact ⟨pn2, hpn2, st2.2.2.1.trans (hh.trans st.2.2.2.1.symm)⟩
  · rw [hp] at h3
    cases h3
    obtain ⟨tn, htn, hth⟩ := ht
    obtain ⟨tn2, htn2, st2⟩ := hs.2 _ tn htn
    exact ⟨tn2, htn2, st2.2.2.1.trans (hth.trans (h1.symm.trans st.2.2.2.1.symm))⟩

theorem Ranked_step {rank : Hash → Nat} {tgt : Nat} {th : Hash} {h h2 : List linkedBlock}
    (hr : Ranked rank h) (hs : HeapStep tgt th h h2) : Ranked rank h2 := by
  intro id n2 hn2
  obtain ⟨n, hn, st⟩ := heapStep_back hs hn2
  rw [st.2.2.1, st.2.2.2.1]
  exact hr id n hn

/-- On a linked heap whose hashes are ranked, the walk to the topmost ancestor ends once
the fuel exceeds the rank of the starting node. -/
theorem topAncestor_terminates (rank : Hash → Nat) (heap : List linkedBlock)
    (hl : Linked heap) (hr : Ranked rank heap) :
    ∀ (fuel id : Nat) (n : linkedBlock), heap[id]? = some n → rank n.hash < fuel →
      ∃ top tn, topAncestor heap fuel id = .ret top ∧ heap[top]? = some tn ∧
        tn.parentBlock = none
  | 0, _, _, _, h => absurd h (Nat.not_lt_zero _)
  | fuel + 1, id, n, hn, h => by
    unfold topAncestor
    rw [hn]
    simp only
    cases hp : n.parentBlock with
    | none => exact ⟨id, n, rfl, hn, hp⟩
    | some p =>
      simp only
      obtain ⟨pn, hpn, hh⟩ := hl id n p hn hp
      have : rank pn.hash < fuel := by
        rw [hh]
        have := hr id n hn
        omega
      exact topAncestor_terminates rank heap hl hr fuel p pn hpn this

/-- A parent hash that is not cached and differs from the block's own hash is not
cached after the two insertions either. -/
theorem parent_absent_after_add {σ : Type} (pool : BlockPool σ) (b : Block)
    (hs : 1 ≤ pool.cache.size) (hlive : pool.cacheLive = true)
    (hc : pool.cache.Contains b.hash = false)
    (hpar : pool.cache.Contains b.parentHash = false) (hself : b.parentHash ≠ b.hash) :
    Lru.lookup b.parentHash (addToPool pool b).1.cache.items = none := by
  have hL := Live_of_cacheLive pool hlive
  have hf := lookup_none_of_Contains hc
  have hpf := lookup_none_of_Contains hpar
  obtain ⟨_, _, _, _, _, _, _, hother, _⟩ := addToPool_spec pool b hs hL hf
  cases h1 : Lru.lookup b.parentHash (addToPool pool b).1.cache.items with
  | none => rfl
  | some x => rw [hother _ x hself h1] at hpf; cases hpf

/-- The run of `push` on an orphan: a block that passes the three checks and whose
parent is neither cached at parent resolution nor in the chain store. -/
theorem push_orphan {σ : Type} (env : Env σ) (fuel : Nat) (pool : BlockPool σ)
    (sender : String) (b : Block)
    (hs : 1 ≤ pool.cache.size) (hlive : pool.cacheLive = true)
    (hc : pool.cache.Contains b.hash = false) (hg : env.GetBlock pool.bc b.hash = none)
    (hvi : env.VerifyIntegrity pool.bc b = none)
    (hslot : pool.slot.Contains b.timestamp = false)
    (hpar : Lru.lookup b.parentHash (addToPool pool b).1.cache.items = none)
    (hpc : env.GetBlock pool.bc b.parentHash = none) :
    ∃ pool2 : BlockPool σ, pool2.bc = pool.bc ∧
      push env fuel pool sender b =
        if sender = NoSender then
          ⟨.ret (some .ErrMissingParentBlock), pool2,
            slotEvicted (pool.slot.Add b.timestamp b).2⟩
        else if heightGap b.height (env.TailBlock pool.bc).height > env.ChunkSize then
          ⟨.ret (some .ErrInvalidBlockCannotFindParentInLocalAndTrySync),
            { pool2 with bc := (env.StartActiveSync pool.bc).2 },
            slotEvicted (pool.slot.Add b.timestamp b).2
              ++ [Event.StartActiveSync (env.StartActiveSync pool.bc).1]⟩
        else
          match env.Marshal { hash := b.hash, sign := b.signature } with
          | .ok bytes =>
            ⟨.ret (some .ErrInvalidBlockCannotFindParentInLocalAndTryDownload), pool2,
              slotEvicted (pool.slot.Add b.timestamp b).2
                ++ [Event.SendMsg .MessageTypeDownloadedBlock bytes sender
                      .MessagePriorityNormal]⟩
          | .error e => ⟨.ret (some e), pool2, slotEvicted (pool.slot.Add b.timestamp b).2⟩ := by
  have hL := Live_of_cacheLive pool hlive
  have hf := lookup_none_of_Contains hc
  obtain ⟨hbc, _, hev, _, hnew, _, _, _, _⟩ := addToPool_spec pool b hs hL hf
  obtain ⟨cache2, heap2, hatt, hlk, _, hstep⟩ := attach_after_add pool b hs hL hf
  obtain ⟨n2, hn2, hs2⟩ := hstep.2 _ _ hnew
  have hn2b : n2.block = some b := hs2.1
  have hl : Lru.lookup b.parentHash cache2.items = none := by
    rw [hlk]
    exact hpar
  have hget : cache2.Get b.parentHash = (none, cache2) := by
    unfold Lru.Get
    rw [hl]
  refine ⟨{ (addToPool pool b).1 with cache := cache2, heap := heap2 }, hbc, ?_⟩
  rw [push_entry env fuel pool sender b hc hg hvi hslot]
  unfold pushLinked
  rw [hatt]
  simp only
  rw [hget]
  simp only
  unfold pushChain
  have hpc2 : env.GetBlock (addToPool pool b).1.bc b.parentHash = none := hpc
  simp only [hpc2, hn2, hn2b, hev]
  by_cases hsd : sender = NoSender
  · rw [if_pos hsd, if_pos hsd]
  · rw [if_neg hsd, if_neg hsd]
    by_cases hgap : heightGap b.height (env.TailBlock pool.bc).height > env.ChunkSize
    · have hgap2 : heightGap b.height (env.TailBlock (addToPool pool b).1.bc).height
          > env.ChunkSize := hgap
      rw [if_pos hgap, if_pos hgap2]
      rfl
    · have hgap2 : ¬ heightGap b.height (env.TailBlock (addToPool pool b).1.bc).height
          > env.ChunkSize := hgap
      rw [if_neg hgap, if_neg hgap2]
      unfold download
      simp only
      cases hm : env.Marshal { hash := b.hash, sign := b.signature } with
      | ok bytes => simp only
      | error e => simp only [List.append_nil]

/-- Below `2^63` the conversions and the subtraction do not wrap. -/
theorem heightGap_exact (height tailHeight : Nat) (hh : height < 2 ^ 63)
    (ht : tailHeight < 2 ^ 63) :
    heightGap height tailHeight = (height : Int) - (tailHeight : Int) := by
  unfold heightGap intOfUint64 wrapInt64
  omega

/-- With a tail height below `2^63`, a gap of at most `c` in exact arithmetic is a gap
of at most `c` in `int`. -/
theorem heightGap_le_of_exact (height tailHeight : Nat) (c : Int)
    (ht : tailHeight < 2 ^ 63) (hg : (height : Int) - (tailHeight : Int) ≤ c) :
    ¬ heightGap height tailHeight > c := by
  unfold heightGap intOfUint64 wrapInt64
  omega

theorem Lru.eraseKey_perm {κ ν : Type} [DecidableEq κ] {k : κ} {v : ν} :
    ∀ {l : List (κ × ν)}, Lru.lookup k l = some v → ((k, v) :: Lru.eraseKey k l).Perm l
  | [], h => by simp [Lru.lookup] at h
  | e :: es, h => by
    obtain ⟨a, x⟩ := e
    simp only [Lru.lookup] at h
    simp only [Lru.eraseKey]
    by_cases he : a = k
    · rw [if_pos he] at h ⊢
      cases h
      rw [he]
    · rw [if_neg he] at h ⊢
      exact (List.Perm.swap _ _ _).trans ((Lru.eraseKey_perm h).cons _)

theorem Lru.Get_perm {κ ν : Type} [DecidableEq κ] (c : Lru κ ν) (k : κ) :
    (c.Get k).2.items.Perm c.items := by
  unfold Lru.Get
  cases h : Lru.lookup k c.items with
  | none => exact List.Perm.refl _
  | some v => exact Lru.eraseKey_perm h

theorem Lru.eraseKey_sublist {κ ν : Type} [DecidableEq κ] (k : κ) :
    ∀ (l : List (κ × ν)), (Lru.eraseKey k l).Sublist l
  | [] => List.Sublist.refl _
  | e :: es => by
    simp only [Lru.eraseKey]
    by_cases he : e.1 = k
    · rw [if_pos he]; exact List.sublist_cons_self _ _
    · rw [if_neg he]; exact (Lru.eraseKey_sublist k es).cons₂ _

theorem attachChildren_perm (lb : Nat) (th : Hash) :
    ∀ (ks : List Hash) (cache cache2 : Lru Hash Nat) (heap heap2 : List linkedBlock),
      attachChildren lb th ks cache heap = some (cache2, heap2) →
      cache2.items.Perm cache.items
  | [], cache, cache2, heap, heap2, h => by
    simp only [attachChildren, Option.some.injEq, Prod.mk.injEq] at h
    rw [← h.1]
  | k :: ks, cache, cache2, heap, heap2, h => by
    unfold attachChildren at h
    split at h
    · cases h
    · rename_i c cache1 hget
      have hc1 : cache1 = (cache.Get k).2 := by rw [hget]
      split at h
      · cases h
      · split at h
        · split at h
          · cases h
          · exact (attachChildren_perm lb th ks _ _ _ _ h).trans (hc1 ▸ Lru.Get_perm cache k)
        · exact (attachChildren_perm lb th ks _ _ _ _ h).trans (hc1 ▸ Lru.Get_perm cache k)

theorem Live_step {tgt : Nat} {th : Hash} {items items2 : List (Hash × Nat)}
    {h h2 : List linkedBlock} (hl : Live items h) (hs : HeapStep tgt th h h2)
    (hm : ∀ e ∈ items2, e ∈ items) : Live items2 h2 := by
  intro e he
  obtain ⟨n, hn, q1, q2, q3⟩ := hl e (hm e he)
  obtain ⟨n2, hn2, st⟩ := hs.2 _ n hn
  exact ⟨n2, hn2, st.2.2.1.trans q1, (congrArg Option.isSome st.1).trans q2,
    st.2.2.2.2.1.trans q3⟩

theorem Linked_dispose {h : List linkedBlock} (hl : Linked h) (id : Nat) :
    Linked (disposeAt h id) := by
  intro j n2 p hn2 hp
  have hcase : ∀ (i : Nat) (m : linkedBlock), h[i]? = some m →
      (disposeAt h id)[i]? = some m ∨ (disposeAt h id)[i]? = some m.Dispose := by
    intro i m hm
    by_cases hi : id = i
    · subst hi
      exact Or.inr (disposeAt_self h hm)
    · left
      rw [disposeAt_ne h hi]
      exact hm
  have hj : j < h.length := disposeAt_length h id ▸ (List.getElem?_eq_some.mp hn2).1
  rcases hcase j h[j] (List.getElem?_eq_getElem hj) with h1 | h1
  · rw [hn2] at h1
    cases h1
    obtain ⟨pn, hpn, hh⟩ := hl j _ p (List.getElem?_eq_getElem hj) hp
    rcases hcase p pn hpn with h2 | h2
    · exact ⟨pn, h2, hh⟩
    · exact ⟨pn.Dispose, h2, hh⟩
  · rw [hn2] at h1
    cases h1
    cases hp

theorem PoolInv_remove {items : List (Hash × Nat)} {heap : List linkedBlock}
    (hinv : PoolInv items heap) {k : Hash} {id : Nat} (hk : Lru.lookup k items = some id) :
    PoolInv (Lru.eraseKey k items) (disposeAt heap id) := by
  obtain ⟨hl, hnd, hlk⟩ := hinv
  have hperm := Lru.eraseKey_perm hk
  have hnd2 : (((k, id) :: Lru.eraseKey k items).map Prod.snd).Nodup :=
    (hperm.map Prod.snd).nodup_iff.mpr hnd
  rw [List.map_cons, List.nodup_cons] at hnd2
  refine ⟨?_, hnd2.2, Linked_dispose hlk id⟩
  intro e he
  obtain ⟨n, hn, q⟩ := hl e (Lru.mem_eraseKey he)
  have hne : id ≠ e.2 := fun h => hnd2.1 (by
    rw [h]
    exact List.mem_map.mpr ⟨e, he, rfl⟩)
  exact ⟨n, (disposeAt_ne heap hne).trans hn, q⟩

theorem removeAll_inv : ∀ (vs : List Block) (cache : Lru Hash Nat)
    (heap : List linkedBlock), PoolInv cache.items heap →
    PoolInv (removeAll vs cache heap).1.items (removeAll vs cache heap).2 ∧
    (removeAll vs cache heap).1.size = cache.size
  | [], _, _, h => ⟨h, rfl⟩
  | v :: vs, cache, heap, h => by
    unfold removeAll
    unfold Lru.Remove
    cases hl : Lru.lookup v.hash cache.items with
    | none => exact removeAll_inv vs cache heap h
    | some id => exact removeAll_inv vs _ _ (PoolInv_remove h hl)

theorem Lru.Add_size {κ ν : Type} [DecidableEq κ] (c : Lru κ ν) (k : κ) (v : ν) :
    (c.Add k v).1.size = c.size := by
  unfold Lru.Add
  split
  · rfl
  · split <;> rfl

/-- A node of the heap after the two insertions is the new node, or an old node, kept or
disposed. -/
theorem addToPool_heap_cases {σ : Type} (pool : BlockPool σ) (b : Block)
    (hs : 1 ≤ pool.cache.size) (hlive : Live pool.cache.items pool.heap)
    (hf : Lru.lookup b.hash pool.cache.items = none) (id : Nat) (n2 : linkedBlock)
    (hn2 : (addToPool pool b).1.heap[id]? = some n2) :
    (id = pool.heap.length ∧ n2 = newLinkedBlock b) ∨
    ∃ n, pool.heap[id]? = some n ∧ (n2 = n ∨ n2 = n.Dispose) := by
  obtain ⟨_, _, _, hlen, hnew, _, _, _, hold⟩ := addToPool_spec pool b hs hlive hf
  have hid : id < pool.heap.length + 1 := hlen ▸ (List.getElem?_eq_some.mp hn2).1
  by_cases h : id = pool.heap.length
  · left
    subst h
    rw [hnew] at hn2
    cases hn2
    exact ⟨rfl, rfl⟩
  · right
    have hid2 : id < pool.heap.length := by omega
    refine ⟨pool.heap[id], List.getElem?_eq_getElem hid2, ?_⟩
    rcases hold id _ (List.getElem?_eq_getElem hid2) with h1 | ⟨h1, _⟩
    · rw [hn2] at h1; cases h1; exact Or.inl rfl
    · rw [hn2] at h1; cases h1; exact Or.inr rfl

/-- The two insertions keep the invariant. -/
theorem addToPool_inv {σ : Type} (pool : BlockPool σ) (b : Block)
    (hs : 1 ≤ pool.cache.size) (hinv : PoolInv pool.cache.items pool.heap)
    (hf : Lru.lookup b.hash pool.cache.items = none) :
    PoolInv (addToPool pool b).1.cache.items (addToPool pool b).1.heap := by
  obtain ⟨hlive, hnd, hlink⟩ := hinv
  obtain ⟨_, _, _, hlen, hnew, _, _, _, hold⟩ := addToPool_spec pool b hs hlive hf
  refine ⟨?_, ?_, ?_⟩
  · intro e he
    rcases Lru.Add_fresh_mem_nodup pool.cache b.hash pool.heap.length hs hf hnd he with
      h | ⟨h1, h2⟩
    · rw [h]
      exact ⟨newLinkedBlock b, hnew, rfl, rfl, rfl⟩
    · obtain ⟨n, hn, q1, q2, q3⟩ := hlive e h1
      rcases hold _ n hn with h3 | ⟨_, e2, h4, h5⟩
      · exact ⟨n, h3, q1, q2, q3⟩
      · exact absurd h5 (h2 e2 h4)
  · have hnot : pool.heap.length ∉ pool.cache.items.map Prod.snd := by
      intro hm
      obtain ⟨e, he, heq⟩ := List.mem_map.mp hm
      obtain ⟨n, hn, _⟩ := hlive e he
      have := (List.getElem?_eq_some.mp hn).1
      omega
    show ((pool.cache.Add b.hash pool.heap.length).1.items.map Prod.snd).Nodup
    rcases (Lru.Add_fresh_shape pool.cache b.hash pool.heap.length hs hf).2 with
      ⟨h1, _⟩ | ⟨e1, h1, _, _⟩
    · rw [h1, List.map_cons, List.nodup_cons]
      exact ⟨hnot, hnd⟩
    · rw [h1, List.map_cons, List.nodup_cons]
      have hsub : (pool.cache.items.dropLast.map Prod.snd).Sublist
          (pool.cache.items.map Prod.snd) := (List.dropLast_sublist _).map _
      exact ⟨fun hm => hnot (hsub.subset hm), hnd.sublist hsub⟩
  · intro id n2 p hn2 hp
    rcases addToPool_heap_cases pool b hs hlive hf id n2 hn2 with ⟨_, h⟩ | ⟨n, hn, h | h⟩
    · rw [h] at hp; cases hp
    · subst h
      obtain ⟨pn, hpn, hh⟩ := hlink id n2 p hn hp
      rcases hold p pn hpn with h3 | ⟨h3, _⟩
      · exact ⟨pn, h3, hh⟩
      · exact ⟨pn.Dispose, h3, hh⟩
    · rw [h] at hp; cases hp

/-- The two insertions keep the hashes ranked when the new block is ranked. -/
theorem addToPool_ranked {σ : Type} (rank : Hash → Nat) (pool : BlockPool σ) (b : Block)
    (hs : 1 ≤ pool.cache.size) (hlive : Live pool.cache.items pool.heap)
    (hrank : Ranked rank pool.heap) (hb : rank b.parentHash < rank b.hash)
    (hf : Lru.lookup b.hash pool.cache.items = none) :
    Ranked rank (addToPool pool b).1.heap := by
  intro id n2 hn2
  rcases addToPool_heap_cases pool b hs hlive hf id n2 hn2 with ⟨_, h⟩ | ⟨n, hn, h | h⟩
  · rw [h]; exact hb
  · rw [h]; exact hrank id n hn
  · rw [h]; exact hrank id n hn

/-- The run of `push` on a block whose parent is in the cache at parent resolution: the
block is linked to the parent, the walk over parent pointers ends at a node without
parent, and the exit depends on the sender only. -/
theorem push_parent_pooled {σ : Type} (rank : Hash → Nat) (env : Env σ) (fuel : Nat)
    (pool : BlockPool σ) (sender : String) (b : Block) (plb : Nat)
    (hs : 1 ≤ pool.cache.size) (hlive : pool.cacheLive = true)
    (hnd : (pool.cache.items.map Prod.snd).Nodup)
    (hlink : linkedOk pool.heap = true) (hrank : rankedOk rank pool.heap = true)
    (hb : rank b.parentHash < rank b.hash) (hfuel : rank b.parentHash < fuel)
    (hc : pool.cache.Contains b.hash = false) (hg : env.GetBlock pool.bc b.hash = none)
    (hvi : env.VerifyIntegrity pool.bc b = none)
    (hslot : pool.slot.Contains b.timestamp = false)
    (hpar : Lru.lookup b.parentHash (addToPool pool b).1.cache.items = some plb) :
    ∃ (pool3 : BlockPool σ) (top : Nat) (tn : linkedBlock),
      pool3.heap[top]? = some tn ∧ tn.parentBlock = none ∧
      topAncestor pool3.heap fuel plb = .ret top ∧
      (∃ n, pool3.heap[pool.heap.length]? = some n ∧ n.block = some b ∧
        n.parentBlock = some plb) ∧
      pool3.bc = pool.bc ∧
      push env fuel pool sender b =
        if sender = NoSender then
          ⟨.ret (some .ErrMissingParentBlock), pool3,
            slotEvicted (pool.slot.Add b.timestamp b).2⟩
        else
          ⟨(download env sender tn.block).1, pool3,
            slotEvicted (pool.slot.Add b.timestamp b).2 ++ (download env sender tn.block).2⟩ := by
  have hL := Live_of_cacheLive pool hlive
  have hf := lookup_none_of_Contains hc
  obtain ⟨hbc, _, hev, _, hnew, _, _, _, _⟩ := addToPool_spec pool b hs hL hf
  obtain ⟨hL1, _, hK1⟩ := addToPool_inv pool b hs ⟨hL, hnd, Linked_of_linkedOk _ hlink⟩ hf
  have hR1 := addToPool_ranked rank pool b hs hL (Ranked_of_rankedOk _ _ hrank) hb hf
  obtain ⟨cache2, heap2, hatt, hlk, _, hstep⟩ := attach_after_add pool b hs hL hf
  obtain ⟨n2, hn2, hs2⟩ := hstep.2 _ _ hnew
  have hK2 : Linked heap2 := Linked_step hK1 hstep ⟨_, hnew, rfl⟩
  have hR2 : Ranked rank heap2 := Ranked_step hR1 hstep
  have hl : Lru.lookup b.parentHash cache2.items = some plb := (hlk _).trans hpar
  obtain ⟨pn, hpn, hph, _, hpc⟩ := hL1 _ (Lru.mem_of_lookup hpar)
  obtain ⟨pn2, hpn2, hsp⟩ := hstep.2 _ _ hpn
  obtain ⟨heap3, hlp, hstep3, c3, hc3, hc3p⟩ :=
    LinkParent_spec heap2 pool.heap.length plb n2 pn2 hn2 hpn2 (hsp.2.2.2.2.1.trans hpc)
  have hn2ph : n2.parentHash = b.parentHash := hs2.2.2.2.1
  rw [hn2ph] at hstep3
  have hK3 : Linked heap3 :=
    Linked_step hK2 hstep3 ⟨pn2, hpn2, hsp.2.2.1.trans hph⟩
  have hR3 : Ranked rank heap3 := Ranked_step hR2 hstep3
  obtain ⟨pn3, hpn3, hsp3⟩ := hstep3.2 _ _ hpn2
  have hpn3h : pn3.hash = b.parentHash := hsp3.2.2.1.trans (hsp.2.2.1.trans hph)
  obtain ⟨top, tn, htop, htn, htnp⟩ :=
    topAncestor_terminates rank heap3 hK3 hR3 fuel plb pn3 hpn3 (hpn3h ▸ hfuel)
  have hc3b : c3.block = some b := by
    obtain ⟨n3, hn3, st3⟩ := hstep3.2 _ _ hn2
    rw [hc3] at hn3
    cases hn3
    exact st3.1.trans hs2.1
  have hget : cache2.Get b.parentHash = (some plb, (cache2.Get b.parentHash).2) := by
    apply Prod.ext
    · rw [Lru.Get_fst, hl]
    · rfl
  refine ⟨{ (addToPool pool b).1 with cache := (cache2.Get b.parentHash).2, heap := heap3 },
    top, tn, htn, htnp, htop, ⟨c3, hc3, hc3b, hc3p⟩, hbc, ?_⟩
  rw [push_entry env fuel pool sender b hc hg hvi hslot]
  unfold pushLinked
  rw [hatt]
  simp only
  rw [hget]
  simp only [hlp, htop, htn, hev]

/-! ## Exits of `push` -/

theorem slotEvicted_not_network (x : Option (Int × Block)) :
    (slotEvicted x).filter Event.isNetwork = [] := by
  cases x <;> rfl

theorem push_of_duplicate {σ : Type} (env : Env σ) (fuel : Nat) (pool : BlockPool σ)
    (sender : String) (b : Block)
    (hdup : pool.cache.Contains b.hash = true ∨ (env.GetBlock pool.bc b.hash).isSome = true) :
    push env fuel pool sender b
      = ⟨.ret (some .ErrDuplicatedBlock), pool, [Event.IncDuplicatedBlock]⟩ := by
  have hc : (pool.cache.Contains b.hash || (env.GetBlock pool.bc b.hash).isSome) = true := by
    rcases hdup with h | h <;> simp [h]
  unfold push
  rw [if_pos hc]

theorem not_duplicate {σ : Type} (env : Env σ) (pool : BlockPool σ) (b : Block)
    (h : ¬ (pool.cache.Contains b.hash = true ∨ (env.GetBlock pool.bc b.hash).isSome = true)) :
    pool.cache.Contains b.hash = false ∧ env.GetBlock pool.bc b.hash = none := by
  constructor
  · cases h1 : pool.cache.Contains b.hash with
    | false => rfl
    | true => exact absurd (Or.inl h1) h
  · cases h1 : env.GetBlock pool.bc b.hash with
    | none => rfl
    | some x => exact absurd (Or.inr (by rw [h1]; rfl)) h

theorem push_of_integrity_failure {σ : Type} (env : Env σ) (fuel : Nat) (pool : BlockPool σ)
    (sender : String) (b : Block) (e : Err)
    (hc : pool.cache.Contains b.hash = false) (hg : env.GetBlock pool.bc b.hash = none)
    (hvi : env.VerifyIntegrity pool.bc b = some e) :
    push env fuel pool sender b = ⟨.ret (some e), pool, [Event.IncInvalidBlock]⟩ := by
  unfold push
  simp [hc, hg, hvi]

theorem push_of_taken_slot {σ : Type} (env : Env σ) (fuel : Nat) (pool : BlockPool σ)
    (sender : String) (b pre : Block)
    (hc : pool.cache.Contains b.hash = false) (hg : env.GetBlock pool.bc b.hash = none)
    (hvi : env.VerifyIntegrity pool.bc b = none)
    (hslot : Lru.lookup b.timestamp pool.slot.items = some pre) :
    push env fuel pool sender b
      = ⟨.ret (some .ErrDoubleBlockMinted),
          { pool with slot := (pool.slot.Get b.timestamp).2 }, [Event.IncInvalidBlock]⟩ := by
  have hget : pool.slot.Get b.timestamp = (some pre, (pool.slot.Get b.timestamp).2) := by
    apply Prod.ext
    · rw [Lru.Get_fst, hslot]
    · rfl
  unfold push
  simp only [hc, hg, hvi, Option.isSome_none, Bool.or_self]
  rw [hget]
  simp

theorem Push_of_core_duplicate {σ π : Type} (w : Wire π) (env : Env σ) (fuel : Nat)
    (pool : BlockPool σ) (b0 b : Block) (hw : mockBlockFromNetwork w b0 = .ok b)
    (hp : push env fuel pool NoSender b
      = ⟨.ret (some .ErrDuplicatedBlock), pool, [Event.IncDuplicatedBlock]⟩) :
    Push w env fuel pool b0 = ⟨.ret none, pool, [Event.IncDuplicatedBlock]⟩ := by
  unfold Push
  rw [hw]
  simp only [hp]
  rfl

/-! ## The invariant of the pool -/

/-- Cache and heap left by the chain part of `push`: as they were, or with the promoted
blocks removed. -/
theorem pushChain_pool {σ : Type} (env : Env σ) (fuel : Nat) (pool : BlockPool σ)
    (sender : String) (b : Block) (lb : Nat) (evs : List Event) :
    ((pushChain env fuel pool sender b lb evs).pool.cache = pool.cache ∧
        (pushChain env fuel pool sender b lb evs).pool.heap = pool.heap) ∨
      ∃ allBlocks,
        (pushChain env fuel pool sender b lb evs).pool.cache
          = (removeAll allBlocks pool.cache pool.heap).1 ∧
        (pushChain env fuel pool sender b lb evs).pool.heap
          = (removeAll allBlocks pool.cache pool.heap).2 := by
  unfold pushChain
  cases hg : env.GetBlock pool.bc b.parentHash with
  | none =>
    simp only
    split
    · exact Or.inl ⟨rfl, rfl⟩
    · split
      · exact Or.inl ⟨rfl, rfl⟩
      · split
        · exact Or.inl ⟨rfl, rfl⟩
        · split
          · exact Or.inl ⟨rfl, rfl⟩
          · split <;> exact Or.inl ⟨rfl, rfl⟩
  | some parentBlock =>
    simp only
    split
    · exact Or.inl ⟨rfl, rfl⟩
    · exact Or.inl ⟨rfl, rfl⟩
    · exact Or.inl ⟨rfl, rfl⟩
    · rename_i allBlocks tailBlocks htr
      split
      · exact Or.inl ⟨rfl, rfl⟩
      · exact Or.inr ⟨allBlocks, rfl, rfl⟩

/-- `push` keeps the invariant and the capacities, whatever its exit. -/
theorem push_inv {σ : Type} (env : Env σ) (fuel : Nat) (pool : BlockPool σ)
    (sender : String) (b : Block) (hs : 1 ≤ pool.cache.size)
    (hinv : PoolInv pool.cache.items pool.heap) :
    PoolInv (push env fuel pool sender b).pool.cache.items
      (push env fuel pool sender b).pool.heap ∧
    (push env fuel pool sender b).pool.cache.size = pool.cache.size ∧
    (push env fuel pool sender b).pool.slot.size = pool.slot.size := by
  by_cases hdup : pool.cache.Contains b.hash = true ∨
      (env.GetBlock pool.bc b.hash).isSome = true
  · rw [push_of_duplicate env fuel pool sender b hdup]
    exact ⟨hinv, rfl, rfl⟩
  obtain ⟨hc, hg⟩ := not_duplicate env pool b hdup
  cases hvi : env.VerifyIntegrity pool.bc b with
  | some x =>
    rw [push_of_integrity_failure env fuel pool sender b x hc hg hvi]
    exact ⟨hinv, rfl, rfl⟩
  | none =>
  cases hsl : Lru.lookup b.timestamp pool.slot.items with
  | some pre =>
    rw [push_of_taken_slot env fuel pool sender b pre hc hg hvi hsl]
    exact ⟨hinv, rfl, Lru.Get_size _ _⟩
  | none =>
  have hslot : pool.slot.Contains b.timestamp = false := by
    unfold Lru.Contains
    rw [hsl]
    rfl
  have hf := lookup_none_of_Contains hc
  obtain ⟨_, _, _, hlen, hnew, _, hmem, _, _⟩ := addToPool_spec pool b hs hinv.1 hf
  obtain ⟨hL1, hN1, hK1⟩ := addToPool_inv pool b hs hinv hf
  have hsz1 : (addToPool pool b).1.cache.size = pool.cache.size := Lru.Add_size _ _ _
  have hsz2 : (addToPool pool b).1.slot.size = pool.slot.size := Lru.Add_size _ _ _
  obtain ⟨cache2, heap2, hatt, _, hsz3, hmem2, hstep⟩ :=
    attachChildren_spec pool.heap.length b.hash (addToPool pool b).1.cache.Keys
      (addToPool pool b).1.cache (addToPool pool b).1.heap
      (fun k hk => Lru.mem_Keys hk)
      (fun e he => by
        rw [hlen]
        rcases hmem e he with h | h
        · rw [h]; exact Nat.lt_succ_self _
        · obtain ⟨n, hn, _⟩ := hinv.1 e h
          exact Nat.lt_succ_of_lt (List.getElem?_eq_some.mp hn).1)
      ⟨newLinkedBlock b, hnew, rfl⟩
  have hperm := attachChildren_perm _ _ _ _ _ _ _ hatt
  have hL2 : Live cache2.items heap2 := Live_step hL1 hstep hmem2
  have hN2 : (cache2.items.map Prod.snd).Nodup := (hperm.map Prod.snd).nodup_iff.mpr hN1
  have hK2 : Linked heap2 := Linked_step hK1 hstep ⟨_, hnew, rfl⟩
  obtain ⟨n2, hn2, hs2⟩ := hstep.2 _ _ hnew
  rw [push_entry env fuel pool sender b hc hg hvi hslot]
  unfold pushLinked
  rw [hatt]
  simp only
  cases hl : Lru.lookup b.parentHash cache2.items with
  | none =>
    have hget : cache2.Get b.parentHash = (none, cache2) := by
      unfold Lru.Get
      rw [hl]
    rw [hget]
    simp only
    have f1 := (pushChain_final env fuel
      { (addToPool pool b).1 with cache := cache2, heap := heap2 } sender b pool.heap.length
      (addToPool pool b).2).1
    rcases pushChain_pool env fuel
      { (addToPool pool b).1 with cache := cache2, heap := heap2 } sender b pool.heap.length
      (addToPool pool b).2 with ⟨g1, g2⟩ | ⟨allBlocks, g1, g2⟩
    · rw [g1, g2, f1]
      exact ⟨⟨hL2, hN2, hK2⟩, hsz3.trans hsz1, hsz2⟩
    · rw [g1, g2, f1]
      obtain ⟨q1, q2⟩ := removeAll_inv allBlocks cache2 heap2 ⟨hL2, hN2, hK2⟩
      exact ⟨q1, q2.trans (hsz3.trans hsz1), hsz2⟩
  | some plb =>
    have hget : cache2.Get b.parentHash = (some plb, (cache2.Get b.parentHash).2) := by
      apply Prod.ext
      · rw [Lru.Get_fst, hl]
      · rfl
    have hperm3 := Lru.Get_perm cache2 b.parentHash
    have hL3 : Live (cache2.Get b.parentHash).2.items heap2 :=
      Live_step hL2 (heapStep_refl 0 [] heap2) (fun e he => hperm3.subset he)
    have hN3 : ((cache2.Get b.parentHash).2.items.map Prod.snd).Nodup :=
      (hperm3.map Prod.snd).nodup_iff.mpr hN2
    have hsz4 : (cache2.Get b.parentHash).2.size = pool.cache.size :=
      (Lru.Get_size _ _).trans (hsz3.trans hsz1)
    rw [hget]
    simp only
    cases hlp : LinkParent heap2 pool.heap.length plb with
    | none =>
      simp only
      exact ⟨⟨hL3, hN3, hK2⟩, hsz4, hsz2⟩
    | some heap3 =>
      obtain ⟨cn, hcn, hstep3⟩ := LinkParent_some _ _ _ _ hlp
      rw [hn2] at hcn
      cases hcn
      obtain ⟨pn2, hpn2, hph, _⟩ := hL2 _ (Lru.mem_of_lookup hl)
      have hK3 : Linked heap3 :=
        Linked_step hK2 hstep3 ⟨pn2, hpn2, hph.trans hs2.2.2.2.1.symm⟩
      have hL4 : Live (cache2.Get b.parentHash).2.items heap3 :=
        Live_step hL3 hstep3 (fun e he => he)
      have key : ∀ (o : Outcome (Option Err)) (evs : List Event),
          PoolInv (Run.mk o { (addToPool pool b).1 with
              cache := (cache2.Get b.parentHash).2, heap := heap3 } evs).pool.cache.items
            (Run.mk o { (addToPool pool b).1 with
              cache := (cache2.Get b.parentHash).2, heap := heap3 } evs).pool.heap ∧
          (Run.mk o { (addToPool pool b).1 with
              cache := (cache2.Get b.parentHash).2, heap := heap3 } evs).pool.cache.size
            = pool.cache.size ∧
          (Run.mk o { (addToPool pool b).1 with
              cache := (cache2.Get b.parentHash).2, heap := heap3 } evs).pool.slot.size
            = pool.slot.size :=
        fun o evs => ⟨⟨hL4, hN3, hK3⟩, hsz4, hsz2⟩
      simp only
      split
      · exact key _ _
      · exact key _ _
      · split
        · exact key _ _
        · split
          · exact key _ _
          · exact key _ _

theorem cacheLive_of_Live {σ : Type} (pool : BlockPool σ)
    (h : Live pool.cache.items pool.heap) : pool.cacheLive = true := by
  unfold BlockPool.cacheLive
  rw [List.all_eq_true]
  intro e he
  obtain ⟨n, hn, q1, q2, q3⟩ := h e he
  rw [hn]
  simp [q1, q2, q3]

theorem linkedOk_of_Linked (heap : List linkedBlock) (h : Linked heap) :
    linkedOk heap = true := by
  unfold linkedOk
  rw [List.all_eq_true]
  intro n hn
  obtain ⟨id, hid⟩ := List.mem_iff_getElem?.mp hn
  cases hp : n.parentBlock with
  | none => rfl
  | some p =>
    obtain ⟨pn, hpn, hh⟩ := h id n p hid hp
    simp [hpn, hh]

theorem PoolInv_iff_wellFormed {σ : Type} (pool : BlockPool σ) :
    pool.wellFormed = true ↔ PoolInv pool.cache.items pool.heap := by
  unfold BlockPool.wellFormed PoolInv
  simp only [Bool.and_eq_true, decide_eq_true_eq]
  constructor
  · rintro ⟨⟨h1, h2⟩, h3⟩
    exact ⟨Live_of_cacheLive pool h1, h2, Linked_of_linkedOk _ h3⟩
  · rintro ⟨h1, h2, h3⟩
    exact ⟨⟨cacheLive_of_Live pool h1, h2⟩, linkedOk_of_Linked _ h3⟩

/-- A new pool is well formed and has capacity at least one. -/
theorem NewBlockPool_wellFormed {σ : Type} (size : Int) (bc : σ) (pool : BlockPool σ)
    (h : NewBlockPool size bc = some pool) :
    pool.wellFormed = true ∧ 1 ≤ pool.cache.size ∧ 1 ≤ pool.slot.size := by
  unfold NewBlockPool at h
  split at h
  · cases h
  · rename_i hsz
    cases h
    refine ⟨rfl, ?_, ?_⟩ <;> · show 1 ≤ size.toNat; omega

/-- Every push keeps a well-formed pool well formed, with the same capacities. -/
theorem push_wellFormed {σ : Type} (env : Env σ) (fuel : Nat) (pool : BlockPool σ)
    (sender : String) (b : Block) (hs : 1 ≤ pool.cache.size)
    (hwf : pool.wellFormed = true) :
    (push env fuel pool sender b).pool.wellFormed = true ∧
    (push env fuel pool sender b).pool.cache.size = pool.cache.size ∧
    (push env fuel pool sender b).pool.slot.size = pool.slot.size := by
  obtain ⟨h1, h2, h3⟩ := push_inv env fuel pool sender b hs
    ((PoolInv_iff_wellFormed pool).mp hwf)
  exact ⟨(PoolInv_iff_wellFormed _).mpr h1, h2, h3⟩

/-- Every reachable pool is well formed and has capacity at least one. -/
theorem Reachable_wellFormed {σ : Type} (env : Env σ) (pool : BlockPool σ)
    (h : Reachable env pool) :
    pool.wellFormed = true ∧ 1 ≤ pool.cache.size ∧ 1 ≤ pool.slot.size := by
  induction h with
  | init size bc pool h => exact NewBlockPool_wellFormed size bc pool h
  | push pool fuel sender b r _ _ ih =>
    obtain ⟨h1, h2, h3⟩ := push_wellFormed env fuel pool sender b ih.2.1 ih.1
    exact ⟨h1, h2 ▸ ih.2.1, h3 ▸ ih.2.2⟩
  | chain pool bc _ ih => exact ih

theorem cacheLive_of_wellFormed {σ : Type} (pool : BlockPool σ)
    (h : pool.wellFormed = true) : pool.cacheLive = true := by
  unfold BlockPool.wellFormed at h
  simp only [Bool.and_eq_true] at h
  exact h.1.1

/-! ## Bounds, calls and traversal -/

theorem Lru.not_mem_keys_of_lookup_none {κ ν : Type} [DecidableEq κ] {k : κ} :
    ∀ {l : List (κ × ν)}, Lru.lookup k l = none → k ∉ l.map Prod.fst
  | [], _ => by simp
  | e :: es, h => by
    simp only [Lru.lookup] at h
    by_cases he : e.1 = k
    · rw [if_pos he] at h; cases h
    · rw [if_neg he] at h
      simp only [List.map_cons, List.mem_cons, not_or]
      exact ⟨fun h2 => he h2.symm, Lru.not_mem_keys_of_lookup_none h⟩

theorem Lru.lookup_none_of_not_mem_keys {κ ν : Type} [DecidableEq κ] {k : κ} :
    ∀ {l : List (κ × ν)}, k ∉ l.map Prod.fst → Lru.lookup k l = none
  | [], _ => rfl
  | e :: es, h => by
    simp only [List.map_cons, List.mem_cons, not_or] at h
    simp only [Lru.lookup]
    rw [if_neg (fun h2 => h.1 h2.symm)]
    exact Lru.lookup_none_of_not_mem_keys h.2

/-- The items after `Add` are a sublist of the new entry followed by the old items, or
the old items with the entry of the key moved to the front. -/
theorem Lru.Add_items {κ ν : Type} [DecidableEq κ] (c : Lru κ ν) (k : κ) (v : ν) :
    (Lru.lookup k c.items = none ∧ (c.Add k v).1.items.Sublist ((k, v) :: c.items) ∧
      ((c.Add k v).1.items.length ≤ c.size ∨ (c.Add k v).1.items.length ≤ c.items.length)) ∨
    (∃ v0, Lru.lookup k c.items = some v0 ∧
      (c.Add k v).1.items = (k, v) :: Lru.eraseKey k c.items) := by
  unfold Lru.Add
  cases h : Lru.lookup k c.items with
  | some v0 => exact Or.inr ⟨v0, rfl, rfl⟩
  | none =>
    left
    refine ⟨rfl, ?_⟩
    by_cases hlen : ((k, v) :: c.items).length > c.size
    · simp only [if_pos hlen]
      refine ⟨List.dropLast_sublist _, Or.inr ?_⟩
      simp
    · simp only [if_neg hlen]
      exact ⟨List.Sublist.refl _, Or.inl (not_lt.mp hlen)⟩

theorem Lru.Add_length_le {κ ν : Type} [DecidableEq κ] (c : Lru κ ν) (k : κ) (v : ν)
    (h : c.items.length ≤ c.size) : (c.Add k v).1.items.length ≤ c.size := by
  rcases Lru.Add_items c k v with ⟨_, _, h1 | h1⟩ | ⟨v0, h1, h2⟩
  · exact h1
  · exact h1.trans h
  · rw [h2]
    have := (Lru.eraseKey_perm h1).length_eq
    simp only [List.length_cons] at this ⊢
    omega

theorem Lru.Add_keys_nodup {κ ν : Type} [DecidableEq κ] (c : Lru κ ν) (k : κ) (v : ν)
    (h : (c.items.map Prod.fst).Nodup) : ((c.Add k v).1.items.map Prod.fst).Nodup := by
  rcases Lru.Add_items c k v with ⟨h0, h1, _⟩ | ⟨v0, h1, h2⟩
  · refine List.Nodup.sublist (h1.map Prod.fst) ?_
    rw [List.map_cons, List.nodup_cons]
    exact ⟨Lru.not_mem_keys_of_lookup_none h0, h⟩
  · rw [h2]
    have hp := ((Lru.eraseKey_perm h1).map Prod.fst).nodup_iff.mpr h
    rw [List.map_cons, List.nodup_cons] at hp ⊢
    exact hp

theorem removeAll_sublist : ∀ (vs : List Block) (cache : Lru Hash Nat)
    (heap : List linkedBlock),
    (removeAll vs cache heap).1.items.Sublist cache.items ∧
    (removeAll vs cache heap).1.size = cache.size
  | [], _, _ => ⟨List.Sublist.refl _, rfl⟩
  | v :: vs, cache, heap => by
    unfold removeAll
    unfold Lru.Remove
    cases hl : Lru.lookup v.hash cache.items with
    | none => exact removeAll_sublist vs cache heap
    | some id =>
      obtain ⟨h1, h2⟩ := removeAll_sublist vs
        { cache with items := Lru.eraseKey v.hash cache.items } (disposeAt heap id)
      exact ⟨h1.trans (Lru.eraseKey_sublist _ _), h2⟩

theorem attachChildren_size (lb : Nat) (th : Hash) :
    ∀ (ks : List Hash) (cache cache2 : Lru Hash Nat) (heap heap2 : List linkedBlock),
      attachChildren lb th ks cache heap = some (cache2, heap2) → cache2.size = cache.size
  | [], cache, cache2, heap, heap2, h => by
    simp only [attachChildren, Option.some.injEq, Prod.mk.injEq] at h
    rw [← h.1]
  | k :: ks, cache, cache2, heap, heap2, h => by
    unfold attachChildren at h
    split at h
    · cases h
    · rename_i c cache1 hget
      have hc1 : cache1 = (cache.Get k).2 := by rw [hget]
      have hsz : cache1.size = cache.size := hc1 ▸ Lru.Get_size cache k
      split at h
      · cases h
      · split at h
        · split at h
          · cases h
          · exact (attachChildren_size lb th ks _ _ _ _ h).trans hsz
        · exact (attachChildren_size lb th ks _ _ _ _ h).trans hsz

/-- The chain part of `push` leaves the capacity field and the slot alone. -/
theorem pushChain_frame {σ : Type} (env : Env σ) (fuel : Nat) (pool : BlockPool σ)
    (sender : String) (b : Block) (lb : Nat) (evs : List Event) :
    (pushChain env fuel pool sender b lb evs).pool.size = pool.size ∧
    (pushChain env fuel pool sender b lb evs).pool.slot = pool.slot := by
  unfold pushChain
  cases hg : env.GetBlock pool.bc b.parentHash with
  | none =>
    simp only
    split
    · exact ⟨rfl, rfl⟩
    · split
      · exact ⟨rfl, rfl⟩
      · split
        · exact ⟨rfl, rfl⟩
        · split
          · exact ⟨rfl, rfl⟩
          · split <;> exact ⟨rfl, rfl⟩
  | some parentBlock =>
    simp only
    split
    · exact ⟨rfl, rfl⟩
    · exact ⟨rfl, rfl⟩
    · exact ⟨rfl, rfl⟩
    · split <;> exact ⟨rfl, rfl⟩

/-- Cache, slot and capacity after `push`, whatever its exit: the cache is untouched or
holds a part of the items left by `cache.Add`, in some order; the slot is untouched,
touched by `Get`, or the result of `slot.Add`. -/
theorem push_frame {σ : Type} (env : Env σ) (fuel : Nat) (pool : BlockPool σ)
    (sender : String) (b : Block) :
    ((push env fuel pool sender b).pool.cache = pool.cache ∨
      ∃ l, l.Perm (pool.cache.Add b.hash pool.heap.length).1.items ∧
        (push env fuel pool sender b).pool.cache.items.Sublist l ∧
        (push env fuel pool sender b).pool.cache.size = pool.cache.size) ∧
    ((push env fuel pool sender b).pool.slot = pool.slot ∨
      (push env fuel pool sender b).pool.slot = (pool.slot.Get b.timestamp).2 ∨
      (push env fuel pool sender b).pool.slot = (pool.slot.Add b.timestamp b).1) ∧
    (push env fuel pool sender b).pool.size = pool.size := by
  unfold push
  split
  · exact ⟨Or.inl rfl, Or.inl rfl, rfl⟩
  · split
    · exact ⟨Or.inl rfl, Or.inl rfl, rfl⟩
    · split
      · rename_i x slot1 hget
        refine ⟨Or.inl rfl, Or.inr (Or.inl ?_), rfl⟩
        show slot1 = _
        rw [hget]
      · have hsz1 : (addToPool pool b).1.cache.size = pool.cache.size := Lru.Add_size _ _ _
        unfold pushLinked
        cases hatt : attachChildren pool.heap.length b.hash (addToPool pool b).1.cache.Keys
            (addToPool pool b).1.cache (addToPool pool b).1.heap with
        | none => exact ⟨Or.inr ⟨_, List.Perm.refl _, List.Sublist.refl _, hsz1⟩,
            Or.inr (Or.inr rfl), rfl⟩
        | some p =>
          obtain ⟨cache2, heap2⟩ := p
          have hperm := attachChildren_perm _ _ _ _ _ _ _ hatt
          have hsz2 := (attachChildren_size _ _ _ _ _ _ _ hatt).trans hsz1
          have hperm3 := (Lru.Get_perm cache2 b.parentHash).trans hperm
          have hsz3 := (Lru.Get_size cache2 b.parentHash).trans hsz2
          simp only
          cases hl : Lru.lookup b.parentHash cache2.items with
          | none =>
            have hget : cache2.Get b.parentHash = (none, cache2) := by
              unfold Lru.Get
              rw [hl]
            rw [hget]
            simp only
            obtain ⟨f1, f2⟩ := pushChain_frame env fuel
              { (addToPool pool b).1 with cache := cache2, heap := heap2 } sender b
              pool.heap.length (addToPool pool b).2
            refine ⟨Or.inr ⟨cache2.items, hperm, ?_, ?_⟩, Or.inr (Or.inr f2), f1⟩
            · rcases pushChain_pool env fuel
                { (addToPool pool b).1 with cache := cache2, heap := heap2 } sender b
                pool.heap.length (addToPool pool b).2 with ⟨g1, _⟩ | ⟨allBlocks, g1, _⟩
              · rw [g1]
              · rw [g1]
                exact (removeAll_sublist allBlocks cache2 heap2).1
            · rcases pushChain_pool env fuel
                { (addToPool pool b).1 with cache := cache2, heap := heap2 } sender b
                pool.heap.length (addToPool pool b).2 with ⟨g1, _⟩ | ⟨allBlocks, g1, _⟩
              · rw [g1]; exact hsz2
              · rw [g1]
                exact (removeAll_sublist allBlocks cache2 heap2).2.trans hsz2
          | some plb =>
            have hget : cache2.Get b.parentHash
                = (some plb, (cache2.Get b.parentHash).2) := by
              apply Prod.ext
              · rw [Lru.Get_fst, hl]
              · rfl
            rw [hget]
            simp only
            have key : ∀ (o : Outcome (Option Err)) (heap3 : List linkedBlock)
                (evs : List Event),
                ((Run.mk o { (addToPool pool b).1 with
                    cache := (cache2.Get b.parentHash).2, heap := heap3 } evs).pool.cache
                      = pool.cache ∨
                  ∃ l, l.Perm (pool.cache.Add b.hash pool.heap.length).1.items ∧
                    (Run.mk o { (addToPool pool b).1 with
                      cache := (cache2.Get b.parentHash).2, heap := heap3 }
                        evs).pool.cache.items.Sublist l ∧
                    (Run.mk o { (addToPool pool b).1 with
                      cache := (cache2.Get b.parentHash).2, heap := heap3 }
                        evs).pool.cache.size = pool.cache.size) ∧
                ((Run.mk o { (addToPool pool b).1 with
                    cache := (cache2.Get b.parentHash).2, heap := heap3 } evs).pool.slot
                      = pool.slot ∨
                  (Run.mk o { (addToPool pool b).1 with
                    cache := (cache2.Get b.parentHash).2, heap := heap3 } evs).pool.slot
                      = (pool.slot.Get b.timestamp).2 ∨
                  (Run.mk o { (addToPool pool b).1 with
                    cache := (cache2.Get b.parentHash).2, heap := heap3 } evs).pool.slot
                      = (pool.slot.Add b.timestamp b).1) ∧
                (Run.mk o { (addToPool pool b).1 with
                    cache := (cache2.Get b.parentHash).2, heap := heap3 } evs).pool.size
                  = pool.size :=
              fun o heap3 evs => ⟨Or.inr ⟨_, hperm3, List.Sublist.refl _, hsz3⟩,
                Or.inr (Or.inr rfl), rfl⟩
            split
            · exact key _ _ _
            · split
              · exact key _ _ _
              · exact key _ _ _
              · split
                · exact key _ _ _
                · split
                  · exact key _ _ _
                  · exact key _ _ _

theorem push_bounded {σ : Type} (env : Env σ) (fuel : Nat) (pool : BlockPool σ)
    (sender : String) (b : Block) (h : Bounded pool) :
    Bounded (push env fuel pool sender b).pool := by
  obtain ⟨h1, h2, h3, h4, h5⟩ := h
  obtain ⟨f1, f2, f3⟩ := push_frame env fuel pool sender b
  have hc : (push env fuel pool sender b).pool.cache.items.length ≤ pool.size ∧
      (push env fuel pool sender b).pool.cache.size = pool.size ∧
      ((push env fuel pool sender b).pool.cache.items.map Prod.fst).Nodup := by
    rcases f1 with f1 | ⟨l, hp, hs, hz⟩
    · rw [f1]; exact ⟨h1, h3, h5⟩
    · refine ⟨?_, hz.trans h3, ?_⟩
      · have := Lru.Add_length_le pool.cache b.hash pool.heap.length (h3 ▸ h1)
        rw [h3] at this
        exact (hs.length_le.trans (le_of_eq hp.length_eq)).trans this
      · exact List.Nodup.sublist (hs.map Prod.fst)
          ((hp.map Prod.fst).nodup_iff.mpr (Lru.Add_keys_nodup _ _ _ h5))
  have hsl : (push env fuel pool sender b).pool.slot.items.length ≤ pool.size ∧
      (push env fuel pool sender b).pool.slot.size = pool.size := by
    rcases f2 with f2 | f2 | f2
    · rw [f2]; exact ⟨h2, h4⟩
    · rw [f2]
      exact ⟨le_of_eq_of_le (Lru.Get_perm pool.slot b.timestamp).length_eq h2,
        (Lru.Get_size _ _).trans h4⟩
    · rw [f2]
      have := Lru.Add_length_le pool.slot b.timestamp b (h4 ▸ h2)
      rw [h4] at this
      exact ⟨this, (Lru.Add_size _ _ _).trans h4⟩
  rw [Bounded, f3]
  exact ⟨hc.1, hsl.1, hc.2.1, hsl.2, hc.2.2⟩

theorem Reachable_bounded {σ : Type} (env : Env σ) (pool : BlockPool σ)
    (h : Reachable env pool) : Bounded pool := by
  induction h with
  | init size bc pool h =>
    unfold NewBlockPool at h
    split at h
    · cases h
    · cases h
      exact ⟨Nat.zero_le _, Nat.zero_le _, rfl, rfl, List.nodup_nil⟩
  | push pool fuel sender b r _ _ ih => exact push_bounded env fuel pool sender b ih
  | chain pool bc _ ih => exact ih

theorem Lru.lookup_eraseKey_self {κ ν : Type} [DecidableEq κ] {k : κ} :
    ∀ {l : List (κ × ν)}, (l.map Prod.fst).Nodup → Lru.lookup k (Lru.eraseKey k l) = none
  | [], _ => rfl
  | e :: es, h => by
    rw [List.map_cons, List.nodup_cons] at h
    simp only [Lru.eraseKey]
    by_cases he : e.1 = k
    · rw [if_pos he]
      exact Lru.lookup_none_of_not_mem_keys (he ▸ h.1)
    · rw [if_neg he]
      simp only [Lru.lookup]
      rw [if_neg he]
      exact Lru.lookup_eraseKey_self h.2

/-- After the removal loop no block of the list is a key of the cache. -/
theorem removeAll_removed : ∀ (vs : List Block) (cache : Lru Hash Nat)
    (heap : List linkedBlock), (cache.items.map Prod.fst).Nodup →
    ∀ x ∈ vs, Lru.lookup x.hash (removeAll vs cache heap).1.items = none
  | [], _, _, _, x, hx => by cases hx
  | v :: vs, cache, heap, hk, x, hx => by
    unfold removeAll
    unfold Lru.Remove
    cases hl : Lru.lookup v.hash cache.items with
    | none =>
      rcases List.mem_cons.mp hx with h | h
      · exact removeAll_lookup_none vs cache heap x.hash (h ▸ hl)
      · exact removeAll_removed vs cache heap hk x h
    | some id =>
      rcases List.mem_cons.mp hx with h | h
      · exact removeAll_lookup_none vs _ _ x.hash (h ▸ Lru.lookup_eraseKey_self hk)
      · exact removeAll_removed vs _ _
          (List.Nodup.sublist ((Lru.eraseKey_sublist v.hash cache.items).map Prod.fst) hk) x h

theorem download_events {σ : Type} (env : Env σ) (sender : String) (o : Option Block)
    (e : Event) (h : e ∈ (download env sender o).2) : ∃ t d s p, e = Event.SendMsg t d s p := by
  unfold download at h
  cases o with
  | none => cases h
  | some b =>
    simp only at h
    cases hm : env.Marshal { hash := b.hash, sign := b.signature } with
    | error x => rw [hm] at h; cases h
    | ok bytes =>
      rw [hm] at h
      simp only [List.mem_singleton] at h
      exact ⟨_, _, _, _, h⟩

/-- The calls made by the chain part of `push`: the relay is made exactly when the parent
is in the chain and a sender is given, and a call of `putVerifiedNewBlocks` is made on the
result of the traversal, its success being followed by the removal loop. -/
theorem pushChain_events {σ : Type} (env : Env σ) (fuel : Nat) (pool : BlockPool σ)
    (sender : String) (b : Block) (lb : Nat) (evs : List Event) :
    ∃ tl, (pushChain env fuel pool sender b lb evs).events = evs ++ tl ∧
      tl.filter Event.isRelay
        = (if (env.GetBlock pool.bc b.parentHash).isSome = true ∧ sender ≠ NoSender
            then [Event.Relay .MessageTypeNewBlock b .MessagePriorityHigh] else []) ∧
      ∀ p S t, Event.PutVerifiedNewBlocks p S t ∈ tl →
        travelToLinkAndReturnAllValidBlocks env pool.bc pool.heap fuel lb p = .ret (.ok (S, t)) ∧
        env.GetBlock pool.bc b.parentHash = some p ∧
        ((env.putVerifiedNewBlocks pool.bc p S t).1 = none →
          (pushChain env fuel pool sender b lb evs).pool.cache
            = (removeAll S pool.cache pool.heap).1) := by
  unfold pushChain
  cases hg : env.GetBlock pool.bc b.parentHash with
  | none =>
    simp only [Option.isSome_none, Bool.false_eq_true, false_and, if_false]
    split
    · exact ⟨[], (List.append_nil _).symm, rfl, fun _ _ _ h => by cases h⟩
    · split
      · exact ⟨[], (List.append_nil _).symm, rfl, fun _ _ _ h => by cases h⟩
      · split
        · exact ⟨[], (List.append_nil _).symm, rfl, fun _ _ _ h => by cases h⟩
        · rename_i n hn lbBlock hblk
          have hdl : ∀ e ∈ (download env sender (some lbBlock)).2,
              ∃ t d s p, e = Event.SendMsg t d s p := fun e he => download_events env _ _ e he
          have hfil : (download env sender (some lbBlock)).2.filter Event.isRelay = [] := by
            rw [List.filter_eq_nil_iff]
            intro e he
            obtain ⟨t, d, s, p, rfl⟩ := hdl e he
            simp [Event.isRelay]
          have hput : ∀ p S t, Event.PutVerifiedNewBlocks p S t
              ∉ (download env sender (some lbBlock)).2 := by
            intro p S t he
            obtain ⟨_, _, _, _, h⟩ := hdl _ he
            cases h
          split
          · refine ⟨_, rfl, rfl, fun _ _ _ h => ?_⟩
            simp only [List.mem_singleton] at h
            cases h
          · split
            · rename_i dl hd
              have : dl = (download env sender (some lbBlock)).2 := by rw [hd]
              subst this
              exact ⟨_, rfl, hfil, fun p S t h => absurd h (hput p S t)⟩
            · rename_i o dl _ hd
              have : dl = (download env sender (some lbBlock)).2 := by rw [hd]
              subst this
              exact ⟨_, rfl, hfil, fun p S t h => absurd h (hput p S t)⟩
  | some parentBlock =>
    simp only [Option.isSome_some, true_and]
    by_cases hs : sender = NoSender
    · simp only [hs, ne_eq, not_true_eq_false, if_false]
      split
      · exact ⟨[], (List.append_nil _).symm, rfl, fun _ _ _ h => by cases h⟩
      · exact ⟨[], (List.append_nil _).symm, rfl, fun _ _ _ h => by cases h⟩
      · exact ⟨[], (List.append_nil _).symm, rfl, fun _ _ _ h => by cases h⟩
      · rename_i allBlocks tailBlocks htr
        split
        · rename_i e bc1 hput
          refine ⟨[Event.PutVerifiedNewBlocks parentBlock allBlocks tailBlocks], rfl, rfl, ?_⟩
          intro p S t h
          simp only [List.mem_singleton, Event.PutVerifiedNewBlocks.injEq] at h
          obtain ⟨h1, h2, h3⟩ := h
          subst h1 h2 h3
          refine ⟨htr, rfl, fun h2 => ?_⟩
          rw [hput] at h2
          cases h2
        · rename_i bc1 hput
          refine ⟨[Event.PutVerifiedNewBlocks parentBlock allBlocks tailBlocks,
            Event.ForkChoice], by simp, rfl, ?_⟩
          intro p S t h
          simp only [List.mem_cons, Event.PutVerifiedNewBlocks.injEq, List.mem_singleton,
            List.not_mem_nil, or_false] at h
          rcases h with ⟨h1, h2, h3⟩ | h
          · subst h1 h2 h3
            exact ⟨htr, rfl, fun _ => rfl⟩
          · cases h
    · simp only [ne_eq, hs, not_false_eq_true, if_true]
      split
      · exact ⟨[_], rfl, rfl, fun _ _ _ h => by simp at h⟩
      · exact ⟨[_], rfl, rfl, fun _ _ _ h => by simp at h⟩
      · exact ⟨[_], rfl, rfl, fun _ _ _ h => by simp at h⟩
      · rename_i allBlocks tailBlocks htr
        split
        · rename_i e bc1 hput
          refine ⟨[Event.Relay .MessageTypeNewBlock b .MessagePriorityHigh,
            Event.PutVerifiedNewBlocks parentBlock allBlocks tailBlocks], by simp, rfl, ?_⟩
          intro p S t h
          simp only [List.mem_cons, List.mem_singleton, Event.PutVerifiedNewBlocks.injEq,
            List.not_mem_nil, or_false, false_or] at h
          rcases h with h | ⟨h1, h2, h3⟩
          · cases h
          subst h1 h2 h3
          refine ⟨htr, rfl, fun h2 => ?_⟩
          rw [hput] at h2
          cases h2
        · rename_i bc1 hput
          refine ⟨[Event.Relay .MessageTypeNewBlock b .MessagePriorityHigh,
            Event.PutVerifiedNewBlocks parentBlock allBlocks tailBlocks,
            Event.ForkChoice], by simp, rfl, ?_⟩
          intro p S t h
          simp only [List.mem_cons, List.mem_singleton, Event.PutVerifiedNewBlocks.injEq,
            List.not_mem_nil, or_false, false_or] at h
          rcases h with h | ⟨h1, h2, h3⟩ | h
          · cases h
          · subst h1 h2 h3
            exact ⟨htr, rfl, fun _ => rfl⟩
          · cases h

theorem download_no_relay {σ : Type} (env : Env σ) (sender : String) (o : Option Block) :
    (download env sender o).2.filter Event.isRelay = [] := by
  rw [List.filter_eq_nil_iff]
  intro e he
  obtain ⟨t, d, s, p, rfl⟩ := download_events env sender o e he
  simp [Event.isRelay]

/-- The calls made by `push` after the two insertions. -/
theorem pushLinked_events {σ : Type} (env : Env σ) (fuel : Nat) (pool : BlockPool σ)
    (sender : String) (b : Block) (lb : Nat) (evs : List Event) :
    ∃ tl, (pushLinked env fuel pool sender b lb evs).events = evs ++ tl ∧
      (attachChildren lb b.hash pool.cache.Keys pool.cache pool.heap = none → tl = []) ∧
      ∀ cache2 heap2,
        attachChildren lb b.hash pool.cache.Keys pool.cache pool.heap = some (cache2, heap2) →
        tl.filter Event.isRelay
          = (if Lru.lookup b.parentHash cache2.items = none ∧
                (env.GetBlock pool.bc b.parentHash).isSome = true ∧ sender ≠ NoSender
              then [Event.Relay .MessageTypeNewBlock b .MessagePriorityHigh] else []) ∧
        ∀ p S t, Event.PutVerifiedNewBlocks p S t ∈ tl →
          (env.putVerifiedNewBlocks pool.bc p S t).1 = none →
          (pushLinked env fuel pool sender b lb evs).pool.cache
            = (removeAll S cache2 heap2).1 := by
  unfold pushLinked
  cases hatt : attachChildren lb b.hash pool.cache.Keys pool.cache pool.heap with
  | none => exact ⟨[], (List.append_nil _).symm, fun _ => rfl, fun _ _ h => by cases h⟩
  | some pr =>
    obtain ⟨cache2, heap2⟩ := pr
    simp only
    cases hl : Lru.lookup b.parentHash cache2.items with
    | none =>
      have hget : cache2.Get b.parentHash = (none, cache2) := by
        unfold Lru.Get
        rw [hl]
      rw [hget]
      simp only
      obtain ⟨tl, h1, h2, h3⟩ := pushChain_events env fuel
        { pool with cache := cache2, heap := heap2 } sender b lb evs
      refine ⟨tl, h1, (fun h => by cases h), ?_⟩
      intro c2 h2' heq
      cases heq
      refine ⟨?_, ?_⟩
      · rw [h2]
        simp only [hl, true_and]
      · intro p S t hm hput
        exact (h3 p S t hm).2.2 hput
    | some plb =>
      have hget : cache2.Get b.parentHash = (some plb, (cache2.Get b.parentHash).2) := by
        apply Prod.ext
        · rw [Lru.Get_fst, hl]
        · rfl
      rw [hget]
      simp only
      have fin : ∀ (r : Run σ) (tl : List Event), r.events = evs ++ tl →
          tl.filter Event.isRelay = [] →
          (∀ p S t, Event.PutVerifiedNewBlocks p S t ∉ tl) →
          ∃ tl, r.events = evs ++ tl ∧
            (some (cache2, heap2) = (none : Option (Lru Hash Nat × List linkedBlock))
              → tl = []) ∧
            ∀ c2 h2, some (cache2, heap2) = some (c2, h2) →
              tl.filter Event.isRelay
                = (if Lru.lookup b.parentHash c2.items = none ∧
                      (env.GetBlock pool.bc b.parentHash).isSome = true ∧ sender ≠ NoSender
                    then [Event.Relay .MessageTypeNewBlock b .MessagePriorityHigh] else []) ∧
              ∀ p S t, Event.PutVerifiedNewBlocks p S t ∈ tl →
                (env.putVerifiedNewBlocks pool.bc p S t).1 = none →
                r.pool.cache = (removeAll S c2 h2).1 := by
        intro r tl h0 h1 h2
        refine ⟨tl, h0, (fun h => by cases h), ?_⟩
        intro c2 h2' heq
        cases heq
        refine ⟨?_, fun p S t hm => absurd hm (h2 p S t)⟩
        rw [h1, if_neg]
        rw [hl]
        exact fun h => by cases h.1
      have nil : ∀ p S t, Event.PutVerifiedNewBlocks p S t ∉ ([] : List Event) :=
        fun _ _ _ h => by cases h
      split
      · exact fin _ [] (List.append_nil _).symm rfl nil
      · split
        · exact fin _ [] (List.append_nil _).symm rfl nil
        · exact fin _ [] (List.append_nil _).symm rfl nil
        · split
          · exact fin _ [] (List.append_nil _).symm rfl nil
          · split
            · exact fin _ [] (List.append_nil _).symm rfl nil
            · rename_i tnode _
              refine fin _ (download env sender tnode.block).2 rfl
                (download_no_relay env sender _) ?_
              intro p S t hm
              obtain ⟨_, _, _, _, h⟩ := download_events env sender _ _ hm
              cases h

/-- A pool of capacity 3 reached by the pushes of 11, 12 and 13. -/
theorem poolWith11to13_reachable : Reachable sampleEnv poolWith11to13 := by
  have h0 : Reachable sampleEnv samplePool := Reachable.init 3 samplePool.bc samplePool rfl
  have h1 := Reachable.push samplePool 16 "p" (sampleBlock 11 10 1)
    (some .ErrInvalidBlockCannotFindParentInLocalAndTryDownload) h0 (by decide)
  have h2 := Reachable.push _ 16 "p" (sampleBlock 12 11 2) none h1 (by decide)
  exact Reachable.push _ 16 "p" (sampleBlock 13 12 3) none h2 (by decide)

/-- The loop over the children in the traversal, when every child traversal returns: the
blocks of the verifying children are appended in order, a failing child adds nothing. -/
theorem travel_children_fold (f : Nat → Outcome (Except Err (List Block × List Block))) :
    ∀ (cs : List Nat) (all tails : List Block), (∀ c ∈ cs, ∃ r, f c = .ret r) →
      cs.foldl
        (fun (acc : Outcome (List Block × List Block)) clb =>
          match acc with
          | .ret (all, tails) =>
            match f clb with
            | .ret (.ok (a, t)) => .ret (all ++ a, tails ++ t)
            | .ret (.error _) => .ret (all, tails)
            | .panic => .panic
            | .diverge => .diverge
          | .panic => .panic
          | .diverge => .diverge)
        (.ret (all, tails))
      = .ret (all ++ (cs.map (fun c => validAll (f c))).flatten,
          tails ++ (cs.map (fun c => validTails (f c))).flatten)
  | [], all, tails, _ => by simp
  | c :: cs, all, tails, h => by
    rw [List.foldl_cons]
    obtain ⟨r, hr⟩ := h c (List.mem_cons_self _ _)
    have hrest : ∀ c2 ∈ cs, ∃ r, f c2 = .ret r := fun c2 hc2 => h c2 (List.mem_cons_of_mem _ hc2)
    cases r with
    | error e =>
      simp only [hr]
      rw [travel_children_fold f cs all tails hrest]
      simp [validAll, validTails, hr]
    | ok p =>
      obtain ⟨a, t⟩ := p
      simp only [hr]
      rw [travel_children_fold f cs (all ++ a) (tails ++ t) hrest]
      simp [validAll, validTails, hr, List.append_assoc]

theorem treeOk_node (heap : List linkedBlock) (depth lb : Nat)
    (h : treeOk heap (depth + 1) lb = true) :
    ∃ n b, heap[lb]? = some n ∧ n.block = some b ∧ n.chain = true ∧
      ∀ c ∈ (n.childBlocks.getD []).map Prod.snd, treeOk heap depth c = true := by
  unfold treeOk at h
  cases hn : heap[lb]? with
  | none => rw [hn] at h; cases h
  | some n =>
    rw [hn] at h
    simp only [Bool.and_eq_true, List.all_eq_true] at h
    obtain ⟨⟨h1, h2⟩, h3⟩ := h
    cases hb : n.block with
    | none => rw [hb] at h1; cases h1
    | some b => exact ⟨n, b, rfl, hb, h2, h3⟩

/-- The traversal of a node whose root verifies, on a tree of depth at most the fuel. -/
theorem travel_unfold {σ : Type} (env : Env σ) (bc : σ) (heap : List linkedBlock)
    (fuel lb : Nat) (parentBlock : Block) (n : linkedBlock) (b : Block)
    (hn : heap[lb]? = some n) (hb : n.block = some b) (hch : n.chain = true)
    (hl : env.LinkParentBlock bc b parentBlock = none)
    (hv : env.VerifyExecution bc b parentBlock = none)
    (hkids : ∀ c ∈ (n.childBlocks.getD []).map Prod.snd,
      ∃ r, travelToLinkAndReturnAllValidBlocks env bc heap fuel c b = .ret r) :
    travelToLinkAndReturnAllValidBlocks env bc heap (fuel + 1) lb parentBlock
      = .ret (.ok (b :: (((n.childBlocks.getD []).map Prod.snd).map (fun c =>
            validAll (travelToLinkAndReturnAllValidBlocks env bc heap fuel c b))).flatten,
          (if ((n.childBlocks.getD []).map Prod.snd).length = 0 then [b] else [])
            ++ (((n.childBlocks.getD []).map Prod.snd).map (fun c =>
              validTails (travelToLinkAndReturnAllValidBlocks env bc heap fuel c b))).flatten)) := by
  have hfold := travel_children_fold
    (fun c => travelToLinkAndReturnAllValidBlocks env bc heap fuel c b)
    ((n.childBlocks.getD []).map Prod.snd) [b]
    (if ((n.childBlocks.getD []).map Prod.snd).length = 0 then [b] else []) hkids
  rw [travelToLinkAndReturnAllValidBlocks]
  simp only [hn, hb, hch, hl, hv, Bool.true_eq_false, if_false]
  simp only at hfold
  erw [hfold]
  rfl

/-- The traversal of a finite tree of live nodes returns. -/
theorem travel_total {σ : Type} (env : Env σ) (bc : σ) (heap : List linkedBlock) :
    ∀ (fuel lb : Nat) (parentBlock : Block), treeOk heap fuel lb = true →
      ∃ r, travelToLinkAndReturnAllValidBlocks env bc heap fuel lb parentBlock = .ret r
  | 0, _, _, h => by simp [treeOk] at h
  | fuel + 1, lb, parentBlock, h => by
    obtain ⟨n, b, hn, hb, hch, hkids⟩ := treeOk_node heap fuel lb h
    cases hl : env.LinkParentBlock bc b parentBlock with
    | some e =>
      refine ⟨.error e, ?_⟩
      rw [travelToLinkAndReturnAllValidBlocks]
      simp only [hn, hb, hch, hl, Bool.true_eq_false, if_false]
    | none =>
      cases hv : env.VerifyExecution bc b parentBlock with
      | some e =>
        refine ⟨.error e, ?_⟩
        rw [travelToLinkAndReturnAllValidBlocks]
        simp only [hn, hb, hch, hl, hv, Bool.true_eq_false, if_false]
      | none =>
        exact ⟨_, travel_unfold env bc heap fuel lb parentBlock n b hn hb hch hl hv
          (fun c hc => travel_total env bc heap fuel c b (hkids c hc))⟩

theorem wrapInt64_of_range (x : Int) (h1 : -2 ^ 63 ≤ x) (h2 : x < 2 ^ 63) :
    wrapInt64 x = x := by
  unfold wrapInt64
  omega

/-- The staleness filter of `handleBlock` when `now - timestamp` fits in `int64`: a
parsed message is dropped exactly when it is a `NewBlock` message and
`now - timestamp > AcceptedNetWorkDelay`; otherwise it is forwarded to `PushAndRelay`
with the sender of the message. -/
theorem handleBlock_filter_in_range {σ π : Type} (w : Wire π) (env : Env σ) (newPb : π)
    (delay now : Int) (fuel : Nat) (pool : BlockPool σ) (msg : Message) (pb : π)
    (block : Block)
    (htype : msg.messageType = .MessageTypeNewBlock ∨
      msg.messageType = .MessageTypeDownloadedBlockReply)
    (hun : w.Unmarshal msg.data newPb = (none, pb)) (hfrom : w.FromProto pb = (block, none))
    (h1 : -2 ^ 63 ≤ now - block.timestamp) (h2 : now - block.timestamp < 2 ^ 63) :
    (handleBlock w env newPb delay now fuel pool msg = none ↔
      msg.messageType = .MessageTypeNewBlock ∧ now - block.timestamp > delay) ∧
    (¬ (msg.messageType = .MessageTypeNewBlock ∧ now - block.timestamp > delay) →
      handleBlock w env newPb delay now fuel pool msg
        = some (PushAndRelay w env fuel pool msg.messageFrom block)) := by
  have hty : ¬ (msg.messageType ≠ .MessageTypeNewBlock ∧
      msg.messageType ≠ .MessageTypeDownloadedBlockReply) := by
    rintro ⟨a, b⟩
    rcases htype with h | h
    · exact a h
    · exact b h
  have hw := wrapInt64_of_range _ h1 h2
  unfold handleBlock
  rw [if_neg hty, hun]
  simp only [hfrom, hw]
  by_cases hc : msg.messageType = .MessageTypeNewBlock ∧ now - block.timestamp > delay
  · rw [if_pos hc]
    exact ⟨⟨(fun _ => hc), (fun _ => rfl)⟩, (fun h => absurd hc h)⟩
  · rw [if_neg hc]
    exact ⟨⟨(fun h => by cases h), (fun h => absurd h hc)⟩, (fun _ => rfl)⟩

/-! ## The traversal against its specification, and the memory storage -/

/-- The errors of `ToProto` and of `proto.Unmarshal` are returned by the three public
push variants, which then leave the pool alone and make no call. -/
theorem Push_wire_error_returned {σ π : Type} (w : Wire π) (env : Env σ) (fuel : Nat)
    (pool : BlockPool σ) (sender : String) (b : Block) (e : Err)
    (h : w.ToProto b = .error e ∨
      ∃ pb pb1, w.ToProto b = .ok pb ∧ w.Unmarshal (w.Marshal pb).1 pb = (some e, pb1)) :
    Push w env fuel pool b = ⟨.ret (some e), pool, []⟩ ∧
    PushAndRelay w env fuel pool sender b = ⟨.ret (some e), pool, []⟩ ∧
    PushAndBroadcast w env fuel pool b = ⟨.ret (some e), pool, []⟩ := by
  have hm : mockBlockFromNetwork w b = .error e := by
    unfold mockBlockFromNetwork
    rcases h with h | ⟨pb, pb1, h1, h2⟩
    · rw [h]
    · rw [h1]
      simp only [h2]
  unfold Push PushAndRelay PushAndBroadcast
  rw [hm]
  exact ⟨rfl, rfl, rfl⟩

theorem verifies_iff {σ : Type} (env : Env σ) (bc : σ) (b parentBlock : Block) :
    verifies env bc b parentBlock = true ↔
      env.LinkParentBlock bc b parentBlock = none ∧
      env.VerifyExecution bc b parentBlock = none := by
  unfold verifies
  cases env.LinkParentBlock bc b parentBlock <;>
    cases env.VerifyExecution bc b parentBlock <;> simp

/-- The traversal of a finite tree of live nodes contributes the blocks of the
specification: `preorderValid` and `tailsValid`. -/
theorem travel_valid {σ : Type} (env : Env σ) (bc : σ) (heap : List linkedBlock) :
    ∀ (depth lb : Nat) (parentBlock : Block), treeOk heap depth lb = true →
      validAll (travelToLinkAndReturnAllValidBlocks env bc heap depth lb parentBlock)
        = preorderValid env bc heap depth lb parentBlock ∧
      validTails (travelToLinkAndReturnAllValidBlocks env bc heap depth lb parentBlock)
        = tailsValid env bc heap depth lb parentBlock
  | 0, _, _, h => by simp [treeOk] at h
  | depth + 1, lb, parentBlock, h => by
    obtain ⟨n, b, hn, hb, hch, hkids⟩ := treeOk_node heap depth lb h
    rw [preorderValid, tailsValid]
    simp only [hn, hb]
    cases hl : env.LinkParentBlock bc b parentBlock with
    | some e =>
      have hv : verifies env bc b parentBlock = false := by simp [verifies, hl]
      have ht : travelToLinkAndReturnAllValidBlocks env bc heap (depth + 1) lb parentBlock
          = .ret (.error e) := by
        rw [travelToLinkAndReturnAllValidBlocks]
        simp only [hn, hb, hch, hl, Bool.true_eq_false, if_false]
      rw [ht, hv]
      exact ⟨rfl, rfl⟩
    | none =>
      cases hv : env.VerifyExecution bc b parentBlock with
      | some e =>
        have hvf : verifies env bc b parentBlock = false := by simp [verifies, hv]
        have ht : travelToLinkAndReturnAllValidBlocks env bc heap (depth + 1) lb parentBlock
            = .ret (.error e) := by
          rw [travelToLinkAndReturnAllValidBlocks]
          simp only [hn, hb, hch, hl, hv, Bool.true_eq_false, if_false]
        rw [ht, hvf]
        exact ⟨rfl, rfl⟩
      | none =>
        have hvt : verifies env bc b parentBlock = true :=
          (verifies_iff env bc b parentBlock).mpr ⟨hl, hv⟩
        rw [travel_unfold env bc heap depth lb parentBlock n b hn hb hch hl hv
          (fun c hc => travel_total env bc heap depth c b (hkids c hc)), hvt]
        have h1 : ((n.childBlocks.getD []).map Prod.snd).map (fun c =>
            validAll (travelToLinkAndReturnAllValidBlocks env bc heap depth c b))
            = ((n.childBlocks.getD []).map Prod.snd).map
                (fun c => preorderValid env bc heap depth c b) :=
          List.map_congr_left (fun c hc => (travel_valid env bc heap depth c b (hkids c hc)).1)
        have h2 : ((n.childBlocks.getD []).map Prod.snd).map (fun c =>
            validTails (travelToLinkAndReturnAllValidBlocks env bc heap depth c b))
            = ((n.childBlocks.getD []).map Prod.snd).map
                (fun c => tailsValid env bc heap depth c b) :=
          List.map_congr_left (fun c hc => (travel_valid env bc heap depth c b (hkids c hc)).2)
        rw [h1, h2]
        simp only [validAll, validTails, if_true, List.length_map]
        refine ⟨trivial, ?_⟩
        by_cases hlen : (n.childBlocks.getD []).length = 0
        · have hnil : n.childBlocks.getD [] = [] := List.length_eq_zero.mp hlen
          simp [hnil]
        · simp [hlen]

theorem flatten_map_sublist {α β : Type} (f g : α → List β) :
    ∀ cs : List α, (∀ c ∈ cs, (f c).Sublist (g c)) →
      ((cs.map f).flatten).Sublist ((cs.map g).flatten)
  | [], _ => List.Sublist.refl _
  | c :: cs, h => by
    simp only [List.map_cons, List.flatten_cons]
    exact (h c (List.mem_cons_self _ _)).append
      (flatten_map_sublist f g cs (fun c2 hc2 => h c2 (List.mem_cons_of_mem _ hc2)))

/-- The tails of the specification are listed among its blocks, in the same order. -/
theorem tailsValid_sublist {σ : Type} (env : Env σ) (bc : σ) (heap : List linkedBlock) :
    ∀ (depth lb : Nat) (parentBlock : Block),
      (tailsValid env bc heap depth lb parentBlock).Sublist
        (preorderValid env bc heap depth lb parentBlock)
  | 0, _, _ => List.Sublist.refl _
  | depth + 1, lb, parentBlock => by
    rw [preorderValid, tailsValid]
    cases hn : heap[lb]? with
    | none => exact List.Sublist.refl _
    | some n =>
      cases hb : n.block with
      | none =>
        simp only [hb]
        exact List.Sublist.refl _
      | some b =>
        simp only [hb]
        by_cases hv : verifies env bc b parentBlock = true
        · simp only [hv, if_true]
          by_cases hlen : (n.childBlocks.getD []).length = 0
          · rw [if_pos hlen]
            exact (List.Sublist.refl [b]).trans
              (List.Sublist.cons₂ b (List.nil_sublist _))
          · rw [if_neg hlen]
            exact List.Sublist.cons b (flatten_map_sublist _ _ _
              (fun c _ => tailsValid_sublist env bc heap depth c b))
        · simp only [hv, Bool.false_eq_true, if_false]
          exact List.Sublist.refl _

/-- When every node verifies the specification lists the whole tree and its leaves. -/
theorem preorderValid_of_allVerify {σ : Type} (env : Env σ) (bc : σ)
    (heap : List linkedBlock) :
    ∀ (depth lb : Nat) (parentBlock : Block),
      allVerify env bc heap depth lb parentBlock = true →
      preorderValid env bc heap depth lb parentBlock = preorder heap depth lb ∧
      tailsValid env bc heap depth lb parentBlock = leaves heap depth lb
  | 0, _, _, _ => ⟨rfl, rfl⟩
  | depth + 1, lb, parentBlock, h => by
    rw [preorderValid, tailsValid, preorder, leaves]
    rw [allVerify] at h
    cases hn : heap[lb]? with
    | none => exact ⟨rfl, rfl⟩
    | some n =>
      cases hb : n.block with
      | none =>
        simp only [hb]
        exact ⟨trivial, trivial⟩
      | some b =>
        simp only [hn, hb, Bool.and_eq_true, List.all_eq_true] at h
        simp only [hb]
        obtain ⟨hv, hkids⟩ := h
        have h1 : ((n.childBlocks.getD []).map Prod.snd).map
            (fun c => preorderValid env bc heap depth c b)
            = ((n.childBlocks.getD []).map Prod.snd).map (fun c => preorder heap depth c) :=
          List.map_congr_left
            (fun c hc => (preorderValid_of_allVerify env bc heap depth c b (hkids c hc)).1)
        have h2 : ((n.childBlocks.getD []).map Prod.snd).map
            (fun c => tailsValid env bc heap depth c b)
            = ((n.childBlocks.getD []).map Prod.snd).map (fun c => leaves heap depth c) :=
          List.map_congr_left
            (fun c hc => (preorderValid_of_allVerify env bc heap depth c b (hkids c hc)).2)
        simp only [hv, if_true, h1, h2]
        exact ⟨trivial, trivial⟩

/-- The two exits of the traversal on a finite tree of live nodes: the error of the
root, or the blocks of the specification. -/
theorem travel_cases {σ : Type} (env : Env σ) (bc : σ) (heap : List linkedBlock)
    (depth lb : Nat) (parentBlock : Block) (n : linkedBlock) (b : Block)
    (htree : treeOk heap (depth + 1) lb = true)
    (hn : heap[lb]? = some n) (hb : n.block = some b) :
    (∃ e, (env.LinkParentBlock bc b parentBlock = some e ∨
          (env.LinkParentBlock bc b parentBlock = none ∧
            env.VerifyExecution bc b parentBlock = some e)) ∧
        travelToLinkAndReturnAllValidBlocks env bc heap (depth + 1) lb parentBlock
          = .ret (.error e)) ∨
    (env.LinkParentBlock bc b parentBlock = none ∧
      env.VerifyExecution bc b parentBlock = none ∧
      travelToLinkAndReturnAllValidBlocks env bc heap (depth + 1) lb parentBlock
        = .ret (.ok (preorderValid env bc heap (depth + 1) lb parentBlock,
            tailsValid env bc heap (depth + 1) lb parentBlock))) := by
  obtain ⟨n2, b2, hn2, hb2, hch, hkids⟩ := treeOk_node heap depth lb htree
  rw [hn] at hn2
  cases hn2
  rw [hb] at hb2
  cases hb2
  cases hl : env.LinkParentBlock bc b parentBlock with
  | some e =>
    left
    refine ⟨e, Or.inl rfl, ?_⟩
    rw [travelToLinkAndReturnAllValidBlocks]
    simp only [hn, hb, hch, hl, Bool.true_eq_false, if_false]
  | none =>
    cases hv : env.VerifyExecution bc b parentBlock with
    | some e =>
      left
      refine ⟨e, Or.inr ⟨rfl, rfl⟩, ?_⟩
      rw [travelToLinkAndReturnAllValidBlocks]
      simp only [hn, hb, hch, hl, hv, Bool.true_eq_false, if_false]
    | none =>
      right
      refine ⟨rfl, rfl, ?_⟩
      obtain ⟨h1, h2⟩ := travel_valid env bc heap (depth + 1) lb parentBlock htree
      have hu := travel_unfold env bc heap depth lb parentBlock n b hn hb hch hl hv
        (fun c hc => travel_total env bc heap depth c b (hkids c hc))
      rw [hu] at h1 h2 ⊢
      exact congrArg (fun p => Outcome.ret (Except.ok p)) (Prod.ext h1 h2)

theorem reordered_treeOk (heap heap2 : List linkedBlock) (hre : Reordered heap heap2) :
    ∀ (depth lb : Nat), treeOk heap depth lb = true → treeOk heap2 depth lb = true
  | 0, _, h => by simp [treeOk] at h
  | depth + 1, lb, h => by
    obtain ⟨n, b, hn, hb, hch, hkids⟩ := treeOk_node heap depth lb h
    obtain ⟨n2, hn2, hb2, hch2, hperm⟩ := hre.2 lb n hn
    rw [treeOk]
    simp only [hn2, hb2, hb, hch2, hch, Option.isSome_some, Bool.true_and, List.all_eq_true]
    intro c hc
    exact reordered_treeOk heap heap2 hre depth c
      (hkids c ((hperm.map Prod.snd).mem_iff.mpr hc))

/-- Reordering the child maps permutes the blocks and the tails of the specification. -/
theorem reordered_perm {σ : Type} (env : Env σ) (bc : σ) (heap heap2 : List linkedBlock)
    (hre : Reordered heap heap2) :
    ∀ (depth lb : Nat) (parentBlock : Block), treeOk heap depth lb = true →
      (preorderValid env bc heap depth lb parentBlock).Perm
        (preorderValid env bc heap2 depth lb parentBlock) ∧
      (tailsValid env bc heap depth lb parentBlock).Perm
        (tailsValid env bc heap2 depth lb parentBlock)
  | 0, _, _, h => by simp [treeOk] at h
  | depth + 1, lb, parentBlock, h => by
    obtain ⟨n, b, hn, hb, hch, hkids⟩ := treeOk_node heap depth lb h
    obtain ⟨n2, hn2, hb2, hch2, hperm⟩ := hre.2 lb n hn
    have hb2b : n2.block = some b := hb2.trans hb
    have hcs := hperm.map Prod.snd
    have hall : List.Perm
        (((n.childBlocks.getD []).map Prod.snd).flatMap
          (fun c => preorderValid env bc heap depth c b))
        (((n2.childBlocks.getD []).map Prod.snd).flatMap
          (fun c => preorderValid env bc heap2 depth c b)) :=
      (List.Perm.flatMap_left _
        (fun c hc => (reordered_perm env bc heap heap2 hre depth c b (hkids c hc)).1)).trans
        (List.Perm.flatMap_right _ hcs)
    have htl : List.Perm
        (((n.childBlocks.getD []).map Prod.snd).flatMap
          (fun c => tailsValid env bc heap depth c b))
        (((n2.childBlocks.getD []).map Prod.snd).flatMap
          (fun c => tailsValid env bc heap2 depth c b)) :=
      (List.Perm.flatMap_left _
        (fun c hc => (reordered_perm env bc heap heap2 hre depth c b (hkids c hc)).2)).trans
        (List.Perm.flatMap_right _ hcs)
    rw [preorderValid, tailsValid, preorderValid, tailsValid]
    simp only [hn, hb, hn2, hb2b, ← hperm.length_eq]
    by_cases hv : verifies env bc b parentBlock = true
    · simp only [hv, if_true]
      refine ⟨List.Perm.cons b hall, ?_⟩
      by_cases hlen : (n.childBlocks.getD []).length = 0
      · simp only [hlen, if_true]
        exact List.Perm.refl _
      · simp only [hlen, if_false]
        exact htl
    · simp only [hv, Bool.false_eq_true, if_false]
      exact ⟨List.Perm.refl _, List.Perm.refl _⟩

theorem Reordered_of_reorderedOk (heap heap2 : List linkedBlock)
    (h : reorderedOk heap heap2 = true) : Reordered heap heap2 := by
  unfold reorderedOk at h
  simp only [Bool.and_eq_true, decide_eq_true_eq, List.all_eq_true, List.mem_range] at h
  obtain ⟨hlen, hall⟩ := h
  refine ⟨hlen, fun id n hn => ?_⟩
  have hid := (List.getElem?_eq_some_iff.mp hn).1
  have := hall id hid
  rw [hn] at this
  cases hn2 : heap2[id]? with
  | none => rw [hn2] at this; simp at this
  | some n2 =>
    rw [hn2] at this
    simp only [Bool.and_eq_true, decide_eq_true_eq] at this
    exact ⟨n2, rfl, this.1.1, this.1.2, this.2⟩

theorem SyncMap.Load_Delete_self {κ : Type} [DecidableEq κ] (m : SyncMap κ) (k : κ) :
    (m.Delete k).Load k = none := by
  unfold SyncMap.Load SyncMap.Delete
  simp only [Option.map_eq_none', List.find?_eq_none, List.mem_filter, decide_eq_true_eq,
    decide_not, Bool.not_eq_true', decide_eq_false_iff_not]
  intro e he
  exact he.2

theorem SyncMap.Load_Delete_other {κ : Type} [DecidableEq κ] (m : SyncMap κ) (k k2 : κ)
    (h : k2 ≠ k) : (m.Delete k).Load k2 = m.Load k2 := by
  obtain ⟨l⟩ := m
  unfold SyncMap.Load SyncMap.Delete
  simp only
  induction l with
  | nil => rfl
  | cons e es ih =>
    by_cases he : e.1 = k
    · have he2 : ¬ e.1 = k2 := fun h2 => h (h2.symm.trans he)
      rw [List.filter_cons_of_neg (by simpa using he),
        List.find?_cons_of_neg _ (by simpa using he2)]
      exact ih
    · rw [List.filter_cons_of_pos (by simpa using he)]
      by_cases he2 : e.1 = k2
      · rw [List.find?_cons_of_pos _ (by simpa using he2),
          List.find?_cons_of_pos _ (by simpa using he2)]
      · rw [List.find?_cons_of_neg _ (by simpa using he2),
          List.find?_cons_of_neg _ (by simpa using he2)]
        exact ih

theorem SyncMap.Load_Store_self {κ : Type} [DecidableEq κ] (m : SyncMap κ) (k : κ)
    (v : Bytes) : (m.Store k v).Load k = some v := by
  simp [SyncMap.Load, SyncMap.Store]

theorem SyncMap.Load_Store_other {κ : Type} [DecidableEq κ] (m : SyncMap κ) (k k2 : κ)
    (v : Bytes) (h : k2 ≠ k) : (m.Store k v).Load k2 = m.Load k2 := by
  have h1 := SyncMap.Load_Delete_other m k k2 h
  unfold SyncMap.Load at h1 ⊢
  unfold SyncMap.Store
  simp only
  rw [List.find?_cons_of_neg _ (by simpa using (fun h2 : k = k2 => h h2.symm))]
  exact h1

/-- `Get` after the puts of a list of entries: the last value put for the key, or the
earlier value of the key when the list does not name it. -/
theorem Get_foldl_Put {κ : Type} [DecidableEq κ] (Hex : Bytes → κ)
    (hinj : Function.Injective Hex) (key : Bytes) :
    ∀ (es : List kv) (db : MemoryStorage κ),
      (es.foldl (fun db e => db.Put Hex e.k e.v) db).Get Hex key
        = match lastBatched es key with
          | some v => .ok v
          | none => db.Get Hex key
  | [], db => rfl
  | e :: es, db => by
    rw [List.foldl_cons, Get_foldl_Put Hex hinj key es (db.Put Hex e.k e.v), lastBatched]
    cases lastBatched es key with
    | some v => rfl
    | none =>
      simp only
      by_cases he : e.k = key
      · rw [if_pos he]
        simp only [MemoryStorage.Get, MemoryStorage.Put, he, SyncMap.Load_Store_self]
      · rw [if_neg he]
        have hne : Hex key ≠ Hex e.k := fun h => he (hinj h).symm
        simp only [MemoryStorage.Get, MemoryStorage.Put, SyncMap.Load_Store_other _ _ _ _ hne]

/-! ## The claims -/

/-- C1: a block whose hash is already a key of `cache`, or is found by `GetBlock`, makes
`push` return `ErrDuplicatedBlock` for every sender, with the pool (cache, slot, chain,
heap) unchanged and no call other than the counter bump; and `Push` of a block whose
wire round trip yields that block returns no error and leaves the pool unchanged. -/
theorem push_duplicate_swallowed {σ : Type} (env : Env σ) (fuel : Nat) (pool : BlockPool σ)
    (sender : String) (b : Block)
    (hdup : pool.cache.Contains b.hash = true ∨ (env.GetBlock pool.bc b.hash).isSome = true) :
    push env fuel pool sender b
        = ⟨.ret (some .ErrDuplicatedBlock), pool, [Event.IncDuplicatedBlock]⟩ ∧
      (push env fuel pool sender b).events.filter Event.isNetwork = [] ∧
      ∀ (π : Type) (w : Wire π) (b0 : Block), mockBlockFromNetwork w b0 = .ok b →
        Push w env fuel pool b0 = ⟨.ret none, pool, [Event.IncDuplicatedBlock]⟩ := by
  have hp := push_of_duplicate env fuel pool sender b hdup
  refine ⟨hp, ?_, ?_⟩
  · rw [hp]; rfl
  · intro π w b0 hw
    exact Push_of_core_duplicate w env fuel pool b0 b hw
      (push_of_duplicate env fuel pool NoSender b hdup)

/-- The statement of C1 at the sample pool holding block 11, pushed again by a peer and
locally. -/
theorem push_duplicate_swallowed_witness :
    (poolWith11.cache.Contains (sampleBlock 11 10 1).hash = true ∨
      (sampleEnv.GetBlock poolWith11.bc (sampleBlock 11 10 1).hash).isSome = true) ∧
    push sampleEnv 8 poolWith11 "p" (sampleBlock 11 10 1)
      = ⟨.ret (some .ErrDuplicatedBlock), poolWith11, [Event.IncDuplicatedBlock]⟩ ∧
    Push sampleWire sampleEnv 8 poolWith11 (sampleBlock 11 10 1)
      = ⟨.ret none, poolWith11, [Event.IncDuplicatedBlock]⟩ :=
  ⟨Or.inl (by decide),
   (push_duplicate_swallowed sampleEnv 8 poolWith11 "p" (sampleBlock 11 10 1)
      (Or.inl (by decide))).1,
   (push_duplicate_swallowed sampleEnv 8 poolWith11 "p" (sampleBlock 11 10 1)
      (Or.inl (by decide))).2.2 Block sampleWire (sampleBlock 11 10 1) rfl⟩

/-- C2, as stated, fails: an unsigned block fails `VerifyIntegrity`; pushed twice in a
row, the second push returns the integrity error again, not `ErrDuplicatedBlock`, and
`Push` returns that error to its caller. -/
theorem push_twice_invalid_block :
    (push sampleEnv 8 (push sampleEnv 8 samplePool NoSender unsignedBlock).pool NoSender
      unsignedBlock).out = .ret (some (Err.other 1)) ∧
    (push sampleEnv 8 (push sampleEnv 8 samplePool NoSender unsignedBlock).pool NoSender
      unsignedBlock).out ≠ .ret (some .ErrDuplicatedBlock) ∧
    (Push sampleWire sampleEnv 8
      (Push sampleWire sampleEnv 8 samplePool unsignedBlock).pool unsignedBlock).out
        = .ret (some (Err.other 1)) := by
  decide

/-- C2 amended: on a well-formed pool of capacity at least one, take a block that passes
`VerifyIntegrity` and whose timestamp is free in the slot (or that is a duplicate
already), and a chain store in which the blocks given to a successful
`putVerifiedNewBlocks` are found by `GetBlock` afterwards, also after `ForkChoice`.
Pushed twice in a row, the second push returns `ErrDuplicatedBlock`, which `Push`
swallows, and leaves the whole pool (cache, slot, chain) as the first push left it. -/
theorem push_twice_admitted {σ : Type} (env : Env σ) (fuel fuel2 : Nat)
    (pool : BlockPool σ) (sender sender2 : String) (b : Block)
    (hs : 1 ≤ pool.cache.size) (hwf : pool.wellFormed = true)
    (hvi : env.VerifyIntegrity pool.bc b = none)
    (hslot : pool.slot.Contains b.timestamp = false)
    (hPut : ∀ bc p allBlocks tailBlocks bc1,
      env.putVerifiedNewBlocks bc p allBlocks tailBlocks = (none, bc1) →
      ∀ x ∈ allBlocks, (env.GetBlock bc1 x.hash).isSome = true)
    (hFork : ∀ bc h, (env.GetBlock bc h).isSome = true →
      (env.GetBlock (env.ForkChoice bc).2 h).isSome = true) :
    push env fuel2 (push env fuel pool sender b).pool sender2 b
      = ⟨.ret (some .ErrDuplicatedBlock), (push env fuel pool sender b).pool,
          [Event.IncDuplicatedBlock]⟩ ∧
    ∀ (π : Type) (w : Wire π) (b0 : Block), mockBlockFromNetwork w b0 = .ok b →
      Push w env fuel2 (push env fuel pool sender b).pool b0
        = ⟨.ret none, (push env fuel pool sender b).pool, [Event.IncDuplicatedBlock]⟩ := by
  have hlive := cacheLive_of_wellFormed pool hwf
  have hdup2 : (push env fuel pool sender b).pool.cache.Contains b.hash = true ∨
      (env.GetBlock (push env fuel pool sender b).pool.bc b.hash).isSome = true := by
    by_cases hdup : pool.cache.Contains b.hash = true ∨
        (env.GetBlock pool.bc b.hash).isSome = true
    · rw [push_of_duplicate env fuel pool sender b hdup]
      exact hdup
    · obtain ⟨hc, hg⟩ := not_duplicate env pool b hdup
      obtain ⟨_, _, f3⟩ := push_final env fuel pool sender b hs hlive hc hg hvi hslot
      rcases f3 with ⟨g1, _⟩ | ⟨p, allBlocks, tailBlocks, bc1, g1, g2, g3, _⟩
      · left
        unfold Lru.Contains
        rw [g1]
        rfl
      · right
        rw [g3]
        exact hFork bc1 b.hash (hPut _ _ _ _ _ g1 b g2)
  exact ⟨push_of_duplicate env fuel2 _ sender2 b hdup2,
    fun π w b0 hw => Push_of_core_duplicate w env fuel2 _ b0 b hw
      (push_of_duplicate env fuel2 _ NoSender b hdup2)⟩

/-- The amended C2 at the empty sample pool: block 11 pushed by peer "p", then again. -/
theorem push_twice_admitted_witness :
    (sampleEnv.VerifyIntegrity samplePool.bc (sampleBlock 11 10 1) = none ∧
      samplePool.slot.Contains (sampleBlock 11 10 1).timestamp = false) ∧
    push sampleEnv 8 (push sampleEnv 8 samplePool "p" (sampleBlock 11 10 1)).pool "p"
        (sampleBlock 11 10 1)
      = ⟨.ret (some .ErrDuplicatedBlock),
          (push sampleEnv 8 samplePool "p" (sampleBlock 11 10 1)).pool,
          [Event.IncDuplicatedBlock]⟩ :=
  ⟨by decide,
   (push_twice_admitted sampleEnv 8 8 samplePool "p" "p" (sampleBlock 11 10 1) (by decide)
      (by decide) (by decide) (by decide)
      (fun bc p allBlocks tailBlocks bc1 h x hx => by
        simp only [sampleEnv, Prod.mk.injEq, true_and] at h
        subst h
        simp only [sampleEnv, List.find?_isSome]
        exact ⟨x, by simp [hx], by simp⟩)
      (fun bc h hh => hh)).1⟩

/-- C3, as stated, fails: the sample pool already holds block 11 under timestamp 1.
Blocks 12 and 13 are distinct, uncached, not in the chain, pass `VerifyIntegrity` and
carry timestamp 1 too; the first of them is itself rejected with `ErrDoubleBlockMinted`
and the slot keeps block 11 under the timestamp. -/
theorem equivocation_first_rejected_when_slot_taken :
    (1 ≤ poolWith11.size ∧ (sampleBlock 12 10 1).hash ≠ (sampleBlock 13 10 1).hash ∧
      (sampleBlock 12 10 1).timestamp = (sampleBlock 13 10 1).timestamp ∧
      poolWith11.cache.Contains (sampleBlock 12 10 1).hash = false ∧
      poolWith11.cache.Contains (sampleBlock 13 10 1).hash = false ∧
      sampleEnv.GetBlock poolWith11.bc (sampleBlock 12 10 1).hash = none ∧
      sampleEnv.GetBlock poolWith11.bc (sampleBlock 13 10 1).hash = none ∧
      sampleEnv.VerifyIntegrity poolWith11.bc (sampleBlock 12 10 1) = none ∧
      sampleEnv.VerifyIntegrity poolWith11.bc (sampleBlock 13 10 1) = none) ∧
    (push sampleEnv 8 poolWith11 "p" (sampleBlock 12 10 1)).out
      = .ret (some .ErrDoubleBlockMinted) ∧
    Lru.lookup 1 (push sampleEnv 8 poolWith11 "p" (sampleBlock 12 10 1)).pool.slot.items
      = some (sampleBlock 11 10 1) ∧
    Lru.lookup 1 (push sampleEnv 8 poolWith11 "p" (sampleBlock 12 10 1)).pool.slot.items
      ≠ some (sampleBlock 12 10 1) := by
  decide

/-- C3 amended: on a well-formed pool of capacity at least one whose slot holds no entry
for the timestamp, two distinct blocks B and B2 with that timestamp (neither cached nor
in the chain, both passing `VerifyIntegrity`) are pushed one after the other. The first
passes the equivocation check and is recorded in the slot under the timestamp; the
push of the second returns `ErrDoubleBlockMinted`, leaves cache, heap and chain as
they were, and the slot still maps the timestamp to B. -/
theorem equivocation_second_rejected {σ : Type} (env : Env σ) (fuel fuel2 : Nat)
    (pool : BlockPool σ) (sender sender2 : String) (B B2 : Block)
    (hs : 1 ≤ pool.cache.size) (hss : 1 ≤ pool.slot.size) (hwf : pool.wellFormed = true)
    (hts : B2.timestamp = B.timestamp) (hne : B2.hash ≠ B.hash)
    (hfree : pool.slot.Contains B.timestamp = false)
    (hc : pool.cache.Contains B.hash = false) (hg : env.GetBlock pool.bc B.hash = none)
    (hvi : env.VerifyIntegrity pool.bc B = none)
    (hc2 : pool.cache.Contains B2.hash = false)
    (hg2 : env.GetBlock (push env fuel pool sender B).pool.bc B2.hash = none)
    (hvi2 : env.VerifyIntegrity (push env fuel pool sender B).pool.bc B2 = none) :
    Lru.lookup B.timestamp (push env fuel pool sender B).pool.slot.items = some B ∧
    (push env fuel2 (push env fuel pool sender B).pool sender2 B2).out
      = .ret (some .ErrDoubleBlockMinted) ∧
    (push env fuel2 (push env fuel pool sender B).pool sender2 B2).pool.cache
      = (push env fuel pool sender B).pool.cache ∧
    (push env fuel2 (push env fuel pool sender B).pool sender2 B2).pool.heap
      = (push env fuel pool sender B).pool.heap ∧
    (push env fuel2 (push env fuel pool sender B).pool sender2 B2).pool.bc
      = (push env fuel pool sender B).pool.bc ∧
    Lru.lookup B.timestamp
      (push env fuel2 (push env fuel pool sender B).pool sender2 B2).pool.slot.items
        = some B ∧
    (push env fuel2 (push env fuel pool sender B).pool sender2 B2).events.filter
      Event.isNetwork = [] := by
  have hlive := cacheLive_of_wellFormed pool hwf
  obtain ⟨f1, f2, _⟩ := push_final env fuel pool sender B hs hlive hc hg hvi hfree
  have hslB : Lru.lookup B.timestamp (push env fuel pool sender B).pool.slot.items
      = some B := by
    rw [f1]
    exact Lru.Add_fresh_lookup_self pool.slot B.timestamp B hss
      (lookup_none_of_Contains hfree)
  have hc2b : (push env fuel pool sender B).pool.cache.Contains B2.hash = false := by
    unfold Lru.Contains
    rw [f2 B2.hash hne (lookup_none_of_Contains hc2)]
    rfl
  have hsl2 : Lru.lookup B2.timestamp (push env fuel pool sender B).pool.slot.items
      = some B := by
    rw [hts]
    exact hslB
  rw [push_of_taken_slot env fuel2 _ sender2 B2 B hc2b hg2 hvi2 hsl2]
  refine ⟨hslB, rfl, rfl, rfl, rfl, ?_, rfl⟩
  show Lru.lookup B.timestamp
    ((push env fuel pool sender B).pool.slot.Get B2.timestamp).2.items = some B
  rw [Lru.lookup_Get]
  exact hslB

/-- The amended C3 at the empty sample pool: blocks 11 and 12 both carry timestamp 1. -/
theorem equivocation_second_rejected_witness :
    (samplePool.slot.Contains (sampleBlock 11 10 1).timestamp = false ∧
      (sampleBlock 12 10 1).hash ≠ (sampleBlock 11 10 1).hash) ∧
    Lru.lookup 1 (push sampleEnv 8 samplePool "p" (sampleBlock 11 10 1)).pool.slot.items
      = some (sampleBlock 11 10 1) ∧
    (push sampleEnv 8 (push sampleEnv 8 samplePool "p" (sampleBlock 11 10 1)).pool "q"
      (sampleBlock 12 10 1)).out = .ret (some .ErrDoubleBlockMinted) :=
  ⟨by decide,
   (equivocation_second_rejected sampleEnv 8 8 samplePool "p" "q" (sampleBlock 11 10 1)
      (sampleBlock 12 10 1) (by decide) (by decide) (by decide) (by decide) (by decide)
      (by decide) (by decide) (by decide) (by decide) (by decide) (by decide)
      (by decide)).1,
   (equivocation_second_rejected sampleEnv 8 8 samplePool "p" "q" (sampleBlock 11 10 1)
      (sampleBlock 12 10 1) (by decide) (by decide) (by decide) (by decide) (by decide)
      (by decide) (by decide) (by decide) (by decide) (by decide) (by decide)
      (by decide)).2.1⟩

/-- C4, as stated, fails: block 12 carries the timestamp of the pooled block 11, the
admission core returns `ErrDoubleBlockMinted`, and `Push` hands that error to its caller. -/
theorem Push_DoubleBlockMinted_not_swallowed :
    (push sampleEnv 8 poolWith11 NoSender (sampleBlock 12 10 1)).out
        = .ret (some .ErrDoubleBlockMinted) ∧
      (Push sampleWire sampleEnv 8 poolWith11 (sampleBlock 12 10 1)).out
        = .ret (some .ErrDoubleBlockMinted) ∧
      (Push sampleWire sampleEnv 8 poolWith11 (sampleBlock 12 10 1)).out ≠ .ret none := by
  decide

/-- C4 amended: at the `Push` boundary only `ErrDuplicatedBlock` is swallowed. When the
admission core returns `ErrDoubleBlockMinted`, `Push` returns `ErrDoubleBlockMinted`
(the whole run is handed on unchanged); when it returns `ErrDuplicatedBlock`, `Push`
returns no error. -/
theorem Push_swallows_only_duplicates {σ π : Type} (w : Wire π) (env : Env σ) (fuel : Nat)
    (pool : BlockPool σ) (b0 b : Block) (hwire : mockBlockFromNetwork w b0 = .ok b) :
    ((push env fuel pool NoSender b).out = .ret (some .ErrDoubleBlockMinted) →
        Push w env fuel pool b0 = push env fuel pool NoSender b ∧
        (Push w env fuel pool b0).out = .ret (some .ErrDoubleBlockMinted)) ∧
      ((push env fuel pool NoSender b).out = .ret (some .ErrDuplicatedBlock) →
        (Push w env fuel pool b0).out = .ret none) := by
  constructor
  · intro h
    have h1 : Push w env fuel pool b0 = push env fuel pool NoSender b := by
      unfold Push
      rw [hwire]
      simp only [h]
      rfl
    exact ⟨h1, h1 ▸ h⟩
  · intro h
    unfold Push
    rw [hwire]
    simp only [h]
    rfl

/-- The amended C4 at the sample pool: block 12 (same timestamp as block 11) is
rejected through `Push`, block 11 itself is swallowed. -/
theorem Push_swallows_only_duplicates_witness :
    mockBlockFromNetwork sampleWire (sampleBlock 12 10 1) = .ok (sampleBlock 12 10 1) ∧
    (Push sampleWire sampleEnv 8 poolWith11 (sampleBlock 12 10 1)).out
      = .ret (some .ErrDoubleBlockMinted) :=
  ⟨rfl,
   ((Push_swallows_only_duplicates sampleWire sampleEnv 8 poolWith11 (sampleBlock 12 10 1)
      (sampleBlock 12 10 1) rfl).1 (by decide)).2⟩

/-- C5: a block that is not a duplicate and whose `VerifyIntegrity` fails with `e` makes
`push` return exactly `e`; the pool (cache, slot, chain, heap) is unchanged and the only
call made is the counter bump: no download, relay or sync start. -/
theorem push_integrity_failure {σ : Type} (env : Env σ) (fuel : Nat) (pool : BlockPool σ)
    (sender : String) (b : Block) (e : Err)
    (hcache : pool.cache.Contains b.hash = false)
    (hchain : env.GetBlock pool.bc b.hash = none)
    (hvi : env.VerifyIntegrity pool.bc b = some e) :
    push env fuel pool sender b = ⟨.ret (some e), pool, [Event.IncInvalidBlock]⟩ ∧
      (push env fuel pool sender b).events.filter Event.isNetwork = [] ∧
      (∀ started, Event.StartActiveSync started ∉ (push env fuel pool sender b).events) := by
  have hp := push_of_integrity_failure env fuel pool sender b e hcache hchain hvi
  refine ⟨hp, ?_, ?_⟩
  · rw [hp]; rfl
  · intro started
    rw [hp]
    simp

/-- The statement of C5 at the sample pool: an unsigned block pushed by a peer. -/
theorem push_integrity_failure_witness :
    poolWith11.cache.Contains [12] = false ∧
    push sampleEnv 8 poolWith11 "p" ⟨[12], [11], 2, 12, []⟩
      = ⟨.ret (some (Err.other 1)), poolWith11, [Event.IncInvalidBlock]⟩ :=
  ⟨by decide,
   (push_integrity_failure sampleEnv 8 poolWith11 "p" ⟨[12], [11], 2, 12, []⟩ (Err.other 1)
      (by decide) (by decide) (by decide)).1⟩

/-- The exits of `push` on an orphan when both heights are below `2^63`, so that the
gap test does not wrap. On a well-formed pool of capacity at least one, take a block
that passes the duplicate, integrity and equivocation checks and whose parent hash (not
its own hash) is neither cached nor in the chain store. Without sender `push` returns
`ErrMissingParentBlock` and calls nothing on the network. With a sender: if
`height - tail.height > ChunkSize`, `StartActiveSync` is called, `push` returns
`ErrInvalidBlockCannotFindParentInLocalAndTrySync` and nothing is sent; otherwise the
only network call is one `DownloadedBlock` message to the sender with the marshalled
hash and signature of the block itself, and `push` returns
`ErrInvalidBlockCannotFindParentInLocalAndTryDownload`. -/
theorem push_orphan_in_range {σ : Type} (env : Env σ) (fuel : Nat) (pool : BlockPool σ)
    (sender : String) (b : Block)
    (hs : 1 ≤ pool.cache.size) (hwf : pool.wellFormed = true)
    (hc : pool.cache.Contains b.hash = false) (hg : env.GetBlock pool.bc b.hash = none)
    (hvi : env.VerifyIntegrity pool.bc b = none)
    (hslot : pool.slot.Contains b.timestamp = false)
    (hpar : pool.cache.Contains b.parentHash = false) (hself : b.parentHash ≠ b.hash)
    (hpc : env.GetBlock pool.bc b.parentHash = none)
    (hh : b.height < 2 ^ 63) (ht : (env.TailBlock pool.bc).height < 2 ^ 63) :
    (sender = NoSender →
      (push env fuel pool sender b).out = .ret (some .ErrMissingParentBlock) ∧
      (push env fuel pool sender b).events.filter Event.isNetwork = []) ∧
    (sender ≠ NoSender →
      (b.height : Int) - ((env.TailBlock pool.bc).height : Int) > env.ChunkSize →
      (push env fuel pool sender b).out
        = .ret (some .ErrInvalidBlockCannotFindParentInLocalAndTrySync) ∧
      Event.StartActiveSync (env.StartActiveSync pool.bc).1
        ∈ (push env fuel pool sender b).events ∧
      (push env fuel pool sender b).pool.bc = (env.StartActiveSync pool.bc).2 ∧
      (push env fuel pool sender b).events.filter Event.isNetwork = []) ∧
    (sender ≠ NoSender →
      (b.height : Int) - ((env.TailBlock pool.bc).height : Int) ≤ env.ChunkSize →
      ∀ bytes, env.Marshal { hash := b.hash, sign := b.signature } = .ok bytes →
      (push env fuel pool sender b).out
        = .ret (some .ErrInvalidBlockCannotFindParentInLocalAndTryDownload) ∧
      (push env fuel pool sender b).events.filter Event.isNetwork
        = [Event.SendMsg .MessageTypeDownloadedBlock bytes sender .MessagePriorityNormal]) := by
  have hlive := cacheLive_of_wellFormed pool hwf
  have hex := heightGap_exact b.height (env.TailBlock pool.bc).height hh ht
  obtain ⟨pool2, _, hp⟩ := push_orphan env fuel pool sender b hs hlive hc hg hvi hslot
    (parent_absent_after_add pool b hs hlive hc hpar hself) hpc
  rw [hex] at hp
  refine ⟨fun h => ?_, fun h hgap => ?_, fun h hgap bytes hm => ?_⟩
  · rw [hp, if_pos h]
    exact ⟨rfl, slotEvicted_not_network _⟩
  · rw [hp, if_neg h, if_pos hgap]
    refine ⟨rfl, by simp, rfl, ?_⟩
    simp [List.filter_append, slotEvicted_not_network, Event.isNetwork]
  · rw [hp, if_neg h, if_neg (not_lt.mpr hgap), hm]
    refine ⟨rfl, ?_⟩
    simp [List.filter_append, slotEvicted_not_network, Event.isNetwork]

/-- C6 fails on the code: peer "p" pushes an orphan of height `2^63` into the empty
sample pool, whose chain tail has height 0. The block passes the three checks and its
parent is neither cached nor in the chain store. The gap to the tail, `2^63`, is far
above `ChunkSize` = 32, but `int(block.Height())` wraps to `-2^63`, the test
`int(height) - int(tail.height) > ChunkSize` is false, and `push` takes the download
exit: no `StartActiveSync`, one `DownloadedBlock` request, and
`ErrInvalidBlockCannotFindParentInLocalAndTryDownload` instead of
`ErrInvalidBlockCannotFindParentInLocalAndTrySync`. -/
theorem orphan_height_overflow_downloads :
    (samplePool.cache.Contains (heavyBlock).hash = false ∧
      sampleEnv.GetBlock samplePool.bc heavyBlock.hash = none ∧
      sampleEnv.VerifyIntegrity samplePool.bc heavyBlock = none ∧
      samplePool.slot.Contains heavyBlock.timestamp = false ∧
      samplePool.cache.Contains heavyBlock.parentHash = false ∧
      sampleEnv.GetBlock samplePool.bc heavyBlock.parentHash = none) ∧
    (heavyBlock.height : Int) - ((sampleEnv.TailBlock samplePool.bc).height : Int)
      > sampleEnv.ChunkSize ∧
    heightGap heavyBlock.height (sampleEnv.TailBlock samplePool.bc).height = -2 ^ 63 ∧
    (push sampleEnv 8 samplePool "p" heavyBlock).out
      = .ret (some .ErrInvalidBlockCannotFindParentInLocalAndTryDownload) ∧
    (push sampleEnv 8 samplePool "p" heavyBlock).events
      = [Event.SendMsg .MessageTypeDownloadedBlock [1, 11, 11, 11] "p"
          .MessagePriorityNormal] ∧
    (push sampleEnv 8 samplePool "p" heavyBlock).pool.bc = samplePool.bc := by
  decide

/-- C7 fails on the code at a reachable pool: a new pool of capacity 3 after peer "p"
pushed the orphans 11, 12, 13 (each the child of the one before). Block 14, child of 13, passes
the duplicate, integrity and equivocation checks and its parent 13 is cached, also
after the insertion of 14. That insertion evicts and disposes node 11, the topmost
ancestor, to which node 12 still points; the walk ends on the disposed node, whose
block is nil, and `download` panics: no request is sent and `push` does not return.
The same push without sender returns `ErrMissingParentBlock`. -/
theorem push_evicted_ancestor_panics :
    Reachable sampleEnv poolWith11to13 ∧
    (poolWith11to13.cache.Contains (sampleBlock 14 13 4).hash = false ∧
      sampleEnv.GetBlock poolWith11to13.bc (sampleBlock 14 13 4).hash = none ∧
      sampleEnv.VerifyIntegrity poolWith11to13.bc (sampleBlock 14 13 4) = none ∧
      poolWith11to13.slot.Contains (sampleBlock 14 13 4).timestamp = false ∧
      poolWith11to13.cache.Contains (sampleBlock 14 13 4).parentHash = true ∧
      (addToPool poolWith11to13 (sampleBlock 14 13 4)).1.cache.Contains
        (sampleBlock 14 13 4).parentHash = true) ∧
    (push sampleEnv 16 poolWith11to13 "p" (sampleBlock 14 13 4)).out = .panic ∧
    (push sampleEnv 16 poolWith11to13 "p" (sampleBlock 14 13 4)).events.filter
      Event.isNetwork = [] ∧
    (push sampleEnv 16 poolWith11to13 NoSender (sampleBlock 14 13 4)).out
      = .ret (some .ErrMissingParentBlock) := by
  refine ⟨?_, by decide⟩
  have h0 : Reachable sampleEnv samplePool := Reachable.init 3 samplePool.bc samplePool rfl
  have h1 := Reachable.push samplePool 16 "p" (sampleBlock 11 10 1)
    (some .ErrInvalidBlockCannotFindParentInLocalAndTryDownload) h0 (by decide)
  have h2 := Reachable.push _ 16 "p" (sampleBlock 12 11 2) none h1 (by decide)
  exact Reachable.push _ 16 "p" (sampleBlock 13 12 3) none h2 (by decide)

/-- C8, as stated, fails: block 12 is pushed by peer "p" while its parent 11 is in the
pool and not in the chain store. The block is deferred (it stays in the cache, nothing
is promoted), a download request for the topmost ancestor 11 is sent, and `push`
returns nil. -/
theorem pooled_parent_push_returns_nil :
    (sampleEnv.GetBlock poolWith11.bc (sampleBlock 12 11 2).parentHash = none ∧
      poolWith11.cache.Contains (sampleBlock 12 11 2).parentHash = true) ∧
    (push sampleEnv 16 poolWith11 "p" (sampleBlock 12 11 2)).out = .ret none ∧
    (push sampleEnv 16 poolWith11 "p" (sampleBlock 12 11 2)).events
      = [Event.SendMsg .MessageTypeDownloadedBlock [1, 11, 11, 11] "p"
          .MessagePriorityNormal] ∧
    (push sampleEnv 16 poolWith11 "p" (sampleBlock 12 11 2)).pool.cache.Contains
      (sampleBlock 12 11 2).hash = true ∧
    (push sampleEnv 16 poolWith11 "p" (sampleBlock 12 11 2)).pool.bc = poolWith11.bc := by
  decide

/-- C8 amended: take a well-formed pool of capacity at least one, pooled hashes without
cycle (ranked), and a block that passes the three checks. If its parent is neither
cached at parent resolution nor in the chain store, `push` returns a non-nil error,
with or without sender. If its parent is cached at parent resolution and there is no
sender, `push` returns `ErrMissingParentBlock`. If its parent is cached and a sender is
present, the walk over the parent pointers from the parent ends at a topmost ancestor
(a node without parent), and `push` returns nil exactly when the download request for
that node was sent: the block of the node is there, its hash and signature marshal, and
the only network call is one `DownloadedBlock` message with these bytes to the sender at
normal priority. When `push` does not return nil, it makes no network call. -/
theorem deferred_push_result {σ : Type} (rank : Hash → Nat) (env : Env σ) (fuel : Nat)
    (pool : BlockPool σ) (sender : String) (b : Block)
    (hs : 1 ≤ pool.cache.size) (hwf : pool.wellFormed = true)
    (hrank : rankedOk rank pool.heap = true)
    (hb : rank b.parentHash < rank b.hash) (hfuel : rank b.parentHash < fuel)
    (hc : pool.cache.Contains b.hash = false) (hg : env.GetBlock pool.bc b.hash = none)
    (hvi : env.VerifyIntegrity pool.bc b = none)
    (hslot : pool.slot.Contains b.timestamp = false) :
    (Lru.lookup b.parentHash (addToPool pool b).1.cache.items = none →
      env.GetBlock pool.bc b.parentHash = none →
      ∃ e, (push env fuel pool sender b).out = .ret (some e)) ∧
    (∀ plb, Lru.lookup b.parentHash (addToPool pool b).1.cache.items = some plb →
      (sender = NoSender →
        (push env fuel pool sender b).out = .ret (some .ErrMissingParentBlock)) ∧
      (sender ≠ NoSender →
        ∃ top tn,
          topAncestor (push env fuel pool sender b).pool.heap fuel plb = .ret top ∧
          (push env fuel pool sender b).pool.heap[top]? = some tn ∧
          tn.parentBlock = none ∧
          ((push env fuel pool sender b).out = .ret none ↔
            ∃ tb bytes, tn.block = some tb ∧
              env.Marshal { hash := tb.hash, sign := tb.signature } = .ok bytes ∧
              (push env fuel pool sender b).events.filter Event.isNetwork
                = [Event.SendMsg .MessageTypeDownloadedBlock bytes sender
                    .MessagePriorityNormal]) ∧
          ((push env fuel pool sender b).out ≠ .ret none →
            (push env fuel pool sender b).events.filter Event.isNetwork = []))) := by
  have hlive := cacheLive_of_wellFormed pool hwf
  constructor
  · intro hpar hpc
    obtain ⟨pool2, _, hp⟩ :=
      push_orphan env fuel pool sender b hs hlive hc hg hvi hslot hpar hpc
    rw [hp]
    by_cases h1 : sender = NoSender
    · rw [if_pos h1]
      exact ⟨_, rfl⟩
    · rw [if_neg h1]
      split
      · exact ⟨_, rfl⟩
      · split
        · exact ⟨_, rfl⟩
        · exact ⟨_, rfl⟩
  · intro plb hpar
    obtain ⟨pool3, top, tn, htn, htp, htop, _, _, hp⟩ :=
      push_parent_pooled rank env fuel pool sender b plb hs hlive
        ((PoolInv_iff_wellFormed pool).mp hwf).2.1
        (linkedOk_of_Linked _ ((PoolInv_iff_wellFormed pool).mp hwf).2.2) hrank hb hfuel
        hc hg hvi hslot hpar
    refine ⟨fun h1 => by rw [hp, if_pos h1], fun h1 => ?_⟩
    have hpool : (push env fuel pool sender b).pool = pool3 := by rw [hp, if_neg h1]
    have hout : (push env fuel pool sender b).out = (download env sender tn.block).1 := by
      rw [hp, if_neg h1]
    have hevs : (push env fuel pool sender b).events.filter Event.isNetwork
        = (download env sender tn.block).2.filter Event.isNetwork := by
      rw [hp, if_neg h1]
      simp only [List.filter_append, slotEvicted_not_network, List.nil_append]
    rw [hpool, hout, hevs]
    refine ⟨top, tn, htop, htn, htp, ?_⟩
    unfold download
    cases htb : tn.block with
    | none =>
      simp only
      refine ⟨⟨(fun h => by cases h), ?_⟩, (fun _ => rfl)⟩
      rintro ⟨tb, bytes, h, _⟩
      cases h
    | some tb =>
      simp only
      cases hm : env.Marshal { hash := tb.hash, sign := tb.signature } with
      | error e =>
        simp only
        refine ⟨⟨(fun h => by cases h), ?_⟩, (fun _ => rfl)⟩
        rintro ⟨tb2, bytes, h, h2, _⟩
        cases h
        rw [hm] at h2
        cases h2
      | ok bytes =>
        simp only
        refine ⟨⟨(fun _ => ⟨tb, bytes, rfl, hm, rfl⟩), (fun _ => trivial)⟩,
          (fun h => absurd rfl h)⟩

/-- The amended C8 at the sample pool holding block 11: block 12, child of 11, pushed
locally, returns `ErrMissingParentBlock`; pushed by peer "p", it returns nil and the one
network call is the request for block 11, the topmost ancestor. -/
theorem deferred_push_result_witness :
    (poolWith11.wellFormed = true ∧ rankedOk sampleRank poolWith11.heap = true ∧
      Lru.lookup (sampleBlock 12 11 2).parentHash
        (addToPool poolWith11 (sampleBlock 12 11 2)).1.cache.items = some 0) ∧
    (push sampleEnv 16 poolWith11 NoSender (sampleBlock 12 11 2)).out
      = .ret (some .ErrMissingParentBlock) ∧
    ((push sampleEnv 16 poolWith11 "p" (sampleBlock 12 11 2)).out = .ret none ∧
      (push sampleEnv 16 poolWith11 "p" (sampleBlock 12 11 2)).events.filter Event.isNetwork
        = [Event.SendMsg .MessageTypeDownloadedBlock [1, 11, 11, 11] "p"
            .MessagePriorityNormal]) ∧
    (∃ top tn,
      topAncestor (push sampleEnv 16 poolWith11 "p" (sampleBlock 12 11 2)).pool.heap 16 0
        = .ret top ∧
      (push sampleEnv 16 poolWith11 "p" (sampleBlock 12 11 2)).pool.heap[top]? = some tn ∧
      tn.parentBlock = none ∧
      ((push sampleEnv 16 poolWith11 "p" (sampleBlock 12 11 2)).out = .ret none ↔
        ∃ tb bytes, tn.block = some tb ∧
          sampleEnv.Marshal { hash := tb.hash, sign := tb.signature } = .ok bytes ∧
          (push sampleEnv 16 poolWith11 "p" (sampleBlock 12 11 2)).events.filter
              Event.isNetwork
            = [Event.SendMsg .MessageTypeDownloadedBlock bytes "p"
                .MessagePriorityNormal]) ∧
      ((push sampleEnv 16 poolWith11 "p" (sampleBlock 12 11 2)).out ≠ .ret none →
        (push sampleEnv 16 poolWith11 "p" (sampleBlock 12 11 2)).events.filter
          Event.isNetwork = [])) :=
  ⟨by decide,
   ((deferred_push_result sampleRank sampleEnv 16 poolWith11 NoSender (sampleBlock 12 11 2)
      (by decide) (by decide) (by decide) (by decide) (by decide) (by decide) (by decide)
      (by decide) (by decide)).2 0 (by decide)).1 rfl,
   by decide,
   ((deferred_push_result sampleRank sampleEnv 16 poolWith11 "p" (sampleBlock 12 11 2)
      (by decide) (by decide) (by decide) (by decide) (by decide) (by decide) (by decide)
      (by decide) (by decide)).2 0 (by decide)).2 (by decide)⟩

/-- C9: on a well-formed pool of capacity at least one, a push that returns a recoverable
deferral leaves the pushed block in the pool: the cache maps the block's hash to a linked
block that holds the block, and the slot maps the block's timestamp to the block. The
deferral is one raised by `push`: `VerifyIntegrity` and `ForkChoice` are taken not to
return the three deferral sentinels themselves. -/
theorem deferral_keeps_block {σ : Type} (env : Env σ) (fuel : Nat) (pool : BlockPool σ)
    (sender : String) (b : Block) (e : Err)
    (hs : 1 ≤ pool.cache.size) (hss : 1 ≤ pool.slot.size) (hwf : pool.wellFormed = true)
    (hVI : ∀ x, env.VerifyIntegrity pool.bc b = some x → x.isDeferral = false)
    (hFC : ∀ bc x, (env.ForkChoice bc).1 = some x → x.isDeferral = false)
    (hret : (push env fuel pool sender b).out = .ret (some e))
    (he : e.isDeferral = true) :
    (∃ id n, Lru.lookup b.hash (push env fuel pool sender b).pool.cache.items = some id ∧
      (push env fuel pool sender b).pool.heap[id]? = some n ∧ n.block = some b ∧
      n.hash = b.hash) ∧
    Lru.lookup b.timestamp (push env fuel pool sender b).pool.slot.items = some b := by
  have hlive := cacheLive_of_wellFormed pool hwf
  by_cases hdup : pool.cache.Contains b.hash = true ∨
      (env.GetBlock pool.bc b.hash).isSome = true
  · rw [push_of_duplicate env fuel pool sender b hdup] at hret
    cases hret
    cases he
  · obtain ⟨hc, hg⟩ := not_duplicate env pool b hdup
    cases hvi : env.VerifyIntegrity pool.bc b with
    | some x =>
      rw [push_of_integrity_failure env fuel pool sender b x hc hg hvi] at hret
      cases hret
      rw [hVI e hvi] at he
      cases he
    | none =>
      cases hsl : Lru.lookup b.timestamp pool.slot.items with
      | some pre =>
        rw [push_of_taken_slot env fuel pool sender b pre hc hg hvi hsl] at hret
        cases hret
        cases he
      | none =>
        have hslot : pool.slot.Contains b.timestamp = false := by
          unfold Lru.Contains
          rw [hsl]
          rfl
        obtain ⟨f1, _, f3⟩ := push_final env fuel pool sender b hs hlive hc hg hvi hslot
        refine ⟨?_, ?_⟩
        · rcases f3 with ⟨g1, n, g2, g3, g4⟩ | ⟨_, _, _, bc1, _, _, _, g4⟩
          · exact ⟨_, n, g1, g2, g3, g4⟩
          · rw [hret] at g4
            have := hFC bc1 e (Outcome.ret.inj g4).symm
            rw [this] at he
            cases he
        · rw [f1]
          exact Lru.Add_fresh_lookup_self pool.slot b.timestamp b hss hsl

/-- The statement of C9 at the sample pool holding block 11: block 12, child of 11, is
pushed locally and deferred with `ErrMissingParentBlock`. -/
theorem deferral_keeps_block_witness :
    ((push sampleEnv 16 poolWith11 NoSender (sampleBlock 12 11 2)).out
        = .ret (some .ErrMissingParentBlock) ∧
      Err.ErrMissingParentBlock.isDeferral = true) ∧
    ((∃ id n, Lru.lookup (sampleBlock 12 11 2).hash
        (push sampleEnv 16 poolWith11 NoSender (sampleBlock 12 11 2)).pool.cache.items
          = some id ∧
      (push sampleEnv 16 poolWith11 NoSender (sampleBlock 12 11 2)).pool.heap[id]? = some n ∧
      n.block = some (sampleBlock 12 11 2) ∧ n.hash = (sampleBlock 12 11 2).hash) ∧
    Lru.lookup (sampleBlock 12 11 2).timestamp
      (push sampleEnv 16 poolWith11 NoSender (sampleBlock 12 11 2)).pool.slot.items
        = some (sampleBlock 12 11 2)) :=
  ⟨by decide,
   deferral_keeps_block sampleEnv 16 poolWith11 NoSender (sampleBlock 12 11 2)
      .ErrMissingParentBlock (by decide) (by decide) (by decide)
      (fun x h => by simp [sampleEnv, sampleBlock] at h)
      (fun bc x h => by simp [sampleEnv] at h) (by decide) (by decide)⟩

/-- C10, as stated, fails: a peer pushes block 12 whose parent 11 is nowhere; the
request sent to the peer is the marshalled pair (hash, signature) of block 12 itself,
and no request for the hash of the missing parent 11 marshals to the bytes sent. -/
theorem orphan_download_not_parent_hash :
    (push sampleEnv 8 samplePool "p" (sampleBlock 12 11 2)).out
      = .ret (some .ErrInvalidBlockCannotFindParentInLocalAndTryDownload) ∧
    (push sampleEnv 8 samplePool "p" (sampleBlock 12 11 2)).events
      = [Event.SendMsg .MessageTypeDownloadedBlock [1, 12, 12, 12] "p"
          .MessagePriorityNormal] ∧
    sampleEnv.Marshal { hash := (sampleBlock 12 11 2).hash,
                        sign := (sampleBlock 12 11 2).signature } = .ok [1, 12, 12, 12] ∧
    ∀ sign, sampleEnv.Marshal { hash := (sampleBlock 12 11 2).parentHash, sign := sign }
      ≠ .ok [1, 12, 12, 12] := by
  refine ⟨by decide, by decide, rfl, ?_⟩
  intro sign h
  simp [sampleEnv, sampleBlock] at h

/-- C10 amended: on a well-formed pool of capacity at least one, a block B2 whose parent
is neither cached nor in the chain store, pushed by peer P within `ChunkSize` of the
tail (whose height, a height of the local chain, is below `2^63`), gets
`ErrInvalidBlockCannotFindParentInLocalAndTryDownload`, and the one message sent to P is
a `DownloadedBlock` request carrying the hash and the signature of B2 itself. -/
theorem orphan_download_names_block {σ : Type} (env : Env σ) (fuel : Nat)
    (pool : BlockPool σ) (sender : String) (b : Block) (bytes : Bytes)
    (hs : 1 ≤ pool.cache.size) (hwf : pool.wellFormed = true)
    (hc : pool.cache.Contains b.hash = false) (hg : env.GetBlock pool.bc b.hash = none)
    (hvi : env.VerifyIntegrity pool.bc b = none)
    (hslot : pool.slot.Contains b.timestamp = false)
    (hpar : pool.cache.Contains b.parentHash = false) (hself : b.parentHash ≠ b.hash)
    (hpc : env.GetBlock pool.bc b.parentHash = none)
    (hsender : sender ≠ NoSender)
    (hgap : (b.height : Int) - ((env.TailBlock pool.bc).height : Int) ≤ env.ChunkSize)
    (htail : (env.TailBlock pool.bc).height < 2 ^ 63)
    (hm : env.Marshal { hash := b.hash, sign := b.signature } = .ok bytes) :
    (push env fuel pool sender b).out
      = .ret (some .ErrInvalidBlockCannotFindParentInLocalAndTryDownload) ∧
    (push env fuel pool sender b).events.filter Event.isNetwork
      = [Event.SendMsg .MessageTypeDownloadedBlock bytes sender .MessagePriorityNormal] := by
  have hlive := cacheLive_of_wellFormed pool hwf
  obtain ⟨pool2, _, hp⟩ := push_orphan env fuel pool sender b hs hlive hc hg hvi hslot
    (parent_absent_after_add pool b hs hlive hc hpar hself) hpc
  rw [hp, if_neg hsender,
    if_neg (heightGap_le_of_exact b.height (env.TailBlock pool.bc).height env.ChunkSize
      htail hgap), hm]
  refine ⟨rfl, ?_⟩
  simp [List.filter_append, slotEvicted_not_network, Event.isNetwork]

/-- The amended C10 at the empty sample pool: block 12, parent 11 missing, peer "p". -/
theorem orphan_download_names_block_witness :
    (samplePool.cache.Contains (sampleBlock 12 11 2).parentHash = false ∧
      sampleEnv.GetBlock samplePool.bc (sampleBlock 12 11 2).parentHash = none) ∧
    (push sampleEnv 8 samplePool "p" (sampleBlock 12 11 2)).out
      = .ret (some .ErrInvalidBlockCannotFindParentInLocalAndTryDownload) ∧
    (push sampleEnv 8 samplePool "p" (sampleBlock 12 11 2)).events.filter Event.isNetwork
      = [Event.SendMsg .MessageTypeDownloadedBlock [1, 12, 12, 12] "p"
          .MessagePriorityNormal] :=
  ⟨by decide,
   orphan_download_names_block sampleEnv 8 samplePool "p" (sampleBlock 12 11 2)
      [1, 12, 12, 12] (by decide) (by decide) (by decide) (by decide) (by decide)
      (by decide) (by decide) (by decide) (by decide) (by decide) (by decide) (by decide)
      rfl⟩

/-- C12: when `push` calls `putVerifiedNewBlocks` on the blocks `S` returned by the
traversal and the call succeeds, no block of `S` is a key of `cache` when `push` ends,
whatever `ForkChoice` returns. The keys of the cache are pairwise distinct, as in every
LRU map. -/
theorem promoted_blocks_leave_cache {σ : Type} (env : Env σ) (fuel : Nat)
    (pool : BlockPool σ) (sender : String) (b : Block)
    (hk : (pool.cache.items.map Prod.fst).Nodup)
    (p : Block) (S t : List Block)
    (hcall : Event.PutVerifiedNewBlocks p S t ∈ (push env fuel pool sender b).events)
    (hput : (env.putVerifiedNewBlocks pool.bc p S t).1 = none) :
    ∀ x ∈ S, (push env fuel pool sender b).pool.cache.Contains x.hash = false := by
  have hcont : ∀ (c : Lru Hash Nat) (k : Hash), Lru.lookup k c.items = none →
      c.Contains k = false := by
    intro c k h
    unfold Lru.Contains
    rw [h]
    rfl
  intro x hx
  apply hcont
  revert hcall
  unfold push
  split
  · intro h
    simp only [List.mem_singleton] at h
    cases h
  · split
    · intro h
      simp only [List.mem_singleton] at h
      cases h
    · split
      · intro h
        simp only [List.mem_singleton] at h
        cases h
      · intro hcall
        obtain ⟨tl, h1, h2, h3⟩ := pushLinked_events env fuel (addToPool pool b).1 sender b
          pool.heap.length (addToPool pool b).2
        rw [h1, List.mem_append] at hcall
        rcases hcall with hcall | hcall
        · unfold addToPool slotEvicted at hcall
          simp only at hcall
          split at hcall
          · cases hcall
          · simp only [List.mem_singleton] at hcall
            cases hcall
        · cases hatt : attachChildren pool.heap.length b.hash (addToPool pool b).1.cache.Keys
              (addToPool pool b).1.cache (addToPool pool b).1.heap with
          | none =>
            rw [h2 hatt] at hcall
            cases hcall
          | some pr =>
            obtain ⟨cache2, heap2⟩ := pr
            have hrem := (h3 cache2 heap2 hatt).2 p S t hcall hput
            rw [hrem]
            refine removeAll_removed S cache2 heap2 ?_ x hx
            exact ((attachChildren_perm _ _ _ _ _ _ _ hatt).map Prod.fst).nodup_iff.mpr
              (Lru.Add_keys_nodup _ _ _ hk)

/-- The statement of C12 at the sample pool holding the orphan 12: the push of its parent
11, whose parent is in the chain, promotes both blocks and removes both from the cache. -/
theorem promoted_blocks_leave_cache_witness :
    Event.PutVerifiedNewBlocks ⟨[0], [], 0, 0, [0]⟩ [sampleBlock 11 0 1, sampleBlock 12 11 2]
        [sampleBlock 12 11 2]
      ∈ (push sampleEnv 8 poolWith12 "p" (sampleBlock 11 0 1)).events ∧
    poolWith12.cache.Contains (sampleBlock 12 11 2).hash = true ∧
    ∀ x ∈ [sampleBlock 11 0 1, sampleBlock 12 11 2],
      (push sampleEnv 8 poolWith12 "p" (sampleBlock 11 0 1)).pool.cache.Contains x.hash
        = false :=
  ⟨by decide, by decide,
    promoted_blocks_leave_cache sampleEnv 8 poolWith12 "p" (sampleBlock 11 0 1) (by decide)
      ⟨[0], [], 0, 0, [0]⟩ [sampleBlock 11 0 1, sampleBlock 12 11 2] [sampleBlock 12 11 2]
      (by decide) rfl⟩

/-- C13: the calls of `Relay` made by `push` are the single call
`Relay(MessageTypeNewBlock, block, MessagePriorityHigh)` when the block passes the
duplicate, integrity and equivocation checks, its parent hash is not a key of the cache
at the parent lookup, `GetBlock` finds the parent in the chain, and a sender is given;
in every other case (pooled parent, parent nowhere, local push, rejected block) `push`
makes no call of `Relay`. -/
theorem relay_exactly_when_chain_attachable {σ : Type} (env : Env σ) (fuel : Nat)
    (pool : BlockPool σ) (sender : String) (b : Block)
    (hs : 1 ≤ pool.cache.size) (hwf : pool.wellFormed = true) :
    ((pool.cache.Contains b.hash = false ∧ env.GetBlock pool.bc b.hash = none ∧
        env.VerifyIntegrity pool.bc b = none ∧ pool.slot.Contains b.timestamp = false ∧
        Lru.lookup b.parentHash (addToPool pool b).1.cache.items = none ∧
        (env.GetBlock pool.bc b.parentHash).isSome = true ∧ sender ≠ NoSender) →
      (push env fuel pool sender b).events.filter Event.isRelay
        = [Event.Relay .MessageTypeNewBlock b .MessagePriorityHigh]) ∧
    (¬ (pool.cache.Contains b.hash = false ∧ env.GetBlock pool.bc b.hash = none ∧
        env.VerifyIntegrity pool.bc b = none ∧ pool.slot.Contains b.timestamp = false ∧
        Lru.lookup b.parentHash (addToPool pool b).1.cache.items = none ∧
        (env.GetBlock pool.bc b.parentHash).isSome = true ∧ sender ≠ NoSender) →
      (push env fuel pool sender b).events.filter Event.isRelay = []) := by
  by_cases hdup : pool.cache.Contains b.hash = true ∨ (env.GetBlock pool.bc b.hash).isSome = true
  · rw [push_of_duplicate env fuel pool sender b hdup]
    refine ⟨fun h => ?_, fun _ => rfl⟩
    rcases hdup with h1 | h1
    · rw [h.1] at h1; cases h1
    · rw [h.2.1] at h1; cases h1
  obtain ⟨hc, hg⟩ := not_duplicate env pool b hdup
  rcases Option.eq_none_or_eq_some (env.VerifyIntegrity pool.bc b) with hvi | ⟨e, hvi⟩
  swap
  · rw [push_of_integrity_failure env fuel pool sender b e hc hg hvi]
    refine ⟨fun h => ?_, fun _ => rfl⟩
    rw [h.2.2.1] at hvi
    cases hvi
  rcases Option.eq_none_or_eq_some (Lru.lookup b.timestamp pool.slot.items)
    with hsl | ⟨pre, hsl⟩
  swap
  · rw [push_of_taken_slot env fuel pool sender b pre hc hg hvi hsl]
    refine ⟨fun h => ?_, fun _ => rfl⟩
    have h4 := h.2.2.2.1
    unfold Lru.Contains at h4
    rw [hsl] at h4
    cases h4
  have hslot : pool.slot.Contains b.timestamp = false := by
    unfold Lru.Contains
    rw [hsl]
    rfl
  rw [push_entry env fuel pool sender b hc hg hvi hslot]
  have hL := Live_of_cacheLive pool (cacheLive_of_wellFormed pool hwf)
  have hf := lookup_none_of_Contains hc
  obtain ⟨cache2, heap2, hatt, hlk, _, _⟩ := attach_after_add pool b hs hL hf
  obtain ⟨tl, h1, _, h3⟩ := pushLinked_events env fuel (addToPool pool b).1 sender b
    pool.heap.length (addToPool pool b).2
  have hrel := (h3 cache2 heap2 hatt).1
  rw [hlk] at hrel
  have hev : (addToPool pool b).2.filter Event.isRelay = [] := by
    unfold addToPool slotEvicted
    simp only
    split <;> rfl
  have hbc : (addToPool pool b).1.bc = pool.bc := rfl
  rw [hbc] at hrel
  rw [h1, List.filter_append, hev, List.nil_append, hrel]
  constructor
  · intro h
    rw [if_pos ⟨h.2.2.2.2.1, h.2.2.2.2.2⟩]
  · intro h
    rw [if_neg]
    intro h2
    exact h ⟨hc, hg, hvi, hslot, h2⟩

/-- The statement of C13 at the sample pool: block 11 with its parent in the chain is
relayed when a peer sent it. -/
theorem relay_exactly_when_chain_attachable_witness :
    1 ≤ samplePool.cache.size ∧ samplePool.wellFormed = true ∧
    (push sampleEnv 8 samplePool "p" (sampleBlock 11 0 1)).events.filter Event.isRelay
      = [Event.Relay .MessageTypeNewBlock (sampleBlock 11 0 1) .MessagePriorityHigh] ∧
    (push sampleEnv 8 samplePool NoSender (sampleBlock 11 0 1)).events.filter Event.isRelay
      = [] ∧
    (push sampleEnv 8 poolWith11 "p" (sampleBlock 12 11 2)).events.filter Event.isRelay
      = [] :=
  ⟨by decide, by decide,
    (relay_exactly_when_chain_attachable sampleEnv 8 samplePool "p" (sampleBlock 11 0 1)
      (by decide) (by decide)).1 (by decide),
    (relay_exactly_when_chain_attachable sampleEnv 8 samplePool NoSender (sampleBlock 11 0 1)
      (by decide) (by decide)).2 (by decide),
    (relay_exactly_when_chain_attachable sampleEnv 8 poolWith11 "p" (sampleBlock 12 11 2)
      (by decide) (by decide)).2 (by decide)⟩

/-- C14: in every pool reached from `NewBlockPool(size)` by pushes, `cache` and `slot`
hold at most `size` entries each, and this still holds after a further call of `push`,
whatever its exit. -/
theorem cache_and_slot_bounded {σ : Type} (env : Env σ) (pool : BlockPool σ)
    (h : Reachable env pool) :
    (pool.cache.items.length ≤ pool.size ∧ pool.slot.items.length ≤ pool.size) ∧
    ∀ fuel sender b,
      (push env fuel pool sender b).pool.cache.items.length ≤ pool.size ∧
      (push env fuel pool sender b).pool.slot.items.length ≤ pool.size ∧
      (push env fuel pool sender b).pool.size = pool.size := by
  have hb := Reachable_bounded env pool h
  refine ⟨⟨hb.1, hb.2.1⟩, fun fuel sender b => ?_⟩
  have hp := push_bounded env fuel pool sender b hb
  have hsz := (push_frame env fuel pool sender b).2.2
  exact ⟨hsz ▸ hp.1, hsz ▸ hp.2.1, hsz⟩

/-- The statement of C14 at the full sample pool of capacity 3 holding 11, 12 and 13, and
after the push of 14, which evicts 11. -/
theorem cache_and_slot_bounded_witness :
    poolWith11to13.cache.items.length = 3 ∧ poolWith11to13.size = 3 ∧
    (push sampleEnv 16 poolWith11to13 "p" (sampleBlock 14 13 4)).pool.cache.items.length ≤ 3 ∧
    (push sampleEnv 16 poolWith11to13 "p" (sampleBlock 14 13 4)).pool.slot.items.length ≤ 3 :=
  ⟨by decide, by decide,
    ((cache_and_slot_bounded sampleEnv poolWith11to13 poolWith11to13_reachable).2
      16 "p" (sampleBlock 14 13 4)).1,
    ((cache_and_slot_bounded sampleEnv poolWith11to13 poolWith11to13_reachable).2
      16 "p" (sampleBlock 14 13 4)).2.1⟩

/-- C15 fails in a reachable pool: after the local pushes of 11, 12, 13 and 14 into a
pool of capacity 3 (each returns `ErrMissingParentBlock`), the insertion of 14 has
evicted and disposed the node of 11 at address 0. The node of 12 is still cached, at
address 1, and its parent pointer still is address 0, whose child map is nil. -/
theorem cached_node_parent_disposed :
    Reachable sampleEnv poolLocal11to14 ∧
    Lru.lookup [12] poolLocal11to14.cache.items = some 1 ∧
    poolLocal11to14.cache.Contains [11] = false ∧
    (poolLocal11to14.heap[1]?).map (fun n => (n.block, n.parentBlock))
      = some (some (sampleBlock 12 11 2), some 0) ∧
    (poolLocal11to14.heap[0]?).map (fun n => (n.block, n.childBlocks)) = some (none, none) := by
  refine ⟨?_, by decide, by decide, by decide, by decide⟩
  have h0 : Reachable sampleEnv samplePool := Reachable.init 3 samplePool.bc samplePool rfl
  have h1 := Reachable.push samplePool 16 NoSender (sampleBlock 11 10 1)
    (some .ErrMissingParentBlock) h0 (by decide)
  have h2 := Reachable.push _ 16 NoSender (sampleBlock 12 11 2)
    (some .ErrMissingParentBlock) h1 (by decide)
  have h3 := Reachable.push _ 16 NoSender (sampleBlock 13 12 3)
    (some .ErrMissingParentBlock) h2 (by decide)
  exact Reachable.push _ 16 NoSender (sampleBlock 14 13 4)
    (some .ErrMissingParentBlock) h3 (by decide)

/-- C16 fails in a reachable pool: a pool of capacity 2 after peer "p" pushed the orphan
12 and its children 13 and 15 holds the node of 12, whose child map still contains the
node of 13, evicted and disposed by the insertion of 15. Block 11, parent of 12 and
child of the chain block 0, passes the three checks; the attach loop links 12 to it and
the traversal starts at 11. `LinkParentBlock` and `VerifyExecution` pass for the root
(they pass for every block here), yet the traversal reaches the disposed node, whose
block is nil, and panics: the call does not return, neither an error nor blocks, and
`push` does not return. -/
theorem travel_panics_on_evicted_child :
    Reachable sampleEnv poolWithEvictedChild ∧
    poolWithEvictedChild.wellFormed = true ∧
    (poolWithEvictedChild.cache.Contains (sampleBlock 11 0 1).hash = false ∧
      sampleEnv.GetBlock poolWithEvictedChild.bc (sampleBlock 11 0 1).hash = none ∧
      sampleEnv.VerifyIntegrity poolWithEvictedChild.bc (sampleBlock 11 0 1) = none ∧
      poolWithEvictedChild.slot.Contains (sampleBlock 11 0 1).timestamp = false ∧
      sampleEnv.GetBlock poolWithEvictedChild.bc (sampleBlock 11 0 1).parentHash
        = some ⟨[0], [], 0, 0, [0]⟩) ∧
    (sampleEnv.LinkParentBlock poolWithEvictedChild.bc (sampleBlock 11 0 1)
        ⟨[0], [], 0, 0, [0]⟩ = none ∧
      sampleEnv.VerifyExecution poolWithEvictedChild.bc (sampleBlock 11 0 1)
        ⟨[0], [], 0, 0, [0]⟩ = none) ∧
    (attachChildren poolWithEvictedChild.heap.length (sampleBlock 11 0 1).hash
        (addToPool poolWithEvictedChild (sampleBlock 11 0 1)).1.cache.Keys
        (addToPool poolWithEvictedChild (sampleBlock 11 0 1)).1.cache
        (addToPool poolWithEvictedChild (sampleBlock 11 0 1)).1.heap).map
      (fun ch => (ch.2.map (fun n => (n.hash, n.block.isSome, n.childBlocks)),
        travelToLinkAndReturnAllValidBlocks sampleEnv poolWithEvictedChild.bc ch.2 8
          poolWithEvictedChild.heap.length ⟨[0], [], 0, 0, [0]⟩))
      = some ([([12], true, some [([13], 1), ([15], 2)]), ([13], false, none),
          ([15], false, none), ([11], true, some [([12], 0)])], .panic) ∧
    (push sampleEnv 8 poolWithEvictedChild "p" (sampleBlock 11 0 1)).out = .panic := by
  refine ⟨?_, by decide, by decide, by decide, rfl, by decide⟩
  have h0 : Reachable sampleEnv smallPool := Reachable.init 2 smallPool.bc smallPool rfl
  have h1 := Reachable.push smallPool 8 "p" (sampleBlock 12 11 2)
    (some .ErrInvalidBlockCannotFindParentInLocalAndTryDownload) h0 (by decide)
  have h2 := Reachable.push _ 8 "p" (sampleBlock 13 12 3) none h1 (by decide)
  exact Reachable.push _ 8 "p" (sampleBlock 15 12 5) none h2 (by decide)

/-- The traversal on a finite tree of live nodes rooted at `lb` (block `b`): it returns
the error `e` exactly when `LinkParentBlock` or, after it passed, `VerifyExecution` of the
root against the chain parent returns `e`; when both pass it returns the root followed,
child by child, by the blocks of the children whose own traversal verifies, a failing
child contributing nothing; and the traversal of every child returns. -/
theorem travel_fails_only_at_root {σ : Type} (env : Env σ) (bc : σ)
    (heap : List linkedBlock) (depth lb : Nat) (parentBlock : Block) (n : linkedBlock)
    (b : Block) (htree : treeOk heap (depth + 1) lb = true)
    (hn : heap[lb]? = some n) (hb : n.block = some b) :
    (∀ e, travelToLinkAndReturnAllValidBlocks env bc heap (depth + 1) lb parentBlock
          = .ret (.error e)
        ↔ (env.LinkParentBlock bc b parentBlock = some e ∨
            (env.LinkParentBlock bc b parentBlock = none ∧
              env.VerifyExecution bc b parentBlock = some e))) ∧
    (env.LinkParentBlock bc b parentBlock = none →
      env.VerifyExecution bc b parentBlock = none →
      travelToLinkAndReturnAllValidBlocks env bc heap (depth + 1) lb parentBlock
        = .ret (.ok (b :: (((n.childBlocks.getD []).map Prod.snd).map (fun c =>
              validAll (travelToLinkAndReturnAllValidBlocks env bc heap depth c b))).flatten,
            (if ((n.childBlocks.getD []).map Prod.snd).length = 0 then [b] else [])
              ++ (((n.childBlocks.getD []).map Prod.snd).map (fun c =>
                validTails
                  (travelToLinkAndReturnAllValidBlocks env bc heap depth c b))).flatten))) ∧
    (∀ c ∈ (n.childBlocks.getD []).map Prod.snd,
      ∃ r, travelToLinkAndReturnAllValidBlocks env bc heap depth c b = .ret r) := by
  obtain ⟨n2, b2, hn2, hb2, hch, hkids⟩ := treeOk_node heap depth lb htree
  rw [hn] at hn2
  cases hn2
  rw [hb] at hb2
  cases hb2
  have hret : ∀ c ∈ (n.childBlocks.getD []).map Prod.snd,
      ∃ r, travelToLinkAndReturnAllValidBlocks env bc heap depth c b = .ret r :=
    fun c hc => travel_total env bc heap depth c b (hkids c hc)
  refine ⟨?_, ?_, hret⟩
  · intro e
    cases hl : env.LinkParentBlock bc b parentBlock with
    | some e1 =>
      have ht : travelToLinkAndReturnAllValidBlocks env bc heap (depth + 1) lb parentBlock
          = .ret (.error e1) := by
        rw [travelToLinkAndReturnAllValidBlocks]
        simp only [hn, hb, hch, hl, Bool.true_eq_false, if_false]
      rw [ht]
      constructor
      · intro h
        cases h
        exact Or.inl rfl
      · intro h
        rcases h with h | h
        · cases h; rfl
        · cases h.1
    | none =>
      cases hv : env.VerifyExecution bc b parentBlock with
      | some e1 =>
        have ht : travelToLinkAndReturnAllValidBlocks env bc heap (depth + 1) lb parentBlock
            = .ret (.error e1) := by
          rw [travelToLinkAndReturnAllValidBlocks]
          simp only [hn, hb, hch, hl, hv, Bool.true_eq_false, if_false]
        rw [ht]
        constructor
        · intro h
          cases h
          exact Or.inr ⟨rfl, rfl⟩
        · intro h
          rcases h with h | h
          · cases h
          · cases h.2; rfl
      | none =>
        rw [travel_unfold env bc heap depth lb parentBlock n b hn hb hch hl hv hret]
        constructor
        · intro h
          cases h
        · intro h
          rcases h with h | h
          · cases h
          · cases h.2
  · intro hl hv
    exact travel_unfold env bc heap depth lb parentBlock n b hn hb hch hl hv hret

/-- The traversal on the live tree of 11 with the children 12 and 13, where the
execution of 13 fails: the traversal returns 11 and 12, and 12 is the only tail. -/
theorem travel_fails_only_at_root_witness :
    travelToLinkAndReturnAllValidBlocks pickyEnv samplePool.bc treeHeap 1 2 (sampleBlock 11 0 1)
      = .ret (.error (Err.other 2)) ∧
    travelToLinkAndReturnAllValidBlocks pickyEnv samplePool.bc treeHeap 2 0 ⟨[0], [], 0, 0, [0]⟩
      = .ret (.ok ([sampleBlock 11 0 1, sampleBlock 12 11 2], [sampleBlock 12 11 2])) :=
  ⟨rfl,
    ((travel_fails_only_at_root pickyEnv samplePool.bc treeHeap 1 0 ⟨[0], [], 0, 0, [0]⟩
      ({ newLinkedBlock (sampleBlock 11 0 1) with childBlocks := some [([12], 1), ([13], 2)] })
      (sampleBlock 11 0 1) (by decide) (by decide) rfl).2.1 rfl rfl).trans rfl⟩

/-- C17: a `DownloadedBlock` message whose payload parses to `{hash, sign}`. A reply is
sent exactly when the hash is not the genesis hash, the chain store has a block under
the hash, the signature of that block equals `sign`, the chain store has the parent of
that block, and the parent converts and marshals; the reply is then one
`DownloadedBlockReply` message to the requesting peer with the marshalled parent. In
every other case nothing is sent. -/
theorem handleDownloadedBlock_reply {σ π : Type} (w : Wire π) (env : Env σ)
    (GenesisHash : Hash) (unmarshal : Bytes → Except Err DownloadBlock)
    (pool : BlockPool σ) (msg : Message) (hash sign : Hash)
    (htype : msg.messageType = .MessageTypeDownloadedBlock)
    (hparse : unmarshal msg.data = .ok { hash := hash, sign := sign }) :
    (handleDownloadedBlock w env GenesisHash unmarshal pool msg ≠ [] ↔
      hash ≠ GenesisHash ∧ ∃ block parent pbBlock bytes,
        env.GetBlock pool.bc hash = some block ∧ block.signature = sign ∧
        env.GetBlock pool.bc block.parentHash = some parent ∧
        w.ToProto parent = .ok pbBlock ∧ w.Marshal pbBlock = (bytes, none)) ∧
    (∀ block parent pbBlock bytes, hash ≠ GenesisHash →
      env.GetBlock pool.bc hash = some block → block.signature = sign →
      env.GetBlock pool.bc block.parentHash = some parent →
      w.ToProto parent = .ok pbBlock → w.Marshal pbBlock = (bytes, none) →
      handleDownloadedBlock w env GenesisHash unmarshal pool msg
        = [Event.SendMsg .MessageTypeDownloadedBlockReply bytes msg.messageFrom
            .MessagePriorityNormal]) := by
  have hsend : ∀ block parent pbBlock bytes, hash ≠ GenesisHash →
      env.GetBlock pool.bc hash = some block → block.signature = sign →
      env.GetBlock pool.bc block.parentHash = some parent →
      w.ToProto parent = .ok pbBlock → w.Marshal pbBlock = (bytes, none) →
      handleDownloadedBlock w env GenesisHash unmarshal pool msg
        = [Event.SendMsg .MessageTypeDownloadedBlockReply bytes msg.messageFrom
            .MessagePriorityNormal] := by
    intro block parent pbBlock bytes h1 h2 h3 h4 h5 h6
    simp [handleDownloadedBlock, htype, hparse, h1, h2, h3, h4, h5, h6]
  refine ⟨⟨fun hne => ?_, ?_⟩, hsend⟩
  · unfold handleDownloadedBlock at hne
    simp only [htype, hparse, ne_eq, not_true_eq_false, if_false] at hne
    by_cases h1 : hash = GenesisHash
    · simp [h1] at hne
    · simp only [if_neg h1] at hne
      cases h2 : env.GetBlock pool.bc hash with
      | none => simp [h2] at hne
      | some block =>
        simp only [h2] at hne
        by_cases h3 : block.signature = sign
        · simp only [h3, not_true_eq_false, if_false] at hne
          cases h4 : env.GetBlock pool.bc block.parentHash with
          | none => simp [h4] at hne
          | some parent =>
            simp only [h4] at hne
            cases h5 : w.ToProto parent with
            | error e => simp [h5] at hne
            | ok pbBlock =>
              simp only [h5] at hne
              cases h6 : w.Marshal pbBlock with
              | mk bytes err =>
                cases err with
                | some e => simp [h6] at hne
                | none => exact ⟨h1, block, parent, pbBlock, bytes, rfl, h3, h4, h5, h6⟩
        · simp [h3] at hne
  · rintro ⟨h1, block, parent, pbBlock, bytes, h2, h3, h4, h5, h6⟩
    rw [hsend block parent pbBlock bytes h1 h2 h3 h4 h5 h6]
    simp

/-- The statement of C17 on a chain holding block 1 on block 0: peer "p" asks with the
hash and the signature of block 1 and gets block 0. -/
theorem handleDownloadedBlock_reply_witness :
    sampleUnmarshal [1, 1, 1, 1] = .ok { hash := [1], sign := [1, 1] } ∧
    handleDownloadedBlock byteWire sampleEnv [0] sampleUnmarshal chainPool
        ⟨.MessageTypeDownloadedBlock, [1, 1, 1, 1], "p"⟩
      = [Event.SendMsg .MessageTypeDownloadedBlockReply [0, 0] "p" .MessagePriorityNormal] :=
  ⟨rfl,
   (handleDownloadedBlock_reply byteWire sampleEnv [0] sampleUnmarshal chainPool
      ⟨.MessageTypeDownloadedBlock, [1, 1, 1, 1], "p"⟩ [1] [1, 1] rfl rfl).2
      (sampleBlock 1 0 1) ⟨[0], [], 0, 0, [0]⟩ [0, 0] [0, 0] (by decide) rfl rfl rfl rfl rfl⟩

/-- C18 fails on the code: at Unix time 1700000000 a `NewBlock` message carries a block
whose timestamp is the least `int64`. `now - timestamp` is `2^63 + 1700000000`, far
above the accepted delay of 2 seconds, but the `int64` difference wraps to a negative
number, the test `behind > AcceptedNetWorkDelay` is false and the block is forwarded to
`PushAndRelay`. -/
theorem handleBlock_overflow_forwards :
    (stampWire.FromProto [11, 10, 0]).1.timestamp = -2 ^ 63 ∧
    (1700000000 : Int) - (stampWire.FromProto [11, 10, 0]).1.timestamp > 2 ∧
    wrapInt64 (1700000000 - (stampWire.FromProto [11, 10, 0]).1.timestamp) < 0 ∧
    handleBlock stampWire sampleEnv [] 2 1700000000 16 samplePool
        ⟨.MessageTypeNewBlock, [11, 10, 0], "p"⟩
      = some (PushAndRelay stampWire sampleEnv 16 samplePool "p"
          (stampWire.FromProto [11, 10, 0]).1) ∧
    handleBlock stampWire sampleEnv [] 2 1700000000 16 samplePool
        ⟨.MessageTypeNewBlock, [11, 10, 0], "p"⟩ ≠ none := by
  decide

/-- C19: `StartActiveSync` returns true exactly when no task is active before the call.
When it returns true, one task is created and started, and it is the active task
afterwards; when it returns false, the service is unchanged and no task is created.
Of two calls in a row, the second returns false and leaves the task of the first
active. -/
theorem StartActiveSync_single_flight (ss : Service) :
    (ss.StartActiveSync.1 = true ↔ ss.activeTask = none) ∧
    (ss.StartActiveSync.1 = true →
      ss.StartActiveSync.2.1.activeTask = some ss.created ∧
      ss.StartActiveSync.2.1.created = ss.created + 1 ∧
      ss.StartActiveSync.2.2 = [SyncEvent.NewTask ss.created, SyncEvent.TaskStart ss.created]) ∧
    (ss.StartActiveSync.1 = false →
      ss.StartActiveSync.2.1 = ss ∧ ss.StartActiveSync.2.2 = []) ∧
    (ss.StartActiveSync.2.1.StartActiveSync.1 = false ∧
      ss.StartActiveSync.2.1.StartActiveSync.2.1 = ss.StartActiveSync.2.1 ∧
      ss.StartActiveSync.2.1.StartActiveSync.2.2 = []) := by
  obtain ⟨task, created⟩ := ss
  cases task <;> simp [Service.StartActiveSync, Service.IsActiveSyncing]

/-- The statement of C19 at a new service: the first call starts task 0, the second
call returns false. -/
theorem StartActiveSync_single_flight_witness :
    NewService.StartActiveSync.1 = true ∧
    NewService.StartActiveSync.2.1.activeTask = some 0 ∧
    NewService.StartActiveSync.2.1.StartActiveSync.1 = false :=
  ⟨(StartActiveSync_single_flight NewService).1.mpr rfl,
    ((StartActiveSync_single_flight NewService).2.1
      ((StartActiveSync_single_flight NewService).1.mpr rfl)).1,
    (StartActiveSync_single_flight NewService).2.2.2.1⟩

/-- C20: the calls of `onChainSync`. While a task is active, none. Otherwise an
unparseable payload closes the sender with `ErrInvalidChainSyncMessageData` and sends
nothing; a parsed payload whose headers are generated without error or with
`ErrTooSmallGapToSync` is answered by one `ChainChunks` message to the sender (the
marshalled headers, low priority), and any other error gives no call at all. -/
theorem onChainSync_calls {χ η δ : Type} (env : SyncEnv χ η δ) (ss : Service)
    (message : Message) :
    (ss.activeTask ≠ none → ss.onChainSync env message = []) ∧
    (ss.activeTask = none →
      (∀ e, env.UnmarshalSync message.data = .error e →
        ss.onChainSync env message
          = [SyncEvent.ClosePeer message.messageFrom .ErrInvalidChainSyncMessageData]) ∧
      (∀ tail, env.UnmarshalSync message.data = .ok tail →
        ((env.generateChunkHeaders tail).2 = none ∨
            (env.generateChunkHeaders tail).2 = some .ErrTooSmallGapToSync →
          ∀ data, env.MarshalChunkHeaders (env.generateChunkHeaders tail).1 = .ok data →
            ss.onChainSync env message
              = [SyncEvent.SendMessageToPeer .ChainChunks data .MessagePriorityLow
                  message.messageFrom]) ∧
        (¬ ((env.generateChunkHeaders tail).2 = none ∨
            (env.generateChunkHeaders tail).2 = some .ErrTooSmallGapToSync) →
          ss.onChainSync env message = []))) := by
  constructor
  · intro h
    cases ht : ss.activeTask with
    | none => exact absurd ht h
    | some t => simp [Service.onChainSync, Service.IsActiveSyncing, ht]
  · intro h
    refine ⟨fun e he => ?_, fun tail ht => ⟨fun hg data hm => ?_, fun hg => ?_⟩⟩
    · simp [Service.onChainSync, Service.IsActiveSyncing, h, he]
    · have hc : ¬ ((env.generateChunkHeaders tail).2 ≠ none ∧
          (env.generateChunkHeaders tail).2 ≠ some .ErrTooSmallGapToSync) := by
        rintro ⟨h1, h2⟩
        rcases hg with h3 | h3
        · exact h1 h3
        · exact h2 h3
      simp only [Service.onChainSync, Service.IsActiveSyncing, h, ht]
      simp only [if_neg hc, sendChainChunks, hm]
      simp
    · have hc : (env.generateChunkHeaders tail).2 ≠ none ∧
          (env.generateChunkHeaders tail).2 ≠ some .ErrTooSmallGapToSync :=
        ⟨fun h1 => hg (Or.inl h1), fun h1 => hg (Or.inr h1)⟩
      simp only [Service.onChainSync, Service.IsActiveSyncing, h, ht]
      simp [if_pos hc]

/-- The statement of C20 at a new service: a `ChainSync` message of peer "p" for the
tail `[1]` is answered with the two marshalled headers; for the tail `[0]`, where the
gap is too small, with the empty list of headers; for an unknown tail with nothing. -/
theorem onChainSync_calls_witness :
    NewService.onChainSync sampleSyncEnv ⟨.ChainSync, [1], "p"⟩
      = [SyncEvent.SendMessageToPeer .ChainChunks [2, 2, 3] .MessagePriorityLow "p"] ∧
    NewService.onChainSync sampleSyncEnv ⟨.ChainSync, [0], "p"⟩
      = [SyncEvent.SendMessageToPeer .ChainChunks [0] .MessagePriorityLow "p"] ∧
    NewService.onChainSync sampleSyncEnv ⟨.ChainSync, [7], "p"⟩ = [] ∧
    NewService.onChainSync sampleSyncEnv ⟨.ChainSync, [], "p"⟩
      = [SyncEvent.ClosePeer "p" .ErrInvalidChainSyncMessageData] :=
  ⟨(((onChainSync_calls sampleSyncEnv NewService ⟨.ChainSync, [1], "p"⟩).2 rfl).2
      [1] rfl).1 (Or.inl rfl) [2, 2, 3] rfl,
    (((onChainSync_calls sampleSyncEnv NewService ⟨.ChainSync, [0], "p"⟩).2 rfl).2
      [0] rfl).1 (Or.inr rfl) [0] rfl,
    (((onChainSync_calls sampleSyncEnv NewService ⟨.ChainSync, [7], "p"⟩).2 rfl).2
      [7] rfl).2 (by decide),
    ((onChainSync_calls sampleSyncEnv NewService ⟨.ChainSync, [], "p"⟩).2 rfl).1
      (.other 1) rfl⟩

/-- C21: the calls of `onChainGetChunk`. While a task is active, none. Otherwise an
unparseable payload closes the sender with `ErrInvalidChainGetChunkMessageData`; a parsed
header for which `generateChunkData` fails with `ErrWrongChunkHeaderRootHash` closes the
sender with that error; any other error gives no call at all; and when the data is
generated, one `ChainChunkData` message with the marshalled data is sent to the sender
at low priority, and the peer is not closed. -/
theorem onChainGetChunk_calls {χ η δ : Type} (env : SyncEnv χ η δ) (ss : Service)
    (message : Message) :
    (ss.activeTask ≠ none → ss.onChainGetChunk env message = []) ∧
    (ss.activeTask = none →
      (∀ e, env.UnmarshalChunkHeader message.data = .error e →
        ss.onChainGetChunk env message
          = [SyncEvent.ClosePeer message.messageFrom .ErrInvalidChainGetChunkMessageData]) ∧
      (∀ header, env.UnmarshalChunkHeader message.data = .ok header →
        ((env.generateChunkData header).2 = some .ErrWrongChunkHeaderRootHash →
          ss.onChainGetChunk env message
            = [SyncEvent.ClosePeer message.messageFrom .ErrWrongChunkHeaderRootHash]) ∧
        (∀ err, (env.generateChunkData header).2 = some err →
          err ≠ .ErrWrongChunkHeaderRootHash → ss.onChainGetChunk env message = []) ∧
        ((env.generateChunkData header).2 = none →
          ∀ data, env.MarshalChunkData (env.generateChunkData header).1 = .ok data →
            ss.onChainGetChunk env message
              = [SyncEvent.SendMessageToPeer .ChainChunkData data .MessagePriorityLow
                  message.messageFrom]))) := by
  constructor
  · intro h
    cases ht : ss.activeTask with
    | none => exact absurd ht h
    | some t => simp [Service.onChainGetChunk, Service.IsActiveSyncing, ht]
  · intro h
    refine ⟨(fun e he => ?_), (fun header hh => ⟨(fun hg => ?_), (fun err hg hne => ?_),
      (fun hg data hm => ?_)⟩)⟩
    · simp [Service.onChainGetChunk, Service.IsActiveSyncing, h, he]
    · rcases hgen : env.generateChunkData header with ⟨d, err⟩
      rw [hgen] at hg
      simp only at hg
      subst hg
      simp [Service.onChainGetChunk, Service.IsActiveSyncing, h, hh, hgen]
    · rcases hgen : env.generateChunkData header with ⟨d, err2⟩
      rw [hgen] at hg
      simp only at hg
      subst hg
      simp [Service.onChainGetChunk, Service.IsActiveSyncing, h, hh, hgen, hne]
    · rcases hgen : env.generateChunkData header with ⟨d, err⟩
      rw [hgen] at hg hm
      simp only at hg hm
      subst hg
      simp [Service.onChainGetChunk, Service.IsActiveSyncing, h, hh, hgen, sendChainChunkData,
        hm]

/-- The statement of C21 at a new service and peer "p": the header `[2]` is answered
with the marshalled chunk data, the header `[9]` with a wrong root hash closes the peer,
an unknown header gives no call, and an unparseable payload closes the peer. -/
theorem onChainGetChunk_calls_witness :
    NewService.onChainGetChunk sampleSyncEnv ⟨.ChainGetChunk, [2], "p"⟩
      = [SyncEvent.SendMessageToPeer .ChainChunkData [2] .MessagePriorityLow "p"] ∧
    NewService.onChainGetChunk sampleSyncEnv ⟨.ChainGetChunk, [9], "p"⟩
      = [SyncEvent.ClosePeer "p" .ErrWrongChunkHeaderRootHash] ∧
    NewService.onChainGetChunk sampleSyncEnv ⟨.ChainGetChunk, [7], "p"⟩ = [] ∧
    NewService.onChainGetChunk sampleSyncEnv ⟨.ChainGetChunk, [], "p"⟩
      = [SyncEvent.ClosePeer "p" .ErrInvalidChainGetChunkMessageData] :=
  ⟨(((onChainGetChunk_calls sampleSyncEnv NewService ⟨.ChainGetChunk, [2], "p"⟩).2 rfl).2
      [2] rfl).2.2 rfl [2] rfl,
    (((onChainGetChunk_calls sampleSyncEnv NewService ⟨.ChainGetChunk, [9], "p"⟩).2 rfl).2
      [9] rfl).1 rfl,
    (((onChainGetChunk_calls sampleSyncEnv NewService ⟨.ChainGetChunk, [7], "p"⟩).2 rfl).2
      [7] rfl).2.1 (.other 3) rfl (by decide),
    ((onChainGetChunk_calls sampleSyncEnv NewService ⟨.ChainGetChunk, [], "p"⟩).2 rfl).1
      (.other 1) rfl⟩

/-- C22 fails on the code: block 11, whose parent is in the chain, is pushed over a wire
form whose `proto.Marshal` fails with error 7, and over one whose `FromProto` fails with
error 8. In both cases `mockBlockFromNetwork` returns a block and no error; `Push`,
`PushAndRelay` and `PushAndBroadcast` run the admission (the block is promoted by
`putVerifiedNewBlocks`) and return nil instead of the error. -/
theorem Push_ignores_marshal_error :
    (marshalFailWire.ToProto (sampleBlock 11 0 1)).toOption.map marshalFailWire.Marshal
      = some ([], some (Err.other 7)) ∧
    (fromProtoFailWire.FromProto (sampleBlock 11 0 1)).2 = some (Err.other 8) ∧
    (Push marshalFailWire sampleEnv 8 samplePool (sampleBlock 11 0 1)).out = .ret none ∧
    (PushAndRelay marshalFailWire sampleEnv 8 samplePool "p" (sampleBlock 11 0 1)).out
      = .ret none ∧
    (PushAndBroadcast marshalFailWire sampleEnv 8 samplePool (sampleBlock 11 0 1)).out
      = .ret none ∧
    (Push fromProtoFailWire sampleEnv 8 samplePool (sampleBlock 11 0 1)).out = .ret none ∧
    (PushAndRelay fromProtoFailWire sampleEnv 8 samplePool "p" (sampleBlock 11 0 1)).out
      = .ret none ∧
    (PushAndBroadcast fromProtoFailWire sampleEnv 8 samplePool (sampleBlock 11 0 1)).out
      = .ret none ∧
    Event.PutVerifiedNewBlocks ⟨[0], [], 0, 0, [0]⟩ [sampleBlock 11 0 1] [sampleBlock 11 0 1]
      ∈ (Push marshalFailWire sampleEnv 8 samplePool (sampleBlock 11 0 1)).events ∧
    Event.PutVerifiedNewBlocks ⟨[0], [], 0, 0, [0]⟩ [sampleBlock 11 0 1] [sampleBlock 11 0 1]
      ∈ (Push fromProtoFailWire sampleEnv 8 samplePool (sampleBlock 11 0 1)).events := by
  decide

/-- C23 fails in a reachable pool: after the local pushes of the orphan 12 and of its
children 13, 15 and 16 into a pool of capacity 3, the node of 12 is cached and its child
map still contains the node of 13, evicted and disposed by the insertion of 16. Block
11, parent of 12 and child of the chain block 0, is pushed locally; the attach loop
links 12 to it and the traversal starts at 11. The root verifies (every block does
here) and the nodes that verify with all their ancestors are 11, 12 and 16, but the
traversal returns no listing: it reaches the disposed node 13, whose block is nil, and
panics, and so does `Push`. -/
theorem travel_panics_instead_of_listing :
    Reachable sampleEnv poolLocalEvictedChild ∧
    poolLocalEvictedChild.wellFormed = true ∧
    (sampleEnv.LinkParentBlock poolLocalEvictedChild.bc (sampleBlock 11 0 1)
        ⟨[0], [], 0, 0, [0]⟩ = none ∧
      sampleEnv.VerifyExecution poolLocalEvictedChild.bc (sampleBlock 11 0 1)
        ⟨[0], [], 0, 0, [0]⟩ = none) ∧
    (attachChildren poolLocalEvictedChild.heap.length (sampleBlock 11 0 1).hash
        (addToPool poolLocalEvictedChild (sampleBlock 11 0 1)).1.cache.Keys
        (addToPool poolLocalEvictedChild (sampleBlock 11 0 1)).1.cache
        (addToPool poolLocalEvictedChild (sampleBlock 11 0 1)).1.heap).map
      (fun ch =>
        (travelToLinkAndReturnAllValidBlocks sampleEnv poolLocalEvictedChild.bc ch.2 8
          poolLocalEvictedChild.heap.length ⟨[0], [], 0, 0, [0]⟩,
         preorderValid sampleEnv poolLocalEvictedChild.bc ch.2 8
          poolLocalEvictedChild.heap.length ⟨[0], [], 0, 0, [0]⟩))
      = some (.panic, [sampleBlock 11 0 1, sampleBlock 12 11 2, sampleBlock 16 12 6]) ∧
    (push sampleEnv 8 poolLocalEvictedChild NoSender (sampleBlock 11 0 1)).out = .panic ∧
    (Push sampleWire sampleEnv 8 poolLocalEvictedChild (sampleBlock 11 0 1)).out = .panic := by
  refine ⟨?_, by decide, by decide, rfl, by decide, by decide⟩
  have h0 : Reachable sampleEnv samplePool := Reachable.init 3 samplePool.bc samplePool rfl
  have h1 := Reachable.push samplePool 8 NoSender (sampleBlock 12 11 2)
    (some .ErrMissingParentBlock) h0 (by decide)
  have h2 := Reachable.push _ 8 NoSender (sampleBlock 13 12 3)
    (some .ErrMissingParentBlock) h1 (by decide)
  have h3 := Reachable.push _ 8 NoSender (sampleBlock 15 12 5)
    (some .ErrMissingParentBlock) h2 (by decide)
  exact Reachable.push _ 8 NoSender (sampleBlock 16 12 6)
    (some .ErrMissingParentBlock) h3 (by decide)

/-- On a finite tree of live nodes whose root verifies against the chain parent, the
traversal returns as `allBlocks` the pre-order listing of the nodes that verify
together with all their ancestors (`preorderValid`) and as `tailBlocks` the listed nodes
with an empty child map (`tailsValid`). The tails are a sub-list of the blocks, and when
every node verifies the two lists are all nodes of the tree in pre-order and its
leaves. -/
theorem travel_returns_preorder {σ : Type} (env : Env σ) (bc : σ)
    (heap : List linkedBlock) (depth lb : Nat) (parentBlock : Block) (n : linkedBlock)
    (b : Block) (htree : treeOk heap (depth + 1) lb = true)
    (hn : heap[lb]? = some n) (hb : n.block = some b)
    (hl : env.LinkParentBlock bc b parentBlock = none)
    (hv : env.VerifyExecution bc b parentBlock = none) :
    travelToLinkAndReturnAllValidBlocks env bc heap (depth + 1) lb parentBlock
      = .ret (.ok (preorderValid env bc heap (depth + 1) lb parentBlock,
          tailsValid env bc heap (depth + 1) lb parentBlock)) ∧
    (tailsValid env bc heap (depth + 1) lb parentBlock).Sublist
      (preorderValid env bc heap (depth + 1) lb parentBlock) ∧
    (allVerify env bc heap (depth + 1) lb parentBlock = true →
      preorderValid env bc heap (depth + 1) lb parentBlock = preorder heap (depth + 1) lb ∧
      tailsValid env bc heap (depth + 1) lb parentBlock = leaves heap (depth + 1) lb) := by
  refine ⟨?_, tailsValid_sublist env bc heap (depth + 1) lb parentBlock,
    preorderValid_of_allVerify env bc heap (depth + 1) lb parentBlock⟩
  rcases travel_cases env bc heap depth lb parentBlock n b htree hn hb with
    ⟨e, he, _⟩ | ⟨_, _, h⟩
  · rcases he with he | he
    · rw [hl] at he; cases he
    · rw [hv] at he; cases he.2
  · exact h

/-- The traversal on the live tree 11 - (12 - 14, 13 - 15). When the execution of 13
fails, the traversal returns 11, 12, 14 with the tail 14: block 15 verifies but hangs
below 13. When every block verifies it returns the five blocks in pre-order and the
leaves 14 and 15. -/
theorem travel_returns_preorder_witness :
    travelToLinkAndReturnAllValidBlocks pickyEnv samplePool.bc deepTreeHeap 3 0
        ⟨[0], [], 0, 0, [0]⟩
      = .ret (.ok ([sampleBlock 11 0 1, sampleBlock 12 11 2, sampleBlock 14 12 4],
          [sampleBlock 14 12 4])) ∧
    travelToLinkAndReturnAllValidBlocks sampleEnv samplePool.bc deepTreeHeap 3 0
        ⟨[0], [], 0, 0, [0]⟩
      = .ret (.ok ([sampleBlock 11 0 1, sampleBlock 12 11 2, sampleBlock 14 12 4,
            sampleBlock 13 11 3, sampleBlock 15 13 5],
          [sampleBlock 14 12 4, sampleBlock 15 13 5])) ∧
    leaves deepTreeHeap 3 0 = [sampleBlock 14 12 4, sampleBlock 15 13 5] :=
  ⟨((travel_returns_preorder pickyEnv samplePool.bc deepTreeHeap 2 0 ⟨[0], [], 0, 0, [0]⟩
      ({ newLinkedBlock (sampleBlock 11 0 1) with childBlocks := some [([12], 1), ([13], 2)] })
      (sampleBlock 11 0 1) (by decide) (by decide) rfl rfl rfl).1).trans rfl,
    ((travel_returns_preorder sampleEnv samplePool.bc deepTreeHeap 2 0 ⟨[0], [], 0, 0, [0]⟩
      ({ newLinkedBlock (sampleBlock 11 0 1) with childBlocks := some [([12], 1), ([13], 2)] })
      (sampleBlock 11 0 1) (by decide) (by decide) rfl rfl rfl).1).trans rfl,
    by decide⟩

/-- C24: two heaps hold the same finite tree of live nodes with the children of each node
enumerated in two orders. Either both traversals return the same error, that of the
root, or both return blocks: the two `allBlocks` are permutations of each other, so are
the two `tailBlocks` (the same blocks, in another order), and each `allBlocks` is the
pre-order listing for the enumeration order of its run. -/
theorem travel_order_independent {σ : Type} (env : Env σ) (bc : σ)
    (heap heap2 : List linkedBlock) (depth lb : Nat) (parentBlock : Block)
    (htree : treeOk heap depth lb = true) (hre : Reordered heap heap2) :
    (∃ e, travelToLinkAndReturnAllValidBlocks env bc heap depth lb parentBlock
          = .ret (.error e) ∧
        travelToLinkAndReturnAllValidBlocks env bc heap2 depth lb parentBlock
          = .ret (.error e)) ∨
    (∃ a t a2 t2,
      travelToLinkAndReturnAllValidBlocks env bc heap depth lb parentBlock
        = .ret (.ok (a, t)) ∧
      travelToLinkAndReturnAllValidBlocks env bc heap2 depth lb parentBlock
        = .ret (.ok (a2, t2)) ∧
      a.Perm a2 ∧ t.Perm t2 ∧ (∀ x, x ∈ a ↔ x ∈ a2) ∧ (∀ x, x ∈ t ↔ x ∈ t2) ∧
      a = preorderValid env bc heap depth lb parentBlock ∧
      a2 = preorderValid env bc heap2 depth lb parentBlock) := by
  cases depth with
  | zero => simp [treeOk] at htree
  | succ depth =>
    have htree2 := reordered_treeOk heap heap2 hre (depth + 1) lb htree
    obtain ⟨n, b, hn, hb, _, _⟩ := treeOk_node heap depth lb htree
    obtain ⟨n2, hn2, hb2, _, _⟩ := hre.2 lb n hn
    have hb2b : n2.block = some b := hb2.trans hb
    obtain ⟨hpa, hpt⟩ := reordered_perm env bc heap heap2 hre (depth + 1) lb parentBlock htree
    rcases travel_cases env bc heap depth lb parentBlock n b htree hn hb with
      ⟨e, he, h1⟩ | ⟨hl, hv, h1⟩
    · rcases travel_cases env bc heap2 depth lb parentBlock n2 b htree2 hn2 hb2b with
        ⟨e2, he2, h2⟩ | ⟨hl2, hv2, _⟩
      · have hee : e2 = e := by
          rcases he with he | he <;> rcases he2 with he2 | he2
          · rw [he] at he2; exact (Option.some.inj he2).symm
          · rw [he] at he2; cases he2.1
          · rw [he2] at he; cases he.1
          · rw [he.2] at he2; exact (Option.some.inj he2.2).symm
        exact Or.inl ⟨e, h1, hee ▸ h2⟩
      · rcases he with he | he
        · rw [hl2] at he; cases he
        · rw [hv2] at he; cases he.2
    · rcases travel_cases env bc heap2 depth lb parentBlock n2 b htree2 hn2 hb2b with
        ⟨e2, he2, _⟩ | ⟨_, _, h2⟩
      · rcases he2 with he2 | he2
        · rw [hl] at he2; cases he2
        · rw [hv] at he2; cases he2.2
      · exact Or.inr ⟨_, _, _, _, h1, h2, hpa, hpt, (fun x => hpa.mem_iff),
          (fun x => hpt.mem_iff), rfl, rfl⟩

/-- The statement of C24 on the tree 11 - (12 - 14, 13 - 15) with the children of 11
enumerated as 12, 13 and as 13, 12: the two runs return the five blocks in the two
pre-orders, and the tails 14, 15 in the two orders. -/
theorem travel_order_independent_witness :
    travelToLinkAndReturnAllValidBlocks sampleEnv samplePool.bc deepTreeHeap 3 0
        ⟨[0], [], 0, 0, [0]⟩
      = .ret (.ok ([sampleBlock 11 0 1, sampleBlock 12 11 2, sampleBlock 14 12 4,
            sampleBlock 13 11 3, sampleBlock 15 13 5],
          [sampleBlock 14 12 4, sampleBlock 15 13 5])) ∧
    travelToLinkAndReturnAllValidBlocks sampleEnv samplePool.bc deepTreeHeapSwapped 3 0
        ⟨[0], [], 0, 0, [0]⟩
      = .ret (.ok ([sampleBlock 11 0 1, sampleBlock 13 11 3, sampleBlock 15 13 5,
            sampleBlock 12 11 2, sampleBlock 14 12 4],
          [sampleBlock 15 13 5, sampleBlock 14 12 4])) ∧
    ((∃ e, travelToLinkAndReturnAllValidBlocks sampleEnv samplePool.bc deepTreeHeap 3 0
          ⟨[0], [], 0, 0, [0]⟩ = .ret (.error e) ∧
        travelToLinkAndReturnAllValidBlocks sampleEnv samplePool.bc deepTreeHeapSwapped 3 0
          ⟨[0], [], 0, 0, [0]⟩ = .ret (.error e)) ∨
    (∃ a t a2 t2,
      travelToLinkAndReturnAllValidBlocks sampleEnv samplePool.bc deepTreeHeap 3 0
        ⟨[0], [], 0, 0, [0]⟩ = .ret (.ok (a, t)) ∧
      travelToLinkAndReturnAllValidBlocks sampleEnv samplePool.bc deepTreeHeapSwapped 3 0
        ⟨[0], [], 0, 0, [0]⟩ = .ret (.ok (a2, t2)) ∧
      a.Perm a2 ∧ t.Perm t2 ∧ (∀ x, x ∈ a ↔ x ∈ a2) ∧ (∀ x, x ∈ t ↔ x ∈ t2) ∧
      a = preorderValid sampleEnv samplePool.bc deepTreeHeap 3 0 ⟨[0], [], 0, 0, [0]⟩ ∧
      a2 = preorderValid sampleEnv samplePool.bc deepTreeHeapSwapped 3 0
        ⟨[0], [], 0, 0, [0]⟩)) :=
  ⟨rfl, rfl,
    travel_order_independent sampleEnv samplePool.bc deepTreeHeap deepTreeHeapSwapped 3 0
      ⟨[0], [], 0, 0, [0]⟩ (by decide)
      (Reordered_of_reorderedOk deepTreeHeap deepTreeHeapSwapped (by decide))⟩

/-- C25 fails in a reachable pool: over a chain where the execution of block 13 fails,
peer "p" pushes the orphan 13 and then its parent 11, whose parent is in the chain.
Block 11 is promoted alone and the removal loop disposes its node (address 1); node 13
stays in the cache (address 0) with its parent pointer on the disposed node. When the
peer pushes 14, child of 13, the parent 13 is found in the cache, the walk over the
parent pointers ends on the disposed node, whose block is nil, and `download` panics. -/
theorem walk_reaches_promoted_node :
    Reachable pickyEnv pickyPool ∧
    pickyPool.wellFormed = true ∧
    Lru.lookup (sampleBlock 14 13 4).parentHash pickyPool.cache.items = some 0 ∧
    (pickyPool.heap[0]?).map (fun n => (n.block, n.parentBlock))
      = some (some (sampleBlock 13 11 3), some 1) ∧
    topAncestor pickyPool.heap 8 0 = .ret 1 ∧
    (pickyPool.heap[1]?).map (fun n => n.block) = some none ∧
    (download pickyEnv "p" none).1 = .panic ∧
    (push pickyEnv 8 pickyPool "p" (sampleBlock 14 13 4)).out = .panic := by
  refine ⟨?_, by decide, by decide, by decide, by decide, by decide, by decide, by decide⟩
  have h0 : Reachable pickyEnv samplePool := Reachable.init 3 samplePool.bc samplePool rfl
  have h1 := Reachable.push samplePool 8 "p" (sampleBlock 13 11 3)
    (some .ErrInvalidBlockCannotFindParentInLocalAndTryDownload) h0 (by decide)
  exact Reachable.push _ 8 "p" (sampleBlock 11 0 1) none h1 (by decide)

/-- C26: the memory storage is a finite map on byte-string keys, `byteutils.Hex` being
injective. `Get` after `Put(k, v)` returns `v`; `Get` after `Del(k)` and `Get` on a new
storage return `ErrKeyNotFound`; `Put` and `Del` on `k` leave `Get` of every other key
unchanged; `Put` on a batch leaves the storage unchanged; and after `Write` the `Get` of
a batched key returns the last value batched for it, the `Get` of every other key being
unchanged. -/
theorem MemoryStorage_finite_map {κ : Type} [DecidableEq κ] (Hex : Bytes → κ)
    (hinj : Function.Injective Hex) (db : MemoryStorage κ) (b : MemoryBatch κ)
    (k v : Bytes) :
    (db.Put Hex k v).Get Hex k = .ok v ∧
    (db.Del Hex k).Get Hex k = .error .ErrKeyNotFound ∧
    (NewMemoryStorage : MemoryStorage κ).Get Hex k = .error .ErrKeyNotFound ∧
    (∀ k2, k2 ≠ k →
      (db.Put Hex k v).Get Hex k2 = db.Get Hex k2 ∧
      (db.Del Hex k).Get Hex k2 = db.Get Hex k2) ∧
    (b.Put k v).db = b.db ∧ db.NewBatch.db = db ∧
    (∀ k2 v2, lastBatched b.entries k2 = some v2 → (b.Write Hex).db.Get Hex k2 = .ok v2) ∧
    (∀ k2, lastBatched b.entries k2 = none → (b.Write Hex).db.Get Hex k2 = b.db.Get Hex k2) ∧
    lastBatched (b.Put k v).entries k = some v := by
  refine ⟨?_, ?_, rfl, ?_, rfl, rfl, ?_, ?_, ?_⟩
  · simp only [MemoryStorage.Get, MemoryStorage.Put, SyncMap.Load_Store_self]
  · simp only [MemoryStorage.Get, MemoryStorage.Del, SyncMap.Load_Delete_self]
  · intro k2 hk
    have hne : Hex k2 ≠ Hex k := fun h => hk (hinj h)
    constructor
    · simp only [MemoryStorage.Get, MemoryStorage.Put, SyncMap.Load_Store_other _ _ _ _ hne]
    · simp only [MemoryStorage.Get, MemoryStorage.Del, SyncMap.Load_Delete_other _ _ _ hne]
  · intro k2 v2 h
    unfold MemoryBatch.Write
    simp only
    rw [Get_foldl_Put Hex hinj k2 b.entries b.db, h]
  · intro k2 h
    unfold MemoryBatch.Write
    simp only
    rw [Get_foldl_Put Hex hinj k2 b.entries b.db, h]
  · unfold MemoryBatch.Put
    simp only
    induction b.entries with
    | nil => simp [lastBatched]
    | cons e es ih =>
      rw [List.cons_append, lastBatched, ih]

/-- The statement of C26 on a storage keyed by the byte strings themselves, holding
`[1]` and `[2]`: a batch puts `[1]` twice and `[3]` once; before `Write` the storage
still returns the old value of `[1]`, after it the last value batched. -/
theorem MemoryStorage_finite_map_witness :
    (sampleStorage.Put id [1] [11]).Get id [1] = .ok [11] ∧
    (sampleStorage.Del id [1]).Get id [1] = .error .ErrKeyNotFound ∧
    (sampleStorage.Del id [1]).Get id [2] = .ok [20] ∧
    (((sampleStorage.NewBatch.Put [1] [12]).Put [3] [30]).Put [1] [13]).db.Get id [1]
      = .ok [10] ∧
    ((((sampleStorage.NewBatch.Put [1] [12]).Put [3] [30]).Put [1] [13]).Write id).db.Get
      id [1] = .ok [13] :=
  ⟨(MemoryStorage_finite_map id Function.injective_id sampleStorage sampleStorage.NewBatch
      [1] [11]).1,
    (MemoryStorage_finite_map id Function.injective_id sampleStorage sampleStorage.NewBatch
      [1] [11]).2.1,
    ((MemoryStorage_finite_map id Function.injective_id sampleStorage sampleStorage.NewBatch
      [1] [11]).2.2.2.1 [2] (by decide)).2.trans rfl,
    rfl,
    (MemoryStorage_finite_map id Function.injective_id sampleStorage
      (((sampleStorage.NewBatch.Put [1] [12]).Put [3] [30]).Put [1] [13])
      [1] [11]).2.2.2.2.2.2.1 [1] [13] rfl⟩

end Nebulas
